import Mathlib

/-!
shardmap: a sharded string-keyed map (src/map.go).

Shallow embedding of `Map` and its operations `New`, `Set`, `Get`, `Delete`,
`Len`, `Range`, `choose` and `initDo`.

* Go `int` is the 64-bit two's-complement integer: arithmetic results are
  reduced with `wrapInt`; `uint64` values are naturals below `2 ^ 64`.
* The three collaborators that are not part of the package are taken as
  parameters, bundled in `Deps`: `runtime.NumCPU`, `xxhash.Sum64String` and
  the table `rhh.Map` (an interface `Table` with the laws `Table.Lawful`).
* A call that does not return normally yields a `Fault`.
* Every operation also reports the lock events it performs, in order.
-/

namespace Shardmap

/-! ## Values, faults, lock events -/

/-- Values stored in the map (Go `interface{}`); `nil` is the zero value. -/
inductive Value where
  | nil
  | int (n : Int)
  | str (s : String)
  | bool (b : Bool)
  deriving DecidableEq, Repr

/-- Ways in which a call fails to return normally. -/
inductive Fault where
  | noReturn
  | indexOutOfRange
  | divideByZero
  | makesliceLen
  | alloc
  deriving DecidableEq, Repr

/-- Lock operations on the `sync.RWMutex` of the shard with the given index. -/
inductive LockEvent where
  | Lock (i : Nat)
  | Unlock (i : Nat)
  | RLock (i : Nat)
  | RUnlock (i : Nat)
  deriving DecidableEq, Repr

/-! ## Machine integers -/

/-- Reduction of an integer to the range of Go `int` (64-bit, wrapping). -/
def wrapInt (x : Int) : Int := (x + 2 ^ 63) % 2 ^ 64 - 2 ^ 63

/-- Conversion `uint64(x)` of a Go `int`. -/
def toUint64 (x : Int) : Nat := (x % 2 ^ 64).toNat

/-! ## The per-shard table `rhh.Map` (external) -/

/-- Modelled from the spec: the per-shard table `rhh.Map`, which is not part
of the package, as the capability that the package requires (`New`, `Get`,
`Set`, `Delete`, `Len`, `Range`). `entries t` is the sequence of key/value
pairs in the order in which `Range` walks them. -/
structure Table (T : Type) where
  New : Int → T
  Get : T → String → Value × Bool
  Set : T → String → Value → (Value × Bool) × T
  Delete : T → String → (Value × Bool) × T
  Len : T → Int
  entries : T → List (String × Value)

/-- Table states that can arise: a new table, then `Set` and `Delete`. -/
inductive Table.Reach {T : Type} (tb : Table T) : T → Prop where
  | new (c : Int) : Table.Reach tb (tb.New c)
  | set {t : T} (k : String) (v : Value) : Table.Reach tb t → Table.Reach tb (tb.Set t k v).2
  | delete {t : T} (k : String) : Table.Reach tb t → Table.Reach tb (tb.Delete t k).2

/-- Modelled from the spec: the contract of the per-shard table, a lawful
finite map from strings to values. `Get` reports `(nil, false)` for an absent
key, `Set` and `Delete` return what `Get` reported before them, `Range` walks
every entry once and `Len` counts the entries. -/
structure Table.Lawful {T : Type} (tb : Table T) : Prop where
  get_new : ∀ c k, tb.Get (tb.New c) k = (Value.nil, false)
  get_absent : ∀ t k, tb.Reach t → (tb.Get t k).2 = false → (tb.Get t k).1 = Value.nil
  set_ret : ∀ t k v, tb.Reach t → (tb.Set t k v).1 = tb.Get t k
  get_set : ∀ t k v k0, tb.Reach t →
    tb.Get (tb.Set t k v).2 k0 = if k0 = k then (v, true) else tb.Get t k0
  delete_ret : ∀ t k, tb.Reach t → (tb.Delete t k).1 = tb.Get t k
  get_delete : ∀ t k k0, tb.Reach t →
    tb.Get (tb.Delete t k).2 k0 = if k0 = k then (Value.nil, false) else tb.Get t k0
  entries_nodup : ∀ t, tb.Reach t → ((tb.entries t).map Prod.fst).Nodup
  mem_entries : ∀ t k v, tb.Reach t → ((k, v) ∈ tb.entries t ↔ tb.Get t k = (v, true))
  len_eq : ∀ t, tb.Reach t → tb.Len t = ((tb.entries t).length : Int)

/-- Modelled from the spec: the traversal `Range` of the per-shard table, which
calls `f` on the entries in order and stops after the first call that returns
`false`. The visitor is a state transformer on the variables it captures. -/
def tableRange {σ : Type} (f : σ → String → Value → σ × Bool) :
    List (String × Value) → σ → σ
  | [], s => s
  | (k, v) :: rest, s =>
    if (f s k v).2 then tableRange f rest (f s k v).1 else (f s k v).1

/-! ## The map -/

/-- External functions and types used by the package, and the memory of the
machine: `makeShards n` tells whether `make([]paddedShard, n)` with `n ≥ 0`
returns (the array fits the memory), and `newTables n c` whether the `n` calls
`rhh.New(c)` that follow it all return. -/
structure Deps (T : Type) where
  NumCPU : Int
  Sum64String : String → Nat
  rhh : Table T
  makeShards : Int → Bool
  newTables : Int → Int → Bool

/-- The memory suffices for the two allocations of `initDo`. -/
def Deps.allocates {T : Type} (d : Deps T) (shards c : Int) : Bool :=
  d.makeShards shards && d.newTables shards c

/-- The struct `Map`; `init` is the done flag of the `sync.Once`, `s` holds
the table of each shard. -/
structure Map (T : Type) where
  init : Bool
  cap : Int
  shards : Int
  mask : Nat
  s : List T

/-- What a call returns: its results, the map afterwards and the lock events
it performed. -/
structure Out (α : Type) (T : Type) where
  ret : α
  map : Map T
  trace : List LockEvent

/-- The constructor `New(cap)`, which is `&Map{cap: cap}`. -/
def New {T : Type} (cap : Int) : Map T :=
  { init := false, cap := cap, shards := 0, mask := 0, s := [] }

/-- The zero value of `Map`, declared with `var m shardmap.Map`. -/
def Map.zero {T : Type} : Map T :=
  { init := false, cap := 0, shards := 0, mask := 0, s := [] }

/-- Length of the padding array of `paddedShard`,
`64 - (unsafe.Sizeof(shard{}) % 64)`, for a shard struct of `size` bytes. -/
def paddingLen (size : Nat) : Nat := 64 - size % 64

/-- Size of `paddedShard`: the shard struct followed by the padding array. -/
def paddedSize (size : Nat) : Nat := size + paddingLen size

/-- The loop `for m.shards < runtime.NumCPU()*16 { m.shards *= 2 }`, with
`limit` the value of `runtime.NumCPU()*16` and at most `fuel` evaluations of
the loop condition; `none` when the fuel runs out before the loop exits. -/
def shardLoop : Nat → Int → Int → Option Int
  | 0, _, _ => none
  | fuel + 1, limit, shards =>
    if shards < limit then shardLoop fuel limit (wrapInt (shards * 2)) else some shards

/-- Number of evaluations of the loop condition after which `shardLoop`
started at `1` has either exited or reached the fixed point `0`
(`shardLoop_fuel_exact`). -/
def loopFuel : Nat := 65

/-- The local `scap` of `initDo`: `(m.cap + m.shards - 1) / m.shards` in `int`,
where `/` truncates toward zero. -/
def scap (cap shards : Int) : Int := Int.tdiv (wrapInt (wrapInt (cap + shards) - 1)) shards

/-- The method `initDo`: the body runs only when the `sync.Once` has not
fired. The body does not return when the loop does not exit, when the
division is by zero, when `make` panics (a negative length, or a shard array
that does not fit the memory), or when `rhh.New` cannot allocate a table. -/
def initDo {T : Type} (d : Deps T) (m : Map T) : Except Fault (Map T) :=
  if m.init then .ok m
  else
    match shardLoop loopFuel (wrapInt (d.NumCPU * 16)) 1 with
    | none => .error Fault.noReturn
    | some shards =>
      if shards = 0 then .error Fault.divideByZero
      else if shards < 0 then .error Fault.makesliceLen
      else if d.makeShards shards = false then .error Fault.makesliceLen
      else if d.newTables shards (scap m.cap shards) then
        .ok { init := true
              cap := m.cap
              shards := shards
              mask := toUint64 (wrapInt (shards - 1))
              s := List.replicate shards.toNat (d.rhh.New (scap m.cap shards)) }
      else .error Fault.alloc

/-- The method `choose`: `int(xxhash.Sum64String(key) & m.mask)`. -/
def choose {T : Type} (d : Deps T) (m : Map T) (key : String) : Int :=
  wrapInt (((d.Sum64String key % 2 ^ 64) &&& m.mask : Nat) : Int)

/-- The indexing `m.s[i]`, which panics when `i` is out of range. -/
def shardAt {T : Type} (m : Map T) (i : Int) : Except Fault T :=
  if i < 0 then .error Fault.indexOutOfRange
  else
    match m.s[i.toNat]? with
    | some t => .ok t
    | none => .error Fault.indexOutOfRange

/-- The method `Set`. A fault of `initDo` or of the indexing ends the call
(`Except.bind`). -/
def Set {T : Type} (d : Deps T) (m : Map T) (key : String) (value : Value) :
    Except Fault (Out (Value × Bool) T) :=
  (initDo d m).bind fun m1 =>
  (shardAt m1 (choose d m1 key)).bind fun shard =>
    .ok { ret := (d.rhh.Set shard key value).1
          map := { m1 with s := m1.s.set (choose d m1 key).toNat (d.rhh.Set shard key value).2 }
          trace := [LockEvent.Lock (choose d m1 key).toNat,
                    LockEvent.Unlock (choose d m1 key).toNat] }

/-- The method `Get`. -/
def Get {T : Type} (d : Deps T) (m : Map T) (key : String) :
    Except Fault (Out (Value × Bool) T) :=
  (initDo d m).bind fun m1 =>
  (shardAt m1 (choose d m1 key)).bind fun shard =>
    .ok { ret := d.rhh.Get shard key
          map := m1
          trace := [LockEvent.RLock (choose d m1 key).toNat,
                    LockEvent.RUnlock (choose d m1 key).toNat] }

/-- The method `Delete`. -/
def Delete {T : Type} (d : Deps T) (m : Map T) (key : String) :
    Except Fault (Out (Value × Bool) T) :=
  (initDo d m).bind fun m1 =>
  (shardAt m1 (choose d m1 key)).bind fun shard =>
    .ok { ret := (d.rhh.Delete shard key).1
          map := { m1 with s := m1.s.set (choose d m1 key).toNat (d.rhh.Delete shard key).2 }
          trace := [LockEvent.Lock (choose d m1 key).toNat,
                    LockEvent.Unlock (choose d m1 key).toNat] }

/-- The loop of `Len` over the shards from index `i` on; `len` is the running
sum and `tr` the lock events so far. The sum counts entries held in memory, so
it stays far below `2 ^ 63` and is not reduced with `wrapInt`. -/
def lenLoop {T : Type} (d : Deps T) : List T → Nat → Int → List LockEvent → Int × List LockEvent
  | [], _, len, tr => (len, tr)
  | shard :: rest, i, len, tr =>
    lenLoop d rest (i + 1) (len + d.rhh.Len shard) (tr ++ [LockEvent.Lock i, LockEvent.Unlock i])

/-- The method `Len`. -/
def Len {T : Type} (d : Deps T) (m : Map T) : Except Fault (Out Int T) :=
  (initDo d m).bind fun m1 =>
    .ok { ret := (lenLoop d m1.s 0 0 []).1
          map := m1
          trace := (lenLoop d m1.s 0 0 []).2 }

/-- The closure that `Range` hands to the table: it forwards to `iter` and
sets the captured variable `done` when `iter` returns `false`. -/
def rangeVisit {σ : Type} (iter : σ → String → Value → σ × Bool) :
    σ × Bool → String → Value → (σ × Bool) × Bool :=
  fun st key value =>
    if (iter st.1 key value).2 then (((iter st.1 key value).1, st.2), true)
    else (((iter st.1 key value).1, true), false)

/-- The loop of `Range` over the shards from index `i` on; `st` holds the
state of the visitor and the variable `done`. -/
def rangeLoop {T σ : Type} (d : Deps T) (iter : σ → String → Value → σ × Bool) :
    List T → Nat → σ × Bool → List LockEvent → (σ × Bool) × List LockEvent
  | [], _, st, tr => (st, tr)
  | shard :: rest, i, st, tr =>
    if (tableRange (rangeVisit iter) (d.rhh.entries shard) st).2 then
      (tableRange (rangeVisit iter) (d.rhh.entries shard) st,
        tr ++ [LockEvent.RLock i, LockEvent.RUnlock i])
    else
      rangeLoop d iter rest (i + 1) (tableRange (rangeVisit iter) (d.rhh.entries shard) st)
        (tr ++ [LockEvent.RLock i, LockEvent.RUnlock i])

/-- The method `Range`; `s0` is the initial state of the visitor and the
result is its final state. -/
def Range {T σ : Type} (d : Deps T) (m : Map T) (iter : σ → String → Value → σ × Bool)
    (s0 : σ) : Except Fault (Out σ T) :=
  (initDo d m).bind fun m1 =>
    .ok { ret := (rangeLoop d iter m1.s 0 (s0, false) []).1.1
          map := m1
          trace := (rangeLoop d iter m1.s 0 (s0, false) []).2 }

/-- Map states reachable from a new map by the five operations. -/
inductive Reachable {T : Type} (d : Deps T) : Map T → Prop where
  | new (cap : Int) : Reachable d (New cap)
  | set {m : Map T} {o : Out (Value × Bool) T} (k : String) (v : Value) :
      Reachable d m → Set d m k v = .ok o → Reachable d o.map
  | get {m : Map T} {o : Out (Value × Bool) T} (k : String) :
      Reachable d m → Get d m k = .ok o → Reachable d o.map
  | delete {m : Map T} {o : Out (Value × Bool) T} (k : String) :
      Reachable d m → Delete d m k = .ok o → Reachable d o.map
  | len {m : Map T} {o : Out Int T} :
      Reachable d m → Len d m = .ok o → Reachable d o.map
  | range {m : Map T} {σ : Type} {o : Out σ T} (iter : σ → String → Value → σ × Bool) (s0 : σ) :
      Reachable d m → Range d m iter s0 = .ok o → Reachable d o.map

/-- The shape of an initialised map: the shard count is a power of two of at
most `2 ^ 62`, the mask is one less and the shard array has that many
elements. -/
def Sized {T : Type} (m : Map T) : Prop :=
  m.init = true ∧
    ∃ e : Nat, e ≤ 62 ∧ m.shards = 2 ^ e ∧ m.mask = 2 ^ e - 1 ∧ m.s.length = 2 ^ e

/-- The state of an initialised map: the shard count is a power of two that
fits the mask and the shard array, every table is a reachable table state and
every stored key sits in the shard that `choose` selects. -/
structure Inv {T : Type} (d : Deps T) (m : Map T) : Prop where
  init : m.init = true
  size : ∃ e : Nat, e ≤ 62 ∧ m.shards = 2 ^ e ∧ m.mask = 2 ^ e - 1 ∧ m.s.length = 2 ^ e
  reach : ∀ (i : Nat) (t : T), m.s[i]? = some t → d.rhh.Reach t
  place : ∀ (i : Nat) (t : T) (k : String),
    m.s[i]? = some t → (d.rhh.Get t k).2 = true → choose d m k = (i : Int)

/-- The table entry for `k` in the shard that `choose` selects: what `Get`
reads on an initialised map (`Get_of_inv`). -/
def Map.find {T : Type} (d : Deps T) (m : Map T) (k : String) : Value × Bool :=
  ((m.s[(choose d m k).toNat]?).map fun t => d.rhh.Get t k).getD (Value.nil, false)

/-- All entries of the map, shard by shard in the order of the shard array:
the sequence that `Range` walks. -/
def Map.entries {T : Type} (d : Deps T) (m : Map T) : List (String × Value) :=
  m.s.flatMap d.rhh.entries

/-! ## Observing the calls of a visitor -/

/-- The visitor `iter` with a record of its calls: every call appends the key
and the value it was given and the answer of `iter` to the log, and then
behaves as `iter`. -/
def logged {σ : Type} (iter : σ → String → Value → σ × Bool) :
    σ × List (String × Value × Bool) → String → Value →
      (σ × List (String × Value × Bool)) × Bool :=
  fun st key value =>
    (((iter st.1 key value).1, st.2 ++ [(key, value, (iter st.1 key value).2)]),
      (iter st.1 key value).2)

/-- State of a logged traversal in which no call follows a call that returned
`false`: while `done` is unset every logged call returned `true`, and in any
case every logged call but the last returned `true`. -/
def LogOk {σ : Type} (st : (σ × List (String × Value × Bool)) × Bool) : Prop :=
  (st.2 = false → ∀ e, e ∈ st.1.2 → e.2.2 = true) ∧ ∀ e, e ∈ st.1.2.dropLast → e.2.2 = true

/-- The layout of `m1` is that of `m`: same `sync.Once` state, capacity hint,
shard count and mask, and a shard array of the same length. -/
def SameLayout {T : Type} (m m1 : Map T) : Prop :=
  m1.init = m.init ∧ m1.cap = m.cap ∧ m1.shards = m.shards ∧ m1.mask = m.mask ∧
    m1.s.length = m.s.length

/-! ## Lock discipline of a trace -/

/-- What a call holds: no lock, the exclusive lock of a shard or the shared
lock of a shard. -/
inductive Held where
  | free
  | excl (i : Nat)
  | shared (i : Nat)
  deriving DecidableEq, Repr

/-- One lock event of a call: a lock is taken only while none is held, and a
lock is released only by the unlock of its own kind on the shard that is
held; `none` when the event breaks this. -/
def lockStep : Held → LockEvent → Option Held
  | Held.free, LockEvent.Lock i => some (Held.excl i)
  | Held.free, LockEvent.RLock i => some (Held.shared i)
  | Held.excl i, LockEvent.Unlock j => if i = j then some Held.free else none
  | Held.shared i, LockEvent.RUnlock j => if i = j then some Held.free else none
  | _, _ => none

/-- The lock events of a call in order. -/
def lockRun : Held → List LockEvent → Option Held
  | h, [] => some h
  | h, e :: rest => (lockStep h e).bind fun h1 => lockRun h1 rest

/-- The trace of a call keeps the discipline: it never holds two locks, it
releases every lock it takes, and it holds none at the end. -/
def Disciplined (tr : List LockEvent) : Prop := lockRun Held.free tr = some Held.free

/-- The event concerns the exclusive lock (`Lock`, `Unlock`). -/
def LockEvent.isExclusive : LockEvent → Bool
  | LockEvent.Lock _ => true
  | LockEvent.Unlock _ => true
  | LockEvent.RLock _ => false
  | LockEvent.RUnlock _ => false

/-- The shard whose lock the event concerns. -/
def LockEvent.shard : LockEvent → Nat
  | LockEvent.Lock i => i
  | LockEvent.Unlock i => i
  | LockEvent.RLock i => i
  | LockEvent.RUnlock i => i

/-! ## Sequences of operations -/

/-- A call of one of the operations `Set`, `Get`, `Delete`, `Len`. -/
inductive Op where
  | Set (key : String) (value : Value)
  | Get (key : String)
  | Delete (key : String)
  | Len
  deriving DecidableEq, Repr

/-- What a call returns: a value with a flag, or a count. -/
inductive Res where
  | pair (r : Value × Bool)
  | count (n : Int)
  deriving DecidableEq, Repr

/-- One call on the sharded map: its result and the map afterwards. -/
def step {T : Type} (d : Deps T) (m : Map T) : Op → Except Fault (Res × Map T)
  | Op.Set k v => (Set d m k v).bind fun o => .ok (Res.pair o.ret, o.map)
  | Op.Get k => (Get d m k).bind fun o => .ok (Res.pair o.ret, o.map)
  | Op.Delete k => (Delete d m k).bind fun o => .ok (Res.pair o.ret, o.map)
  | Op.Len => (Len d m).bind fun o => .ok (Res.count o.ret, o.map)

/-- A sequence of calls run one after the other on the sharded map: the
results in order and the final map. -/
def run {T : Type} (d : Deps T) : Map T → List Op → Except Fault (List Res × Map T)
  | m, [] => .ok ([], m)
  | m, op :: rest =>
    (step d m op).bind fun p => (run d p.2 rest).bind fun q => .ok (p.1 :: q.1, q.2)

/-- One call on a single table, with no sharding. -/
def stepTable {U : Type} (tb : Table U) (u : U) : Op → Res × U
  | Op.Set k v => (Res.pair (tb.Set u k v).1, (tb.Set u k v).2)
  | Op.Get k => (Res.pair (tb.Get u k), u)
  | Op.Delete k => (Res.pair (tb.Delete u k).1, (tb.Delete u k).2)
  | Op.Len => (Res.count (tb.Len u), u)

/-- A sequence of calls run one after the other on a single table. -/
def runTable {U : Type} (tb : Table U) : U → List Op → List Res × U
  | u, [] => ([], u)
  | u, op :: rest =>
    ((stepTable tb u op).1 :: (runTable tb (stepTable tb u op).2 rest).1,
      (runTable tb (stepTable tb u op).2 rest).2)

/-- Effect of a call on the finite map, seen as the function that `Get`
computes. -/
def opView (f : String → Value × Bool) : Op → String → Value × Bool
  | Op.Set k v => fun k0 => if k0 = k then (v, true) else f k0
  | Op.Delete k => fun k0 => if k0 = k then (Value.nil, false) else f k0
  | Op.Get _ => f
  | Op.Len => f

/-- Result of a call on the finite map `f` with `n` keys. -/
def opRes (f : String → Value × Bool) (n : Int) : Op → Res
  | Op.Set k _ => Res.pair (f k)
  | Op.Get k => Res.pair (f k)
  | Op.Delete k => Res.pair (f k)
  | Op.Len => Res.count n

/-- Effect of a call on the list of keys present. -/
def keysStep (ks : List String) : Op → List String
  | Op.Set k _ => if k ∈ ks then ks else k :: ks
  | Op.Delete k => ks.filter fun k0 => decide (k0 ≠ k)
  | Op.Get _ => ks
  | Op.Len => ks

/-- The keys present after a sequence of calls on an empty map, each once. -/
def keysAfter (ops : List Op) : List String := ops.foldl keysStep []

/-- The key `k` is set and not subsequently deleted in the sequence: some call
`Set(k, v)` is followed by no call `Delete(k)`. -/
def SetNotDeleted (k : String) : List Op → Prop
  | [] => False
  | op :: rest =>
    ((∃ v, op = Op.Set k v) ∧ ∀ o, o ∈ rest → o ≠ Op.Delete k) ∨ SetNotDeleted k rest

/-- The condition under which `initDo` returns on the map `m`
(`initReturns_iff`): the map is initialised already, or the loop exits with
some shard count `n` and the memory suffices for the shard array and the
tables. The loop exits for every CPU count from `0` to `2 ^ 58`
(`initReturns_of_le`). -/
def Deps.InitReturns {T : Type} (d : Deps T) (m : Map T) : Prop :=
  m.init = true ∨
    ∃ n : Int, shardLoop loopFuel (wrapInt (d.NumCPU * 16)) 1 = some n ∧
      d.allocates n (scap m.cap n) = true

/-! ## A reference table and a reference environment

An association list is a table that satisfies the laws (`assocTable_lawful`);
it serves to run the operations on concrete inputs. -/

/-- Lookup in an association list. -/
def assocGet : List (String × Value) → String → Value × Bool
  | [], _ => (Value.nil, false)
  | (k0, v0) :: rest, k => if k0 = k then (v0, true) else assocGet rest k

/-- Insert or overwrite in an association list. -/
def assocSet : List (String × Value) → String → Value → List (String × Value)
  | [], k, v => [(k, v)]
  | (k0, v0) :: rest, k, v =>
    if k0 = k then (k0, v) :: rest else (k0, v0) :: assocSet rest k v

/-- Remove the first entry for a key from an association list. -/
def assocDelete : List (String × Value) → String → List (String × Value)
  | [], _ => []
  | (k0, v0) :: rest, k => if k0 = k then rest else (k0, v0) :: assocDelete rest k

/-- The association-list table. -/
def assocTable : Table (List (String × Value)) where
  New := fun _ => []
  Get := assocGet
  Set := fun t k v => (assocGet t k, assocSet t k v)
  Delete := fun t k => (assocGet t k, assocDelete t k)
  Len := fun t => (t.length : Int)
  entries := fun t => t

/-- The memory of the reference environments holds an array of up to
`2 ^ 32` shards. -/
def refMakeShards (shards : Int) : Bool := decide (shards ≤ 2 ^ 32)

/-- The memory of the reference environments holds `2 ^ 32` buckets, a table
of capacity `c` taking `max c 8` of them. -/
def refNewTables (shards c : Int) : Bool := decide (shards * max c 8 ≤ 2 ^ 32)

/-- An environment with `n` logical CPUs, the length of the key as its hash
and association lists as tables. -/
def refDeps (n : Int) : Deps (List (String × Value)) where
  NumCPU := n
  Sum64String := fun key => key.length
  rhh := assocTable
  makeShards := refMakeShards
  newTables := refNewTables

/-- The association-list table that also remembers the capacity it was
created with. -/
def capTable : Table (Int × List (String × Value)) where
  New := fun c => (c, [])
  Get := fun t k => assocGet t.2 k
  Set := fun t k v => (assocGet t.2 k, (t.1, assocSet t.2 k v))
  Delete := fun t k => (assocGet t.2 k, (t.1, assocDelete t.2 k))
  Len := fun t => (t.2.length : Int)
  entries := fun t => t.2

/-- An environment with `n` logical CPUs whose tables remember their
capacity. -/
def capDeps (n : Int) : Deps (Int × List (String × Value)) where
  NumCPU := n
  Sum64String := fun key => key.length
  rhh := capTable
  makeShards := refMakeShards
  newTables := refNewTables

/-! ## Machine-integer facts -/

theorem wrapInt_of_range {x : Int} (h1 : -2 ^ 63 ≤ x) (h2 : x < 2 ^ 63) : wrapInt x = x := by
  unfold wrapInt; omega

theorem two_pow_le_of_le {e n : Nat} (he : e ≤ n) : (2 : Int) ^ e ≤ 2 ^ n :=
  pow_le_pow_right₀ (by norm_num) he

theorem two_pow_pos_int (e : Nat) : (0 : Int) < 2 ^ e := by positivity

theorem two_pow_lt_of_lt {j r : Nat} (h : j < r) : (2 : Int) ^ j < 2 ^ r :=
  pow_lt_pow_right₀ (by norm_num) h

/-! ## The shard-count loop -/

theorem shardLoop_mono {limit : Int} :
    ∀ (fuel : Nat) (shards r : Int) (extra : Nat),
      shardLoop fuel limit shards = some r → shardLoop (fuel + extra) limit shards = some r := by
  intro fuel
  induction fuel with
  | zero => intro shards r extra h; simp [shardLoop] at h
  | succ f ih =>
    intro shards r extra h
    have e : f + 1 + extra = (f + extra) + 1 := by omega
    rw [e]
    simp only [shardLoop] at h ⊢
    split
    · rename_i hlt
      rw [if_pos hlt] at h
      exact ih _ _ _ h
    · rename_i hlt
      rw [if_neg hlt] at h
      exact h

/-- Started at `2 ^ e` below a limit of at most `2 ^ 62`, the loop exits at the
least power of two that reaches the limit. -/
theorem shardLoop_pow {limit : Int} (hl : limit ≤ 2 ^ 62) :
    ∀ (fuel e : Nat), e ≤ 62 → 63 - e ≤ fuel → (∀ j, j < e → (2 : Int) ^ j < limit) →
      ∃ r : Nat, r ≤ 62 ∧ shardLoop fuel limit (2 ^ e) = some (2 ^ r) ∧ limit ≤ 2 ^ r ∧
        ∀ j, j < r → (2 : Int) ^ j < limit := by
  intro fuel
  induction fuel with
  | zero => intro e he hf _; omega
  | succ f ih =>
    intro e he hf hprev
    by_cases hlt : (2 : Int) ^ e < limit
    · have he61 : e < 62 := by
        rcases Nat.lt_or_ge e 62 with h | h
        · exact h
        · have : e = 62 := by omega
          subst this; omega
      have hw : wrapInt (2 ^ e * 2) = 2 ^ (e + 1) := by
        have h1 : (2 : Int) ^ (e + 1) ≤ 2 ^ 62 := two_pow_le_of_le (by omega)
        have h2 := two_pow_pos_int (e + 1)
        rw [← pow_succ]
        exact wrapInt_of_range (by omega) (by omega)
      have hprev1 : ∀ j, j < e + 1 → (2 : Int) ^ j < limit := by
        intro j hj
        rcases Nat.lt_or_ge j e with h | h
        · exact hprev j h
        · have : j = e := by omega
          subst this; exact hlt
      obtain ⟨r, hr, hrun, hge, hsm⟩ := ih (e + 1) (by omega) (by omega) hprev1
      refine ⟨r, hr, ?_, hge, hsm⟩
      simp only [shardLoop, if_pos hlt, hw]
      exact hrun
    · refine ⟨e, he, ?_, by omega, hprev⟩
      simp only [shardLoop, if_neg hlt]

theorem shardLoop_zero_none {limit : Int} (hl : 0 < limit) :
    ∀ fuel : Nat, shardLoop fuel limit 0 = none := by
  intro fuel
  induction fuel with
  | zero => rfl
  | succ f ih =>
    have hw : wrapInt (0 * 2) = 0 := by decide
    simp only [shardLoop, if_pos hl, hw]
    exact ih

theorem shardLoop_min_none {limit : Int} (hl : 0 < limit) :
    ∀ fuel : Nat, shardLoop fuel limit (-2 ^ 63) = none := by
  intro fuel
  cases fuel with
  | zero => rfl
  | succ f =>
    have hw : wrapInt (-2 ^ 63 * 2) = 0 := by decide
    have hlt : (-2 ^ 63 : Int) < limit := by omega
    simp only [shardLoop, if_pos hlt, hw]
    exact shardLoop_zero_none hl f

/-- Above `2 ^ 62` the loop never exits: the count wraps to `-2 ^ 63` and
then to `0`, where doubling no longer changes it. -/
theorem shardLoop_pow_none {limit : Int} (hl : 2 ^ 62 < limit) :
    ∀ (k e fuel : Nat), e + k = 62 → shardLoop fuel limit (2 ^ e) = none := by
  intro k
  induction k with
  | zero =>
    intro e fuel he
    have : e = 62 := by omega
    subst this
    cases fuel with
    | zero => rfl
    | succ f =>
      have hw : wrapInt (2 ^ 62 * 2) = -2 ^ 63 := by decide
      simp only [shardLoop, if_pos hl, hw]
      exact shardLoop_min_none (by omega) f
  | succ k ih =>
    intro e fuel he
    cases fuel with
    | zero => rfl
    | succ f =>
      have h1 : (2 : Int) ^ (e + 1) ≤ 2 ^ 62 := two_pow_le_of_le (by omega)
      have h2 := two_pow_pos_int (e + 1)
      have h3 : (2 : Int) ^ e < 2 ^ (e + 1) := two_pow_lt_of_lt (by omega)
      have hlt : (2 : Int) ^ e < limit := by omega
      have hw : wrapInt (2 ^ e * 2) = 2 ^ (e + 1) := by
        rw [← pow_succ]
        exact wrapInt_of_range (by omega) (by omega)
      simp only [shardLoop, if_pos hlt, hw]
      exact ih (e + 1) f (by omega)

theorem shardLoop_diverges {limit : Int} (hl : 2 ^ 62 < limit) (fuel : Nat) :
    shardLoop fuel limit 1 = none := by
  have h := shardLoop_pow_none hl 62 0 fuel (by omega)
  simpa using h

theorem shardLoop_returns {limit : Int} (hl : limit ≤ 2 ^ 62) (fuel : Nat) (hf : 63 ≤ fuel) :
    ∃ r : Nat, r ≤ 62 ∧ shardLoop fuel limit 1 = some (2 ^ r) ∧ limit ≤ 2 ^ r ∧
      ∀ j, j < r → (2 : Int) ^ j < limit := by
  have h := shardLoop_pow hl fuel 0 (by omega) (by omega) (by intro j hj; omega)
  simpa using h

/-- The fuel `loopFuel` decides the loop: more fuel never changes the answer. -/
theorem shardLoop_fuel_exact (limit : Int) (fuel : Nat) (hf : loopFuel ≤ fuel) :
    shardLoop fuel limit 1 = shardLoop loopFuel limit 1 := by
  unfold loopFuel at hf ⊢
  by_cases hl : limit ≤ 2 ^ 62
  · obtain ⟨r, _, hrun, _, _⟩ := shardLoop_returns hl 65 (by omega)
    have h := shardLoop_mono 65 1 _ (fuel - 65) hrun
    have e : 65 + (fuel - 65) = fuel := by omega
    rw [e] at h
    rw [h, hrun]
  · rw [shardLoop_diverges (by omega), shardLoop_diverges (by omega)]

/-! ## Initialisation and shard selection -/

theorem choose_of_mask {T : Type} (d : Deps T) (m : Map T) (k : String) {e : Nat}
    (he : e ≤ 62) (hm : m.mask = 2 ^ e - 1) :
    ∃ i : Nat, choose d m k = (i : Int) ∧ i < 2 ^ e := by
  refine ⟨(d.Sum64String k % 2 ^ 64) &&& m.mask, ?_, ?_⟩
  · have hlt : (d.Sum64String k % 2 ^ 64) &&& m.mask < 2 ^ e := by
      rw [hm]
      exact Nat.and_lt_two_pow _ (Nat.sub_lt (Nat.pos_pow_of_pos e (by norm_num)) (by norm_num))
    have hle : (2 : Nat) ^ e ≤ 2 ^ 62 := Nat.pow_le_pow_right (by norm_num) he
    unfold choose
    apply wrapInt_of_range <;> omega
  · rw [hm]
    exact Nat.and_lt_two_pow _ (Nat.sub_lt (Nat.pos_pow_of_pos e (by norm_num)) (by norm_num))

theorem shardAt_natCast {T : Type} (m : Map T) (i : Nat) (t : T) (h : m.s[i]? = some t) :
    shardAt m (i : Int) = .ok t := by
  unfold shardAt
  have : ¬ ((i : Int) < 0) := by omega
  simp [this, h]

theorem Inv.choose_ok {T : Type} {d : Deps T} {m : Map T} (h : Inv d m) (k : String) :
    ∃ (i : Nat) (t : T), choose d m k = (i : Int) ∧ i < m.s.length ∧ m.s[i]? = some t ∧
      shardAt m (choose d m k) = .ok t := by
  obtain ⟨e, he, _, hmask, hlen⟩ := h.size
  obtain ⟨i, hi, hlt⟩ := choose_of_mask d m k he hmask
  have hil : i < m.s.length := by omega
  refine ⟨i, m.s[i], hi, hil, List.getElem?_eq_getElem hil, ?_⟩
  rw [hi]
  exact shardAt_natCast m i _ (List.getElem?_eq_getElem hil)

theorem initDo_of_init {T : Type} (d : Deps T) (m : Map T) (h : m.init = true) :
    initDo d m = .ok m := by
  simp [initDo, h]

theorem toUint64_pred_pow {e : Nat} (he : e ≤ 62) :
    toUint64 (wrapInt (2 ^ e - 1)) = 2 ^ e - 1 := by
  have h1 : (2 : Int) ^ e ≤ 2 ^ 62 := two_pow_le_of_le he
  have h2 := two_pow_pos_int e
  rw [wrapInt_of_range (by omega) (by omega)]
  unfold toUint64
  have h3 : ((2 : Int) ^ e - 1) % 2 ^ 64 = 2 ^ e - 1 := Int.emod_eq_of_lt (by omega) (by omega)
  rw [h3]
  have h4 : ((2 : Int) ^ e - 1) = (((2 ^ e - 1 : Nat)) : Int) := by
    have : 1 ≤ 2 ^ e := Nat.one_le_two_pow
    push_cast [Nat.cast_sub this]
    rfl
  rw [h4, Int.toNat_natCast]

/-- What the body of `initDo` builds from the exit value `2 ^ r` of the loop
when the memory suffices. -/
theorem initDo_of_loop {T : Type} (d : Deps T) (m : Map T) (h : m.init = false) {r : Nat}
    (hr : r ≤ 62) (hrun : shardLoop loopFuel (wrapInt (d.NumCPU * 16)) 1 = some (2 ^ r))
    (ha : d.allocates (2 ^ r) (scap m.cap (2 ^ r)) = true) :
    initDo d m = .ok
      { init := true
        cap := m.cap
        shards := 2 ^ r
        mask := 2 ^ r - 1
        s := List.replicate (2 ^ r) (d.rhh.New (scap m.cap (2 ^ r))) } := by
  have h2 := two_pow_pos_int r
  have hne : ¬ ((2 : Int) ^ r = 0) := by omega
  have hnn : ¬ ((2 : Int) ^ r < 0) := by omega
  have hnat : ((2 : Int) ^ r).toNat = 2 ^ r := by
    have : ((2 : Int) ^ r) = (((2 ^ r : Nat)) : Int) := by push_cast; rfl
    rw [this, Int.toNat_natCast]
  unfold Deps.allocates at ha
  rw [Bool.and_eq_true] at ha
  simp only [initDo, h, hrun, if_neg hne, if_neg hnn, ha.1, ha.2, toUint64_pred_pow hr, hnat]
  rfl

/-- The body of `initDo` stops in `make` when the shard array does not fit the
memory. -/
theorem initDo_of_loop_make {T : Type} (d : Deps T) (m : Map T) (h : m.init = false) {r : Nat}
    (hrun : shardLoop loopFuel (wrapInt (d.NumCPU * 16)) 1 = some (2 ^ r))
    (ha : d.makeShards (2 ^ r) = false) :
    initDo d m = .error Fault.makesliceLen := by
  have h2 := two_pow_pos_int r
  have hne : ¬ ((2 : Int) ^ r = 0) := by omega
  have hnn : ¬ ((2 : Int) ^ r < 0) := by omega
  simp only [initDo, h, hrun, if_neg hne, if_neg hnn, ha]
  rfl

/-- The body of `initDo` stops in `rhh.New` when the memory does not suffice
for the tables. -/
theorem initDo_of_loop_new {T : Type} (d : Deps T) (m : Map T) (h : m.init = false) {r : Nat}
    (hrun : shardLoop loopFuel (wrapInt (d.NumCPU * 16)) 1 = some (2 ^ r))
    (hk : d.makeShards (2 ^ r) = true)
    (ha : d.newTables (2 ^ r) (scap m.cap (2 ^ r)) = false) :
    initDo d m = .error Fault.alloc := by
  have h2 := two_pow_pos_int r
  have hne : ¬ ((2 : Int) ^ r = 0) := by omega
  have hnn : ¬ ((2 : Int) ^ r < 0) := by omega
  simp only [initDo, h, hrun, if_neg hne, if_neg hnn, hk, ha]
  rfl

theorem initDo_of_loop_fail {T : Type} (d : Deps T) (m : Map T) (h : m.init = false) {r : Nat}
    (hrun : shardLoop loopFuel (wrapInt (d.NumCPU * 16)) 1 = some (2 ^ r))
    (ha : d.allocates (2 ^ r) (scap m.cap (2 ^ r)) = false) :
    initDo d m = .error Fault.makesliceLen ∨ initDo d m = .error Fault.alloc := by
  cases hk : d.makeShards (2 ^ r) with
  | false => exact Or.inl (initDo_of_loop_make d m h hrun hk)
  | true =>
    unfold Deps.allocates at ha
    rw [hk, Bool.true_and] at ha
    exact Or.inr (initDo_of_loop_new d m h hrun hk ha)

theorem initDo_of_diverge {T : Type} (d : Deps T) (m : Map T) (h : m.init = false)
    (hcpu : ¬ wrapInt (d.NumCPU * 16) ≤ 2 ^ 62) : initDo d m = .error Fault.noReturn := by
  have hd := @shardLoop_diverges (wrapInt (d.NumCPU * 16)) (by omega) loopFuel
  simp only [initDo, h, hd]
  rfl

/-- What `initDo` builds on a map that is not yet initialised, when it
returns. -/
theorem initDo_new_form {T : Type} (d : Deps T) (m m1 : Map T) (h : m.init = false)
    (h0 : initDo d m = .ok m1) :
    ∃ r : Nat, r ≤ 62 ∧ shardLoop loopFuel (wrapInt (d.NumCPU * 16)) 1 = some (2 ^ r) ∧
      d.allocates (2 ^ r) (scap m.cap (2 ^ r)) = true ∧
      m1 = { init := true, cap := m.cap, shards := 2 ^ r, mask := 2 ^ r - 1,
             s := List.replicate (2 ^ r) (d.rhh.New (scap m.cap (2 ^ r))) } := by
  by_cases hcpu : wrapInt (d.NumCPU * 16) ≤ 2 ^ 62
  · obtain ⟨r, hr, hrun, _, _⟩ := shardLoop_returns hcpu loopFuel (by decide)
    cases ha : d.allocates (2 ^ r) (scap m.cap (2 ^ r)) with
    | false =>
      rcases initDo_of_loop_fail d m h hrun ha with e | e <;> rw [e] at h0 <;> cases h0
    | true =>
      rw [initDo_of_loop d m h hr hrun ha] at h0
      cases h0
      exact ⟨r, hr, hrun, ha, rfl⟩
  · rw [initDo_of_diverge d m h hcpu] at h0
    cases h0

/-- The condition `InitReturns` is exactly that `initDo` returns. -/
theorem initReturns_iff {T : Type} (d : Deps T) (m : Map T) :
    d.InitReturns m ↔ ∃ m1, initDo d m = .ok m1 := by
  constructor
  · rintro (hi | ⟨n, hloop, ha⟩)
    · exact ⟨m, by simp [initDo, hi]⟩
    · cases hi : m.init with
      | true => exact ⟨m, by simp [initDo, hi]⟩
      | false =>
        by_cases hcpu : wrapInt (d.NumCPU * 16) ≤ 2 ^ 62
        · obtain ⟨r, hr, hrun, _, _⟩ := shardLoop_returns hcpu loopFuel (by decide)
          rw [hrun] at hloop
          have e : (2 : Int) ^ r = n := Option.some.inj hloop
          rw [← e] at ha
          exact ⟨_, initDo_of_loop d m hi hr hrun ha⟩
        · rw [@shardLoop_diverges (wrapInt (d.NumCPU * 16)) (by omega) loopFuel] at hloop
          cases hloop
  · rintro ⟨m1, h0⟩
    cases hi : m.init with
    | true => exact Or.inl hi
    | false =>
      obtain ⟨r, _, hrun, ha, _⟩ := initDo_new_form d m m1 hi h0
      exact Or.inr ⟨2 ^ r, hrun, ha⟩

theorem inv_of_loop {T : Type} (d : Deps T) (hl : d.rhh.Lawful) (c x : Int) {r : Nat}
    (hr : r ≤ 62) :
    Inv d { init := true, cap := c, shards := 2 ^ r, mask := 2 ^ r - 1,
            s := List.replicate (2 ^ r) (d.rhh.New x) } := by
  refine ⟨rfl, ⟨r, hr, rfl, rfl, by simp⟩, ?_, ?_⟩
  · intro i t hi
    have := List.getElem?_replicate (a := d.rhh.New x) (n := 2 ^ r) (m := i)
    rw [this] at hi
    split at hi
    · cases hi; exact Table.Reach.new x
    · cases hi
  · intro i t k hi hg
    have := List.getElem?_replicate (a := d.rhh.New x) (n := 2 ^ r) (m := i)
    rw [this] at hi
    split at hi
    · cases hi
      rw [hl.get_new] at hg
      cases hg
    · cases hi

theorem initDo_ok_inv {T : Type} (d : Deps T) (hl : d.rhh.Lawful) (m m1 : Map T)
    (hm : m.init = false ∨ Inv d m) (h : initDo d m = .ok m1) : Inv d m1 := by
  rcases hm with hm | hm
  · obtain ⟨r, hr, _, _, rfl⟩ := initDo_new_form d m m1 hm h
    exact inv_of_loop d hl _ _ hr
  · rw [initDo_of_init d m hm.init] at h
    cases h
    exact hm

/-! ## The key-addressed operations on an initialised map -/

theorem bind_ok {ε α β : Type} (a : α) (f : α → Except ε β) : (Except.ok a).bind f = f a := rfl

theorem bind_error {ε α β : Type} (e : ε) (f : α → Except ε β) :
    (Except.error e : Except ε α).bind f = .error e := rfl

theorem find_of_choose {T : Type} {d : Deps T} {m : Map T} (k : String) {i : Nat} {t : T}
    (hi : choose d m k = (i : Int)) (ht : m.s[i]? = some t) :
    m.find d k = d.rhh.Get t k := by
  simp [Map.find, hi, ht]

theorem Get_of_inv {T : Type} {d : Deps T} {m : Map T} (h : Inv d m) (k : String) :
    Get d m k = .ok { ret := m.find d k, map := m,
                      trace := [LockEvent.RLock (choose d m k).toNat,
                                LockEvent.RUnlock (choose d m k).toNat] } := by
  obtain ⟨i, t, hi, _, ht, hs⟩ := h.choose_ok k
  unfold Get
  rw [initDo_of_init d m h.init, bind_ok, hs, bind_ok, find_of_choose k hi ht]

theorem Set_of_inv {T : Type} {d : Deps T} {m : Map T} (h : Inv d m) (k : String) (v : Value) :
    ∃ (i : Nat) (t : T), choose d m k = (i : Int) ∧ m.s[i]? = some t ∧
      Set d m k v = .ok { ret := (d.rhh.Set t k v).1
                          map := { m with s := m.s.set i (d.rhh.Set t k v).2 }
                          trace := [LockEvent.Lock i, LockEvent.Unlock i] } := by
  obtain ⟨i, t, hi, _, ht, hs⟩ := h.choose_ok k
  refine ⟨i, t, hi, ht, ?_⟩
  unfold Set
  rw [initDo_of_init d m h.init, bind_ok, hs, bind_ok, hi, Int.toNat_natCast]

theorem Delete_of_inv {T : Type} {d : Deps T} {m : Map T} (h : Inv d m) (k : String) :
    ∃ (i : Nat) (t : T), choose d m k = (i : Int) ∧ m.s[i]? = some t ∧
      Delete d m k = .ok { ret := (d.rhh.Delete t k).1
                           map := { m with s := m.s.set i (d.rhh.Delete t k).2 }
                           trace := [LockEvent.Lock i, LockEvent.Unlock i] } := by
  obtain ⟨i, t, hi, _, ht, hs⟩ := h.choose_ok k
  refine ⟨i, t, hi, ht, ?_⟩
  unfold Delete
  rw [initDo_of_init d m h.init, bind_ok, hs, bind_ok, hi, Int.toNat_natCast]

/-- An operation on any map is the same operation on the initialised map. -/
theorem Set_factor {T : Type} (d : Deps T) (m : Map T) (k : String) (v : Value)
    (o : Out (Value × Bool) T) (h : Set d m k v = .ok o) :
    ∃ m1, initDo d m = .ok m1 ∧ (m1.init = true → Set d m1 k v = .ok o) := by
  cases h0 : initDo d m with
  | error e =>
    unfold Set at h
    rw [h0, bind_error] at h
    cases h
  | ok m1 =>
    refine ⟨m1, rfl, fun hi => ?_⟩
    rw [← h]
    unfold Set
    rw [h0, initDo_of_init d m1 hi, bind_ok]

theorem Get_factor {T : Type} (d : Deps T) (m : Map T) (k : String)
    (o : Out (Value × Bool) T) (h : Get d m k = .ok o) :
    ∃ m1, initDo d m = .ok m1 ∧ (m1.init = true → Get d m1 k = .ok o) := by
  cases h0 : initDo d m with
  | error e =>
    unfold Get at h
    rw [h0, bind_error] at h
    cases h
  | ok m1 =>
    refine ⟨m1, rfl, fun hi => ?_⟩
    rw [← h]
    unfold Get
    rw [h0, initDo_of_init d m1 hi, bind_ok]

theorem Delete_factor {T : Type} (d : Deps T) (m : Map T) (k : String)
    (o : Out (Value × Bool) T) (h : Delete d m k = .ok o) :
    ∃ m1, initDo d m = .ok m1 ∧ (m1.init = true → Delete d m1 k = .ok o) := by
  cases h0 : initDo d m with
  | error e =>
    unfold Delete at h
    rw [h0, bind_error] at h
    cases h
  | ok m1 =>
    refine ⟨m1, rfl, fun hi => ?_⟩
    rw [← h]
    unfold Delete
    rw [h0, initDo_of_init d m1 hi, bind_ok]

/-- Writing the table of one shard keeps the invariant when the keys of the
new table are those of the old one, possibly with `k`, and `k` belongs to the
shard. -/
theorem Inv.set_shard {T : Type} {d : Deps T} {m : Map T} (h : Inv d m) (k : String)
    {i : Nat} {t t1 : T} (hi : choose d m k = (i : Int)) (ht : m.s[i]? = some t)
    (hr : d.rhh.Reach t1)
    (hk : ∀ k0, (d.rhh.Get t1 k0).2 = true → k0 = k ∨ (d.rhh.Get t k0).2 = true) :
    Inv d { m with s := m.s.set i t1 } := by
  obtain ⟨e, he, hsh, hmask, hlen⟩ := h.size
  refine ⟨h.init, ⟨e, he, hsh, hmask, by simpa using hlen⟩, ?_, ?_⟩
  · intro j t2 hj
    simp only [List.getElem?_set] at hj
    split at hj
    · split at hj
      · cases hj; exact hr
      · cases hj
    · exact h.reach j t2 hj
  · intro j t2 k0 hj hg
    show choose d m k0 = (j : Int)
    simp only [List.getElem?_set] at hj
    split at hj
    · rename_i hij
      split at hj
      · cases hj
        rcases hk k0 hg with hk0 | hk0
        · rw [hk0, hi, hij]
        · rw [← hij]; exact h.place i t k0 ht hk0
      · cases hj
    · exact h.place j t2 k0 hj hg

theorem Inv.after_set {T : Type} {d : Deps T} (hl : d.rhh.Lawful) {m : Map T} (h : Inv d m)
    (k : String) (v : Value) {i : Nat} {t : T} (hi : choose d m k = (i : Int))
    (ht : m.s[i]? = some t) :
    Inv d { m with s := m.s.set i (d.rhh.Set t k v).2 } := by
  have hrt := h.reach i t ht
  refine h.set_shard k hi ht (Table.Reach.set k v hrt) ?_
  intro k0 hg
  rw [hl.get_set t k v k0 hrt] at hg
  by_cases hk0 : k0 = k
  · exact Or.inl hk0
  · rw [if_neg hk0] at hg; exact Or.inr hg

theorem Inv.after_delete {T : Type} {d : Deps T} (hl : d.rhh.Lawful) {m : Map T} (h : Inv d m)
    (k : String) {i : Nat} {t : T} (hi : choose d m k = (i : Int))
    (ht : m.s[i]? = some t) :
    Inv d { m with s := m.s.set i (d.rhh.Delete t k).2 } := by
  have hrt := h.reach i t ht
  refine h.set_shard k hi ht (Table.Reach.delete k hrt) ?_
  intro k0 hg
  rw [hl.get_delete t k k0 hrt] at hg
  by_cases hk0 : k0 = k
  · exact Or.inl hk0
  · rw [if_neg hk0] at hg; exact Or.inr hg

/-- Reading after a write of shard `i`: keys of other shards see their old
table, keys of shard `i` see the new one. -/
theorem find_set_shard {T : Type} {d : Deps T} {m : Map T} (h : Inv d m) (k0 : String)
    {i : Nat} (t1 : T) (hil : i < m.s.length) :
    Map.find d { m with s := m.s.set i t1 } k0 =
      if choose d m k0 = (i : Int) then d.rhh.Get t1 k0 else m.find d k0 := by
  obtain ⟨j, t, hj, _, ht, _⟩ := h.choose_ok k0
  have hc : choose d { m with s := m.s.set i t1 } k0 = choose d m k0 := rfl
  unfold Map.find
  rw [hc, hj]
  simp only [Int.toNat_natCast, List.getElem?_set]
  by_cases hij : i = j
  · subst hij
    simp [hil]
  · have : ¬ ((j : Int) = (i : Int)) := by omega
    simp [hij, this]

theorem find_after_set {T : Type} {d : Deps T} (hl : d.rhh.Lawful) {m : Map T} (h : Inv d m)
    (k : String) (v : Value) {i : Nat} {t : T} (hi : choose d m k = (i : Int))
    (ht : m.s[i]? = some t) (k0 : String) :
    Map.find d { m with s := m.s.set i (d.rhh.Set t k v).2 } k0 =
      if k0 = k then (v, true) else m.find d k0 := by
  have hil : i < m.s.length := by
    rcases Nat.lt_or_ge i m.s.length with h1 | h1
    · exact h1
    · rw [List.getElem?_eq_none h1] at ht; cases ht
  rw [find_set_shard h k0 _ hil, hl.get_set t k v k0 (h.reach i t ht)]
  by_cases hk0 : k0 = k
  · subst hk0; simp [hi]
  · simp only [if_neg hk0]
    split
    · rename_i hc
      rw [find_of_choose k0 hc ht]
    · rfl

theorem find_after_delete {T : Type} {d : Deps T} (hl : d.rhh.Lawful) {m : Map T} (h : Inv d m)
    (k : String) {i : Nat} {t : T} (hi : choose d m k = (i : Int))
    (ht : m.s[i]? = some t) (k0 : String) :
    Map.find d { m with s := m.s.set i (d.rhh.Delete t k).2 } k0 =
      if k0 = k then (Value.nil, false) else m.find d k0 := by
  have hil : i < m.s.length := by
    rcases Nat.lt_or_ge i m.s.length with h1 | h1
    · exact h1
    · rw [List.getElem?_eq_none h1] at ht; cases ht
  rw [find_set_shard h k0 _ hil, hl.get_delete t k k0 (h.reach i t ht)]
  by_cases hk0 : k0 = k
  · subst hk0; simp [hi]
  · simp only [if_neg hk0]
    split
    · rename_i hc
      rw [find_of_choose k0 hc ht]
    · rfl


/-! ## The reference table is lawful -/

theorem assocGet_found_iff (l : List (String × Value)) (k : String) :
    (assocGet l k).2 = true ↔ k ∈ l.map Prod.fst := by
  induction l with
  | nil => simp [assocGet]
  | cons p rest ih =>
    obtain ⟨k0, v0⟩ := p
    by_cases h : k0 = k
    · simp [assocGet, h]
    · have h1 : ¬ (k = k0) := fun e => h e.symm
      simp [assocGet, h, h1, ih]

theorem assocGet_absent (l : List (String × Value)) (k : String)
    (h : (assocGet l k).2 = false) : (assocGet l k).1 = Value.nil := by
  induction l with
  | nil => rfl
  | cons p rest ih =>
    obtain ⟨k0, v0⟩ := p
    by_cases h0 : k0 = k
    · simp [assocGet, h0] at h
    · simp only [assocGet, if_neg h0] at h ⊢
      exact ih h

theorem assocGet_set (l : List (String × Value)) (k : String) (v : Value) (k1 : String) :
    assocGet (assocSet l k v) k1 = if k1 = k then (v, true) else assocGet l k1 := by
  induction l with
  | nil =>
    by_cases h : k1 = k
    · simp [assocSet, assocGet, h]
    · have h1 : ¬ (k = k1) := fun e => h e.symm
      simp [assocSet, assocGet, h, h1]
  | cons p rest ih =>
    obtain ⟨k0, v0⟩ := p
    by_cases h0 : k0 = k
    · subst h0
      by_cases h : k1 = k0
      · subst h; simp [assocSet, assocGet]
      · have h1 : ¬ (k0 = k1) := fun e => h e.symm
        simp [assocSet, assocGet, h, h1]
    · by_cases h : k0 = k1
      · subst h
        simp [assocSet, assocGet, h0]
      · simp [assocSet, assocGet, h0, h, ih]

theorem assocSet_keys (l : List (String × Value)) (k : String) (v : Value) (k1 : String) :
    k1 ∈ (assocSet l k v).map Prod.fst ↔ k1 = k ∨ k1 ∈ l.map Prod.fst := by
  rw [← assocGet_found_iff, assocGet_set, ← assocGet_found_iff]
  by_cases h : k1 = k
  · simp [h]
  · simp [h]

theorem assocSet_nodup (l : List (String × Value)) (k : String) (v : Value)
    (h : (l.map Prod.fst).Nodup) : ((assocSet l k v).map Prod.fst).Nodup := by
  induction l with
  | nil => simp [assocSet]
  | cons p rest ih =>
    obtain ⟨k0, v0⟩ := p
    simp only [List.map_cons, List.nodup_cons] at h
    by_cases h0 : k0 = k
    · simp only [assocSet, if_pos h0, List.map_cons, List.nodup_cons]
      exact h
    · simp only [assocSet, if_neg h0, List.map_cons, List.nodup_cons]
      refine ⟨?_, ih h.2⟩
      intro hm
      rcases (assocSet_keys rest k v k0).1 hm with h1 | h1
      · exact h0 h1
      · exact h.1 h1

theorem assocDelete_sublist (l : List (String × Value)) (k : String) :
    (assocDelete l k).Sublist l := by
  induction l with
  | nil => exact List.Sublist.slnil
  | cons p rest ih =>
    obtain ⟨k0, v0⟩ := p
    by_cases h0 : k0 = k
    · simp only [assocDelete, if_pos h0]
      exact List.sublist_cons_self _ _
    · simp only [assocDelete, if_neg h0]
      exact ih.cons₂ _

theorem assocDelete_nodup (l : List (String × Value)) (k : String)
    (h : (l.map Prod.fst).Nodup) : ((assocDelete l k).map Prod.fst).Nodup :=
  h.sublist ((assocDelete_sublist l k).map Prod.fst)

theorem assocGet_delete (l : List (String × Value)) (k k1 : String)
    (h : (l.map Prod.fst).Nodup) :
    assocGet (assocDelete l k) k1 = if k1 = k then (Value.nil, false) else assocGet l k1 := by
  induction l with
  | nil =>
    by_cases h1 : k1 = k
    · simp [assocDelete, assocGet, h1]
    · simp [assocDelete, assocGet, h1]
  | cons p rest ih =>
    obtain ⟨k0, v0⟩ := p
    simp only [List.map_cons, List.nodup_cons] at h
    by_cases h0 : k0 = k
    · subst h0
      simp only [assocDelete, if_true]
      by_cases h1 : k1 = k0
      · subst h1
        have hf : (assocGet rest k1).2 = false := by
          cases hb : (assocGet rest k1).2 with
          | false => rfl
          | true => exact absurd ((assocGet_found_iff rest k1).1 hb) h.1
        have hn := assocGet_absent rest k1 hf
        rw [if_pos rfl]
        exact Prod.ext hn hf
      · have h2 : ¬ (k0 = k1) := fun e => h1 e.symm
        simp [assocGet, h1, h2]
    · simp only [assocDelete, if_neg h0]
      by_cases h1 : k0 = k1
      · subst h1
        simp [assocGet, h0]
      · simp [assocGet, h1, ih h.2]

theorem assocTable_reach_nodup (t : List (String × Value)) (h : assocTable.Reach t) :
    (t.map Prod.fst).Nodup := by
  induction h with
  | new c => exact List.nodup_nil
  | set k v _ ih => exact assocSet_nodup _ k v ih
  | delete k _ ih => exact assocDelete_nodup _ k ih

theorem assocGet_mem (l : List (String × Value)) (k : String) (v : Value)
    (h : (l.map Prod.fst).Nodup) : (k, v) ∈ l ↔ assocGet l k = (v, true) := by
  induction l with
  | nil => simp [assocGet]
  | cons p rest ih =>
    obtain ⟨k0, v0⟩ := p
    simp only [List.map_cons, List.nodup_cons] at h
    by_cases h0 : k0 = k
    · subst h0
      have hn : (k0, v) ∉ rest := fun hm => h.1 (List.mem_map.2 ⟨(k0, v), hm, rfl⟩)
      simp only [assocGet, if_true, List.mem_cons, hn, or_false, Prod.mk.injEq, true_and,
        and_true]
      exact eq_comm
    · have h1 : ¬ (k = k0) := fun e => h0 e.symm
      simp only [assocGet, if_neg h0, List.mem_cons, Prod.mk.injEq, h1, false_and, false_or]
      exact ih h.2

/-- Association lists satisfy the table laws. -/
theorem assocTable_lawful : assocTable.Lawful where
  get_new := fun _ _ => rfl
  get_absent := fun t k _ h => assocGet_absent t k h
  set_ret := fun _ _ _ _ => rfl
  get_set := fun t k v k0 _ => assocGet_set t k v k0
  delete_ret := fun _ _ _ => rfl
  get_delete := fun t k k0 h => assocGet_delete t k k0 (assocTable_reach_nodup t h)
  entries_nodup := fun t h => assocTable_reach_nodup t h
  mem_entries := fun t k v h => assocGet_mem t k v (assocTable_reach_nodup t h)
  len_eq := fun _ _ => rfl

/-! ## Reachable states -/

/-- Every CPU count from `0` to `2 ^ 58` lets the loop exit, so that `initDo`
returns when the memory suffices for the shard count of the loop. -/
theorem initReturns_of_le {T : Type} (d : Deps T) (m : Map T) (h0 : 0 ≤ d.NumCPU)
    (h1 : d.NumCPU ≤ 2 ^ 58) (ha : ∀ n, d.allocates n (scap m.cap n) = true) :
    d.InitReturns m := by
  have hw : wrapInt (d.NumCPU * 16) = d.NumCPU * 16 := wrapInt_of_range (by omega) (by omega)
  have hcpu : wrapInt (d.NumCPU * 16) ≤ 2 ^ 62 := by rw [hw]; omega
  obtain ⟨r, _, hrun, _, _⟩ := shardLoop_returns hcpu loopFuel (by decide)
  exact Or.inr ⟨2 ^ r, hrun, ha _⟩

theorem initDo_returns {T : Type} (d : Deps T) (hl : d.rhh.Lawful) (m : Map T)
    (hm : m.init = false ∨ Inv d m) (hr : d.InitReturns m) :
    ∃ m1, initDo d m = .ok m1 ∧ Inv d m1 := by
  obtain ⟨m1, h0⟩ := (initReturns_iff d m).1 hr
  exact ⟨m1, h0, initDo_ok_inv d hl m m1 hm h0⟩

theorem Set_ok_spec {T : Type} {d : Deps T} (hl : d.rhh.Lawful) {m : Map T}
    (hm : m.init = false ∨ Inv d m) {k : String} {v : Value} {o : Out (Value × Bool) T}
    (h : Set d m k v = .ok o) :
    ∃ (m1 : Map T) (i : Nat) (t : T), initDo d m = .ok m1 ∧ Inv d m1 ∧
      choose d m1 k = (i : Int) ∧ m1.s[i]? = some t ∧
      o = { ret := (d.rhh.Set t k v).1
            map := { m1 with s := m1.s.set i (d.rhh.Set t k v).2 }
            trace := [LockEvent.Lock i, LockEvent.Unlock i] } := by
  obtain ⟨m1, h0, h1⟩ := Set_factor d m k v o h
  have hinv := initDo_ok_inv d hl m m1 hm h0
  obtain ⟨i, t, hi, ht, hs⟩ := Set_of_inv hinv k v
  rw [h1 hinv.init] at hs
  exact ⟨m1, i, t, h0, hinv, hi, ht, Except.ok.inj hs⟩

theorem Delete_ok_spec {T : Type} {d : Deps T} (hl : d.rhh.Lawful) {m : Map T}
    (hm : m.init = false ∨ Inv d m) {k : String} {o : Out (Value × Bool) T}
    (h : Delete d m k = .ok o) :
    ∃ (m1 : Map T) (i : Nat) (t : T), initDo d m = .ok m1 ∧ Inv d m1 ∧
      choose d m1 k = (i : Int) ∧ m1.s[i]? = some t ∧
      o = { ret := (d.rhh.Delete t k).1
            map := { m1 with s := m1.s.set i (d.rhh.Delete t k).2 }
            trace := [LockEvent.Lock i, LockEvent.Unlock i] } := by
  obtain ⟨m1, h0, h1⟩ := Delete_factor d m k o h
  have hinv := initDo_ok_inv d hl m m1 hm h0
  obtain ⟨i, t, hi, ht, hs⟩ := Delete_of_inv hinv k
  rw [h1 hinv.init] at hs
  exact ⟨m1, i, t, h0, hinv, hi, ht, Except.ok.inj hs⟩

theorem Get_ok_spec {T : Type} {d : Deps T} (hl : d.rhh.Lawful) {m : Map T}
    (hm : m.init = false ∨ Inv d m) {k : String} {o : Out (Value × Bool) T}
    (h : Get d m k = .ok o) :
    ∃ m1 : Map T, initDo d m = .ok m1 ∧ Inv d m1 ∧ o.ret = m1.find d k ∧ o.map = m1 := by
  obtain ⟨m1, h0, h1⟩ := Get_factor d m k o h
  have hinv := initDo_ok_inv d hl m m1 hm h0
  have hs := Get_of_inv hinv k
  rw [h1 hinv.init] at hs
  have hs := Except.ok.inj hs
  subst hs
  exact ⟨m1, h0, hinv, rfl, rfl⟩

theorem Len_ok_spec {T : Type} {d : Deps T} (hl : d.rhh.Lawful) {m : Map T}
    (hm : m.init = false ∨ Inv d m) {o : Out Int T} (h : Len d m = .ok o) :
    ∃ m1 : Map T, initDo d m = .ok m1 ∧ Inv d m1 ∧
      o = { ret := (lenLoop d m1.s 0 0 []).1, map := m1, trace := (lenLoop d m1.s 0 0 []).2 } := by
  cases h0 : initDo d m with
  | error e =>
    unfold Len at h
    rw [h0, bind_error] at h
    cases h
  | ok m1 =>
    unfold Len at h
    rw [h0, bind_ok] at h
    exact ⟨m1, rfl, initDo_ok_inv d hl m m1 hm h0, (Except.ok.inj h).symm⟩

theorem Range_ok_spec {T σ : Type} {d : Deps T} (hl : d.rhh.Lawful) {m : Map T}
    (hm : m.init = false ∨ Inv d m) {iter : σ → String → Value → σ × Bool} {s0 : σ}
    {o : Out σ T} (h : Range d m iter s0 = .ok o) :
    ∃ m1 : Map T, initDo d m = .ok m1 ∧ Inv d m1 ∧
      o = { ret := (rangeLoop d iter m1.s 0 (s0, false) []).1.1, map := m1,
            trace := (rangeLoop d iter m1.s 0 (s0, false) []).2 } := by
  cases h0 : initDo d m with
  | error e =>
    unfold Range at h
    rw [h0, bind_error] at h
    cases h
  | ok m1 =>
    unfold Range at h
    rw [h0, bind_ok] at h
    exact ⟨m1, rfl, initDo_ok_inv d hl m m1 hm h0, (Except.ok.inj h).symm⟩

/-- A reachable map is either not yet initialised or satisfies the invariant. -/
theorem Reachable.good {T : Type} {d : Deps T} (hl : d.rhh.Lawful) {m : Map T}
    (h : Reachable d m) : m.init = false ∨ Inv d m := by
  induction h with
  | new cap => exact Or.inl rfl
  | set k v _ hs ih =>
    obtain ⟨m1, i, t, _, hinv, hi, ht, ho⟩ := Set_ok_spec hl ih hs
    subst ho
    exact Or.inr (hinv.after_set hl k v hi ht)
  | get k _ hs ih =>
    obtain ⟨m1, _, hinv, _, hmap⟩ := Get_ok_spec hl ih hs
    rw [hmap]
    exact Or.inr hinv
  | delete k _ hs ih =>
    obtain ⟨m1, i, t, _, hinv, hi, ht, ho⟩ := Delete_ok_spec hl ih hs
    subst ho
    exact Or.inr (hinv.after_delete hl k hi ht)
  | len _ hs ih =>
    obtain ⟨m1, _, hinv, ho⟩ := Len_ok_spec hl ih hs
    subst ho
    exact Or.inr hinv
  | range iter s0 _ hs ih =>
    obtain ⟨m1, _, hinv, ho⟩ := Range_ok_spec hl ih hs
    subst ho
    exact Or.inr hinv

theorem Set_congr_init {T : Type} {d : Deps T} {m m1 : Map T} (h0 : initDo d m = .ok m1)
    (hi : m1.init = true) (k : String) (v : Value) : Set d m k v = Set d m1 k v := by
  unfold Set
  rw [h0, initDo_of_init d m1 hi]

theorem Get_congr_init {T : Type} {d : Deps T} {m m1 : Map T} (h0 : initDo d m = .ok m1)
    (hi : m1.init = true) (k : String) : Get d m k = Get d m1 k := by
  unfold Get
  rw [h0, initDo_of_init d m1 hi]

theorem Delete_congr_init {T : Type} {d : Deps T} {m m1 : Map T} (h0 : initDo d m = .ok m1)
    (hi : m1.init = true) (k : String) : Delete d m k = Delete d m1 k := by
  unfold Delete
  rw [h0, initDo_of_init d m1 hi]

theorem Len_congr_init {T : Type} {d : Deps T} {m m1 : Map T} (h0 : initDo d m = .ok m1)
    (hi : m1.init = true) : Len d m = Len d m1 := by
  unfold Len
  rw [h0, initDo_of_init d m1 hi]

theorem Range_congr_init {T σ : Type} {d : Deps T} {m m1 : Map T} (h0 : initDo d m = .ok m1)
    (hi : m1.init = true) (iter : σ → String → Value → σ × Bool) (s0 : σ) :
    Range d m iter s0 = Range d m1 iter s0 := by
  unfold Range
  rw [h0, initDo_of_init d m1 hi]

/-- On a map that is new or initialised the key-addressed operations return
when `initDo` does. -/
theorem Set_returns {T : Type} {d : Deps T} (hl : d.rhh.Lawful) {m : Map T}
    (hm : m.init = false ∨ Inv d m) (hr : d.InitReturns m) (k : String)
    (v : Value) : ∃ o, Set d m k v = .ok o := by
  obtain ⟨m1, h0, hinv⟩ := initDo_returns d hl m hm hr
  obtain ⟨i, t, _, _, hs⟩ := Set_of_inv hinv k v
  exact ⟨_, (Set_congr_init h0 hinv.init k v).trans hs⟩

theorem Get_returns {T : Type} {d : Deps T} (hl : d.rhh.Lawful) {m : Map T}
    (hm : m.init = false ∨ Inv d m) (hr : d.InitReturns m) (k : String) :
    ∃ o, Get d m k = .ok o := by
  obtain ⟨m1, h0, hinv⟩ := initDo_returns d hl m hm hr
  exact ⟨_, (Get_congr_init h0 hinv.init k).trans (Get_of_inv hinv k)⟩

theorem Delete_returns {T : Type} {d : Deps T} (hl : d.rhh.Lawful) {m : Map T}
    (hm : m.init = false ∨ Inv d m) (hr : d.InitReturns m) (k : String) :
    ∃ o, Delete d m k = .ok o := by
  obtain ⟨m1, h0, hinv⟩ := initDo_returns d hl m hm hr
  obtain ⟨i, t, _, _, hs⟩ := Delete_of_inv hinv k
  exact ⟨_, (Delete_congr_init h0 hinv.init k).trans hs⟩

theorem Len_of_initDo {T : Type} {d : Deps T} {m m1 : Map T} (h0 : initDo d m = .ok m1) :
    Len d m = .ok { ret := (lenLoop d m1.s 0 0 []).1, map := m1,
                    trace := (lenLoop d m1.s 0 0 []).2 } := by
  unfold Len
  rw [h0, bind_ok]

theorem Range_of_initDo {T σ : Type} {d : Deps T} {m m1 : Map T} (h0 : initDo d m = .ok m1)
    (iter : σ → String → Value → σ × Bool) (s0 : σ) :
    Range d m iter s0 = .ok { ret := (rangeLoop d iter m1.s 0 (s0, false) []).1.1, map := m1,
                              trace := (rangeLoop d iter m1.s 0 (s0, false) []).2 } := by
  unfold Range
  rw [h0, bind_ok]

theorem Len_returns {T : Type} {d : Deps T} (hl : d.rhh.Lawful) {m : Map T}
    (hm : m.init = false ∨ Inv d m) (hr : d.InitReturns m) :
    ∃ o, Len d m = .ok o := by
  obtain ⟨m1, h0, _⟩ := initDo_returns d hl m hm hr
  exact ⟨_, Len_of_initDo h0⟩

theorem Range_returns {T σ : Type} {d : Deps T} (hl : d.rhh.Lawful) {m : Map T}
    (hm : m.init = false ∨ Inv d m) (hr : d.InitReturns m)
    (iter : σ → String → Value → σ × Bool) (s0 : σ) :
    ∃ o, Range d m iter s0 = .ok o := by
  obtain ⟨m1, h0, _⟩ := initDo_returns d hl m hm hr
  exact ⟨_, Range_of_initDo h0 iter s0⟩

/-- With one CPU the loop exits with 16 shards, and the reference memory
holds 16 tables of the capacity of a map made by `New(0)`. -/
theorem refDeps_initReturns : (refDeps 1).InitReturns (New 0) :=
  Or.inr ⟨16, by decide, by decide⟩

/-! ## Set, Get and Delete on one key -/

/-- C1: on every reachable map, for every key (the empty string included) and
every value (nil included), `Get(k)` run right after `Set(k, v)` returns
`(v, true)`; and `Set` returns whenever `initDo` does (`InitReturns`). -/
theorem get_after_set {T : Type} (d : Deps T) (hl : d.rhh.Lawful) (m : Map T)
    (hm : Reachable d m) (k : String) (v : Value) :
    (∀ o, Set d m k v = .ok o → ∃ o1, Get d o.map k = .ok o1 ∧ o1.ret = (v, true)) ∧
    (d.InitReturns m → ∃ o, Set d m k v = .ok o) := by
  have hg := hm.good hl
  refine ⟨?_, fun hr => Set_returns hl hg hr k v⟩
  intro o ho
  obtain ⟨m1, i, t, _, hinv, hi, ht, rfl⟩ := Set_ok_spec hl hg ho
  refine ⟨_, Get_of_inv (hinv.after_set hl k v hi ht) k, ?_⟩
  show Map.find d _ k = (v, true)
  rw [find_after_set hl hinv k v hi ht k, if_pos rfl]

theorem get_after_set_witness :
    assocTable.Lawful ∧ Reachable (refDeps 1) (New 0) ∧
      ∃ o o1, Set (refDeps 1) (New 0) "" Value.nil = .ok o ∧
        Get (refDeps 1) o.map "" = .ok o1 ∧ o1.ret = (Value.nil, true) := by
  have h := get_after_set (refDeps 1) assocTable_lawful (New 0) (Reachable.new 0) "" Value.nil
  obtain ⟨o, ho⟩ := h.2 refDeps_initReturns
  obtain ⟨o1, h1, h2⟩ := h.1 o ho
  exact ⟨assocTable_lawful, Reachable.new 0, o, o1, ho, h1, h2⟩

/-- C2: on every reachable map `Set(k, v)` returns `(old, true)` when `k` was
present with value `old` and `(nil, false)` when `k` was absent, presence being
what `Get(k)` reports on the same map; a second `Set(k, v2)` after `Set(k, v1)`
returns `(v1, true)`; and both calls return whenever `initDo`
does (`InitReturns`). -/
theorem set_returns_previous {T : Type} (d : Deps T) (hl : d.rhh.Lawful) (m : Map T)
    (hm : Reachable d m) (k : String) (v : Value) :
    (∀ g o, Get d m k = .ok g → Set d m k v = .ok o →
      (∀ old, g.ret = (old, true) → o.ret = (old, true)) ∧
      (g.ret.2 = false → o.ret = (Value.nil, false))) ∧
    (∀ v2 o1, Set d m k v = .ok o1 → ∃ o2, Set d o1.map k v2 = .ok o2 ∧ o2.ret = (v, true)) ∧
    (d.InitReturns m → ∃ g o, Get d m k = .ok g ∧ Set d m k v = .ok o) := by
  have hg := hm.good hl
  refine ⟨?_, ?_, fun hr => ?_⟩
  · intro g o hget hset
    obtain ⟨m1, h0, hinv, hret, _⟩ := Get_ok_spec hl hg hget
    obtain ⟨m2, i, t, h0s, _, hi, ht, rfl⟩ := Set_ok_spec hl hg hset
    rw [h0] at h0s
    cases h0s
    have hrt := hinv.reach i t ht
    have hfind : g.ret = d.rhh.Get t k := by rw [hret, find_of_choose k hi ht]
    show (∀ old, g.ret = (old, true) → (d.rhh.Set t k v).1 = (old, true)) ∧
      (g.ret.2 = false → (d.rhh.Set t k v).1 = (Value.nil, false))
    rw [hl.set_ret t k v hrt, ← hfind]
    refine ⟨fun old h => h, fun h => ?_⟩
    have h1 : g.ret.1 = Value.nil := by
      rw [hfind] at h ⊢
      exact hl.get_absent t k hrt h
    exact Prod.ext h1 h
  · intro v2 o1 hset
    obtain ⟨m1, i, t, _, hinv, hi, ht, rfl⟩ := Set_ok_spec hl hg hset
    have hinv2 := hinv.after_set hl k v hi ht
    obtain ⟨j, t2, hj, ht2, hs2⟩ := Set_of_inv hinv2 k v2
    refine ⟨_, hs2, ?_⟩
    show (d.rhh.Set t2 k v2).1 = (v, true)
    rw [hl.set_ret t2 k v2 (hinv2.reach j t2 ht2), ← find_of_choose k hj ht2,
      find_after_set hl hinv k v hi ht k, if_pos rfl]
  · obtain ⟨g, hget⟩ := Get_returns hl hg hr k
    obtain ⟨o, hset⟩ := Set_returns hl hg hr k v
    exact ⟨g, o, hget, hset⟩

theorem set_returns_previous_witness :
    assocTable.Lawful ∧ Reachable (refDeps 1) (New 0) ∧
      ∃ o1 o2, Set (refDeps 1) (New 0) "a" (Value.int 1) = .ok o1 ∧ o1.ret = (Value.nil, false) ∧
        Set (refDeps 1) o1.map "a" (Value.int 2) = .ok o2 ∧ o2.ret = (Value.int 1, true) := by
  have h := set_returns_previous (refDeps 1) assocTable_lawful (New 0) (Reachable.new 0) "a"
    (Value.int 1)
  obtain ⟨g, o1, hg, ho1⟩ := h.2.2 refDeps_initReturns
  obtain ⟨o2, ho2, hr2⟩ := h.2.1 (Value.int 2) o1 ho1
  have hgr : g.ret.2 = false := by
    have e : Get (refDeps 1) (New 0) "a" = .ok _ := rfl
    rw [e] at hg
    cases hg
    rfl
  exact ⟨assocTable_lawful, Reachable.new 0, o1, o2, ho1, (h.1 g o1 hg ho1).2 hgr, ho2, hr2⟩

/-- C3: on every reachable map `Delete(k)` run right after `Set(k, v)` returns
`(v, true)` and a `Get(k)` after that `Delete` returns found = false; `Set`
returns whenever `initDo` does (`InitReturns`). -/
theorem delete_after_set {T : Type} (d : Deps T) (hl : d.rhh.Lawful) (m : Map T)
    (hm : Reachable d m) (k : String) (v : Value) :
    (∀ o, Set d m k v = .ok o →
      ∃ o1 o2, Delete d o.map k = .ok o1 ∧ o1.ret = (v, true) ∧
        Get d o1.map k = .ok o2 ∧ o2.ret.2 = false) ∧
    (d.InitReturns m → ∃ o, Set d m k v = .ok o) := by
  have hg := hm.good hl
  refine ⟨?_, fun hr => Set_returns hl hg hr k v⟩
  intro o ho
  obtain ⟨m1, i, t, _, hinv, hi, ht, rfl⟩ := Set_ok_spec hl hg ho
  have hinv2 := hinv.after_set hl k v hi ht
  obtain ⟨j, t2, hj, ht2, hd⟩ := Delete_of_inv hinv2 k
  have hinv3 := hinv2.after_delete hl k hj ht2
  refine ⟨_, _, hd, ?_, Get_of_inv hinv3 k, ?_⟩
  · show (d.rhh.Delete t2 k).1 = (v, true)
    rw [hl.delete_ret t2 k (hinv2.reach j t2 ht2), ← find_of_choose k hj ht2,
      find_after_set hl hinv k v hi ht k, if_pos rfl]
  · show (Map.find d _ k).2 = false
    rw [find_after_delete hl hinv2 k hj ht2 k, if_pos rfl]

theorem delete_after_set_witness :
    assocTable.Lawful ∧ Reachable (refDeps 1) (New 0) ∧
      ∃ o o1 o2, Set (refDeps 1) (New 0) "a" (Value.int 1) = .ok o ∧
        Delete (refDeps 1) o.map "a" = .ok o1 ∧ o1.ret = (Value.int 1, true) ∧
        Get (refDeps 1) o1.map "a" = .ok o2 ∧ o2.ret.2 = false := by
  have h := delete_after_set (refDeps 1) assocTable_lawful (New 0) (Reachable.new 0) "a"
    (Value.int 1)
  obtain ⟨o, ho⟩ := h.2 refDeps_initReturns
  obtain ⟨o1, o2, h1, h2, h3, h4⟩ := h.1 o ho
  exact ⟨assocTable_lawful, Reachable.new 0, o, o1, o2, ho, h1, h2, h3, h4⟩

/-! ## Counting: `Len` and the entries of the map -/

theorem lenLoop_fst {T : Type} (d : Deps T) (hl : d.rhh.Lawful) :
    ∀ (l : List T) (i : Nat) (acc : Int) (tr : List LockEvent),
      (∀ t, t ∈ l → d.rhh.Reach t) →
      (lenLoop d l i acc tr).1 = acc + ((l.flatMap d.rhh.entries).length : Int) := by
  intro l
  induction l with
  | nil => intro i acc tr _; simp [lenLoop]
  | cons t rest ih =>
    intro i acc tr hr
    have ht := hr t (List.mem_cons_self t rest)
    have hrest : ∀ t0, t0 ∈ rest → d.rhh.Reach t0 :=
      fun t0 h0 => hr t0 (List.mem_cons_of_mem t h0)
    simp only [lenLoop, List.flatMap_cons, List.length_append]
    rw [ih (i + 1) _ _ hrest, hl.len_eq t ht]
    push_cast
    ring

theorem Inv.reach_mem {T : Type} {d : Deps T} {m : Map T} (h : Inv d m) :
    ∀ t, t ∈ m.s → d.rhh.Reach t := by
  intro t ht
  obtain ⟨n, hn⟩ := List.mem_iff_getElem?.1 ht
  exact h.reach n t hn

/-- On an initialised map `Len` returns the number of entries. -/
theorem Len_of_inv {T : Type} {d : Deps T} (hl : d.rhh.Lawful) {m : Map T} (h : Inv d m) :
    ∃ o, Len d m = .ok o ∧ o.ret = ((m.entries d).length : Int) ∧ o.map = m := by
  refine ⟨_, Len_of_initDo (initDo_of_init d m h.init), ?_, rfl⟩
  show (lenLoop d m.s 0 0 []).1 = _
  rw [lenLoop_fst d hl m.s 0 0 [] h.reach_mem]
  simp [Map.entries]

/-- The entries of an initialised map are exactly what `Get` finds. -/
theorem Inv.mem_entries {T : Type} {d : Deps T} (hl : d.rhh.Lawful) {m : Map T} (h : Inv d m)
    (k : String) (v : Value) : (k, v) ∈ m.entries d ↔ m.find d k = (v, true) := by
  unfold Map.entries
  rw [List.mem_flatMap]
  constructor
  · rintro ⟨t, ht, hkv⟩
    obtain ⟨n, hn⟩ := List.mem_iff_getElem?.1 ht
    have hg := (hl.mem_entries t k v (h.reach n t hn)).1 hkv
    have hc := h.place n t k hn (by rw [hg])
    rw [find_of_choose k hc hn, hg]
  · intro hf
    obtain ⟨i, t, hi, _, ht, _⟩ := h.choose_ok k
    rw [find_of_choose k hi ht] at hf
    exact ⟨t, List.mem_iff_getElem?.2 ⟨i, ht⟩, (hl.mem_entries t k v (h.reach i t ht)).2 hf⟩

theorem Inv.mem_keys {T : Type} {d : Deps T} (hl : d.rhh.Lawful) {m : Map T} (h : Inv d m)
    (k : String) : k ∈ (m.entries d).map Prod.fst ↔ (m.find d k).2 = true := by
  rw [List.mem_map]
  constructor
  · rintro ⟨⟨k0, v⟩, hm, rfl⟩
    rw [(h.mem_entries hl k0 v).1 hm]
  · intro hf
    refine ⟨(k, (m.find d k).1), (h.mem_entries hl k _).2 ?_, rfl⟩
    exact Prod.ext rfl hf

/-- No key occurs twice among the entries of an initialised map. -/
theorem Inv.keys_nodup {T : Type} {d : Deps T} (hl : d.rhh.Lawful) {m : Map T} (h : Inv d m) :
    ((m.entries d).map Prod.fst).Nodup := by
  unfold Map.entries
  rw [List.map_flatMap, List.nodup_flatMap]
  refine ⟨fun t ht => hl.entries_nodup t (h.reach_mem t ht), ?_⟩
  rw [List.pairwise_iff_getElem]
  intro i j hi hj hij
  show List.Disjoint ((d.rhh.entries m.s[i]).map Prod.fst) ((d.rhh.entries m.s[j]).map Prod.fst)
  intro k hki hkj
  have hsi : m.s[i]? = some m.s[i] := List.getElem?_eq_getElem hi
  have hsj : m.s[j]? = some m.s[j] := List.getElem?_eq_getElem hj
  obtain ⟨⟨k1, v1⟩, hm1, e1⟩ := List.mem_map.1 hki
  obtain ⟨⟨k2, v2⟩, hm2, e2⟩ := List.mem_map.1 hkj
  simp only at e1 e2
  rw [e1] at hm1
  rw [e2] at hm2
  have g1 := (hl.mem_entries _ k v1 (h.reach i _ hsi)).1 hm1
  have g2 := (hl.mem_entries _ k v2 (h.reach j _ hsj)).1 hm2
  have c1 := h.place i _ k hsi (by rw [g1])
  have c2 := h.place j _ k hsj (by rw [g2])
  rw [c1] at c2
  omega

/-- Two duplicate-free lists with the same members have the same length. -/
theorem length_eq_of_mem_iff {α : Type} {l1 l2 : List α} (h1 : l1.Nodup) (h2 : l2.Nodup)
    (h : ∀ a, a ∈ l1 ↔ a ∈ l2) : l1.length = l2.length :=
  ((List.perm_ext_iff_of_nodup h1 h2).2 h).length_eq

/-- Initialised maps in which `Get` finds the same keys have the same `Len`. -/
theorem entries_length_congr {T : Type} {d : Deps T} (hl : d.rhh.Lawful) {m1 m2 : Map T}
    (h1 : Inv d m1) (h2 : Inv d m2)
    (h : ∀ k, (m1.find d k).2 = (m2.find d k).2) :
    (m1.entries d).length = (m2.entries d).length := by
  have e := length_eq_of_mem_iff (h1.keys_nodup hl) (h2.keys_nodup hl)
    (fun k => by rw [h1.mem_keys hl, h2.mem_keys hl, h k])
  simpa using e

/-- C4: on every reachable map, `Delete(k)` of a key that `Get` does not find
returns deleted = false, and `Len()` after it equals `Len()` before it; the
three calls return whenever `initDo` does (`InitReturns`). -/
theorem delete_absent {T : Type} (d : Deps T) (hl : d.rhh.Lawful) (m : Map T)
    (hm : Reachable d m) (k : String) :
    (∀ g l0 o, Get d m k = .ok g → g.ret.2 = false → Len d m = .ok l0 → Delete d m k = .ok o →
      o.ret.2 = false ∧ ∃ l1, Len d o.map = .ok l1 ∧ l1.ret = l0.ret) ∧
    (d.InitReturns m → ∃ g l0 o, Get d m k = .ok g ∧ Len d m = .ok l0 ∧ Delete d m k = .ok o) := by
  have hg := hm.good hl
  refine ⟨?_, fun hr => ?_⟩
  · intro g l0 o hget habs hlen hdel
    obtain ⟨m1, h0, hinv, hret, _⟩ := Get_ok_spec hl hg hget
    obtain ⟨m2, i, t, h0d, _, hi, ht, rfl⟩ := Delete_ok_spec hl hg hdel
    rw [h0] at h0d
    cases h0d
    have hrt := hinv.reach i t ht
    have hfind : m1.find d k = d.rhh.Get t k := find_of_choose k hi ht
    rw [hret] at habs
    have hinv2 := hinv.after_delete hl k hi ht
    obtain ⟨l1, hl1, hl1r, _⟩ := Len_of_inv hl hinv2
    obtain ⟨l0a, hl0, hl0r, _⟩ := Len_of_inv hl hinv
    rw [Len_congr_init h0 hinv.init, hl0] at hlen
    cases hlen
    refine ⟨?_, l1, hl1, ?_⟩
    · show (d.rhh.Delete t k).1.2 = false
      rw [hl.delete_ret t k hrt, ← hfind]
      exact habs
    · have e := entries_length_congr hl hinv2 hinv (fun k0 => by
        rw [find_after_delete hl hinv k hi ht k0]
        by_cases hk : k0 = k
        · subst hk; rw [if_pos rfl, habs]
        · rw [if_neg hk])
      rw [hl1r, hl0r, e]
  · obtain ⟨g, hget⟩ := Get_returns hl hg hr k
    obtain ⟨l0, hlen⟩ := Len_returns hl hg hr
    obtain ⟨o, hdel⟩ := Delete_returns hl hg hr k
    exact ⟨g, l0, o, hget, hlen, hdel⟩

theorem delete_absent_witness :
    assocTable.Lawful ∧
      ∃ o1 o2 g l0 o l1,
        Set (refDeps 1) (New 0) "a" (Value.int 1) = .ok o1 ∧
        Set (refDeps 1) o1.map "bb" (Value.int 2) = .ok o2 ∧
        Get (refDeps 1) o2.map "q" = .ok g ∧ g.ret.2 = false ∧
        Len (refDeps 1) o2.map = .ok l0 ∧ l0.ret = 2 ∧
        Delete (refDeps 1) o2.map "q" = .ok o ∧ o.ret.2 = false ∧
        Len (refDeps 1) o.map = .ok l1 ∧ l1.ret = l0.ret := by
  obtain ⟨o1, h1, o2, h2, g, hg, hgr, l0, hl0, hl0r, o, ho⟩ :
      ∃ o1, Set (refDeps 1) (New 0) "a" (Value.int 1) = .ok o1 ∧
        ∃ o2, Set (refDeps 1) o1.map "bb" (Value.int 2) = .ok o2 ∧
        ∃ g, Get (refDeps 1) o2.map "q" = .ok g ∧ g.ret.2 = false ∧
        ∃ l0, Len (refDeps 1) o2.map = .ok l0 ∧ l0.ret = 2 ∧
        ∃ o, Delete (refDeps 1) o2.map "q" = .ok o :=
    ⟨_, rfl, _, rfl, _, rfl, rfl, _, rfl, rfl, _, rfl⟩
  have h := delete_absent (refDeps 1) assocTable_lawful o2.map
    (Reachable.set "bb" (Value.int 2) (Reachable.set "a" (Value.int 1) (Reachable.new 0) h1) h2)
    "q"
  obtain ⟨hd, l1, hl1, hl1r⟩ := h.1 g l0 o hg hgr hl0 ho
  exact ⟨assocTable_lawful, o1, o2, g, l0, o, l1, h1, h2, hg, hgr, hl0, hl0r, ho, hd, hl1, hl1r⟩

/-! ## Sequences of calls -/

theorem step_congr_init {T : Type} {d : Deps T} {m m1 : Map T} (h0 : initDo d m = .ok m1)
    (hi : m1.init = true) (op : Op) : step d m op = step d m1 op := by
  cases op with
  | Set k v => simp only [step]; rw [Set_congr_init h0 hi]
  | Get k => simp only [step]; rw [Get_congr_init h0 hi]
  | Delete k => simp only [step]; rw [Delete_congr_init h0 hi]
  | Len => simp only [step]; rw [Len_congr_init h0 hi]

theorem step_error_init {T : Type} {d : Deps T} {m : Map T} {e : Fault}
    (h0 : initDo d m = .error e) (op : Op) : step d m op = .error e := by
  cases op with
  | Set k v => simp only [step]; unfold Set; rw [h0, bind_error, bind_error]
  | Get k => simp only [step]; unfold Get; rw [h0, bind_error, bind_error]
  | Delete k => simp only [step]; unfold Delete; rw [h0, bind_error, bind_error]
  | Len => simp only [step]; unfold Len; rw [h0, bind_error, bind_error]

theorem run_cons {T : Type} (d : Deps T) (m : Map T) (op : Op) (rest : List Op) :
    run d m (op :: rest) =
      (step d m op).bind fun p => (run d p.2 rest).bind fun q => .ok (p.1 :: q.1, q.2) := rfl

theorem run_congr_init {T : Type} {d : Deps T} {m m1 : Map T} (h0 : initDo d m = .ok m1)
    (hi : m1.init = true) (op : Op) (rest : List Op) :
    run d m (op :: rest) = run d m1 (op :: rest) := by
  rw [run_cons, run_cons, step_congr_init h0 hi]

theorem run_error_init {T : Type} {d : Deps T} {m : Map T} {e : Fault}
    (h0 : initDo d m = .error e) (op : Op) (rest : List Op) :
    run d m (op :: rest) = .error e := by
  rw [run_cons, step_error_init h0, bind_error]

/-- A call on an initialised map returns the result of the call on the finite
map that `Get` computes, and changes that finite map accordingly. -/
theorem step_of_inv {T : Type} {d : Deps T} (hl : d.rhh.Lawful) {m : Map T} (h : Inv d m)
    (op : Op) :
    ∃ m1, step d m op = .ok (opRes (m.find d) ((m.entries d).length : Int) op, m1) ∧
      Inv d m1 ∧ ∀ k0, m1.find d k0 = opView (m.find d) op k0 := by
  cases op with
  | Set k v =>
    obtain ⟨i, t, hi, ht, hs⟩ := Set_of_inv h k v
    refine ⟨_, ?_, h.after_set hl k v hi ht, fun k0 => find_after_set hl h k v hi ht k0⟩
    simp only [step, opRes]
    rw [hs, bind_ok, hl.set_ret t k v (h.reach i t ht), find_of_choose k hi ht]
  | Get k =>
    refine ⟨m, ?_, h, fun k0 => rfl⟩
    simp only [step, opRes]
    rw [Get_of_inv h k, bind_ok]
  | Delete k =>
    obtain ⟨i, t, hi, ht, hs⟩ := Delete_of_inv h k
    refine ⟨_, ?_, h.after_delete hl k hi ht, fun k0 => find_after_delete hl h k hi ht k0⟩
    simp only [step, opRes]
    rw [hs, bind_ok, hl.delete_ret t k (h.reach i t ht), find_of_choose k hi ht]
  | Len =>
    obtain ⟨o, ho, hr, hmap⟩ := Len_of_inv hl h
    refine ⟨m, ?_, h, fun k0 => rfl⟩
    simp only [step, opRes]
    rw [ho, bind_ok, hr, hmap]

theorem keysStep_nodup (ks : List String) (op : Op) (h : ks.Nodup) : (keysStep ks op).Nodup := by
  cases op with
  | Set k v =>
    simp only [keysStep]
    split
    · exact h
    · rename_i hk; exact List.nodup_cons.2 ⟨hk, h⟩
  | Get k => exact h
  | Delete k => exact h.filter _
  | Len => exact h

theorem keysStep_mem (ks : List String) (f : String → Value × Bool) (op : Op)
    (h : ∀ k, k ∈ ks ↔ (f k).2 = true) :
    ∀ k, k ∈ keysStep ks op ↔ (opView f op k).2 = true := by
  intro k0
  cases op with
  | Set k v =>
    simp only [keysStep, opView]
    by_cases hk : k0 = k
    · subst hk
      by_cases hin : k0 ∈ ks
      · simp [hin]
      · simp [hin]
    · by_cases hin : k ∈ ks
      · simp [hin, hk, h k0]
      · simp [hin, hk, h k0]
  | Get k => exact h k0
  | Delete k =>
    simp only [keysStep, opView, List.mem_filter]
    by_cases hk : k0 = k
    · simp [hk]
    · simp [hk, h k0]
  | Len => exact h k0

/-- Membership in the list of keys, read off the sequence of calls. -/
theorem foldl_keysStep_mem (k : String) :
    ∀ (ops : List Op) (ks : List String),
      k ∈ ops.foldl keysStep ks ↔
        SetNotDeleted k ops ∨ (k ∈ ks ∧ ∀ o, o ∈ ops → o ≠ Op.Delete k) := by
  intro ops
  induction ops with
  | nil => intro ks; simp [SetNotDeleted]
  | cons op rest ih =>
    intro ks
    rw [List.foldl_cons, ih]
    have hstep : k ∈ keysStep ks op ↔ (∃ v, op = Op.Set k v) ∨ (k ∈ ks ∧ op ≠ Op.Delete k) := by
      cases op with
      | Set k1 v =>
        simp only [keysStep]
        by_cases hk : k1 = k
        · subst hk
          by_cases hin : k1 ∈ ks
          · simp [hin]
          · simp [hin]
        · have hk1 : ¬ (k = k1) := fun e => hk e.symm
          by_cases hin : k1 ∈ ks
          · simp [hin, hk]
          · simp [hin, hk, hk1]
      | Get k1 => simp [keysStep]
      | Delete k1 =>
        simp only [keysStep, List.mem_filter]
        by_cases hk : k1 = k
        · subst hk; simp
        · have hk1 : ¬ (k = k1) := fun e => hk e.symm
          simp [hk, hk1]
      | Len => simp [keysStep]
    simp only [SetNotDeleted, hstep, List.mem_cons, forall_eq_or_imp]
    tauto

theorem run_keys {T : Type} {d : Deps T} (hl : d.rhh.Lawful) :
    ∀ (ops : List Op) (m : Map T) (ks : List String),
      Inv d m → ks.Nodup → (∀ k, k ∈ ks ↔ (m.find d k).2 = true) →
      ∃ rs m1, run d m ops = .ok (rs, m1) ∧ Inv d m1 ∧ (ops.foldl keysStep ks).Nodup ∧
        ∀ k, k ∈ ops.foldl keysStep ks ↔ (m1.find d k).2 = true := by
  intro ops
  induction ops with
  | nil => intro m ks h hn hk; exact ⟨[], m, rfl, h, hn, hk⟩
  | cons op rest ih =>
    intro m ks h hn hk
    obtain ⟨m1, hs, hinv1, hf1⟩ := step_of_inv hl h op
    have hk1 : ∀ k, k ∈ keysStep ks op ↔ (m1.find d k).2 = true := by
      intro k
      rw [hf1 k]
      exact keysStep_mem ks (m.find d) op hk k
    obtain ⟨rs, m2, hrun, hinv2, hn2, hk2⟩ := ih m1 (keysStep ks op) hinv1
      (keysStep_nodup ks op hn) hk1
    refine ⟨opRes (m.find d) ((m.entries d).length : Int) op :: rs, m2, ?_, hinv2, hn2, hk2⟩
    rw [run_cons, hs, bind_ok, hrun, bind_ok]

theorem find_replicate_new {T : Type} (d : Deps T) (hl : d.rhh.Lawful) (m : Map T) (n : Nat)
    (x : Int) (hs : m.s = List.replicate n (d.rhh.New x)) (k : String) :
    m.find d k = (Value.nil, false) := by
  unfold Map.find
  rw [hs, List.getElem?_replicate]
  split
  · simp only [Option.map_some', Option.getD_some]
    exact hl.get_new x k
  · rfl

/-- After the initialisation of a new map every key is absent. -/
theorem initDo_new_find {T : Type} (d : Deps T) (hl : d.rhh.Lawful) (m m1 : Map T)
    (h : m.init = false) (h0 : initDo d m = .ok m1) (k : String) :
    m1.find d k = (Value.nil, false) := by
  obtain ⟨r, _, _, _, rfl⟩ := initDo_new_form d m m1 h h0
  exact find_replicate_new d hl _ _ _ rfl k

/-- A sequence of calls on a new map, followed by `Len`, behaves as the same
sequence on the initialised map. -/
theorem run_new_len {T : Type} {d : Deps T} (c : Int) {m0 : Map T}
    (h0 : initDo d (New c) = .ok m0) (hi : m0.init = true) (ops : List Op)
    {rs : List Res} {m1 : Map T} {l : Out Int T}
    (hrun : run d (New c) ops = .ok (rs, m1)) (hlen : Len d m1 = .ok l) :
    ∃ m2, run d m0 ops = .ok (rs, m2) ∧ Len d m2 = .ok l := by
  cases ops with
  | nil =>
    have e : run d (New c) [] = .ok ([], New c) := rfl
    rw [e] at hrun
    cases hrun
    refine ⟨m0, rfl, ?_⟩
    rw [← Len_congr_init h0 hi]
    exact hlen
  | cons op rest =>
    rw [run_congr_init h0 hi] at hrun
    exact ⟨m1, hrun, hlen⟩

theorem run_new_error {T : Type} {d : Deps T} (c : Int) {e : Fault}
    (h0 : initDo d (New c) = .error e) (ops : List Op)
    {rs : List Res} {m1 : Map T} {l : Out Int T}
    (hrun : run d (New c) ops = .ok (rs, m1)) (hlen : Len d m1 = .ok l) : False := by
  cases ops with
  | nil =>
    have e1 : run d (New c) [] = .ok ([], New c) := rfl
    rw [e1] at hrun
    cases hrun
    unfold Len at hlen
    rw [h0, bind_error] at hlen
    cases hlen
  | cons op rest =>
    rw [run_error_init h0] at hrun
    cases hrun

/-- C5: after any sequence of `Set` and `Delete` calls (calls of `Get` and
`Len` may be interleaved) run one after the other on a new map, `Len()` is the
number of distinct keys present, that is of keys set and not subsequently
deleted: `keysAfter ops` lists each of these keys once. The calls return
whenever `initDo` does (`InitReturns`). -/
theorem len_counts_present_keys {T : Type} (d : Deps T) (hl : d.rhh.Lawful) (c : Int)
    (ops : List Op) :
    (∀ rs m1 l, run d (New c) ops = .ok (rs, m1) → Len d m1 = .ok l →
      l.ret = ((keysAfter ops).length : Int)) ∧
    (keysAfter ops).Nodup ∧ (∀ k, k ∈ keysAfter ops ↔ SetNotDeleted k ops) ∧
    (d.InitReturns (New c) → ∃ rs m1 l, run d (New c) ops = .ok (rs, m1) ∧ Len d m1 = .ok l) := by
  have key : ∀ m0 : Map T, initDo d (New c) = .ok m0 →
      ∃ rs m2, run d m0 ops = .ok (rs, m2) ∧ Inv d m2 ∧ (keysAfter ops).Nodup ∧
        ∃ l, Len d m2 = .ok l ∧ l.ret = ((keysAfter ops).length : Int) := by
    intro m0 h0
    have hinv0 := initDo_ok_inv d hl (New c) m0 (Or.inl rfl) h0
    have hf0 := initDo_new_find d hl (New c) m0 rfl h0
    obtain ⟨rs, m2, hrun, hinv2, hn2, hk2⟩ := run_keys hl ops m0 [] hinv0 List.nodup_nil
      (fun k => by simp [hf0 k])
    obtain ⟨l, hlen, hlr, _⟩ := Len_of_inv hl hinv2
    refine ⟨rs, m2, hrun, hinv2, hn2, l, hlen, ?_⟩
    have e := length_eq_of_mem_iff (hinv2.keys_nodup hl) hn2
      (fun k => by rw [hinv2.mem_keys hl, hk2])
    rw [List.length_map] at e
    rw [hlr, e]
    rfl
  refine ⟨?_, ?_, ?_, ?_⟩
  · intro rs m1 l hrun hlen
    cases h0 : initDo d (New c) with
    | error e => exact (run_new_error c h0 ops hrun hlen).elim
    | ok m0 =>
      have hinv0 := initDo_ok_inv d hl (New c) m0 (Or.inl rfl) h0
      obtain ⟨m2, hrun2, hlen2⟩ := run_new_len c h0 hinv0.init ops hrun hlen
      obtain ⟨rs3, m3, hrun3, _, _, l3, hlen3, hl3⟩ := key m0 h0
      rw [hrun2] at hrun3
      cases hrun3
      rw [hlen2] at hlen3
      cases hlen3
      exact hl3
  · unfold keysAfter
    suffices hs : ∀ (os : List Op) (ks : List String), ks.Nodup → (os.foldl keysStep ks).Nodup from
      hs ops [] List.nodup_nil
    intro os
    induction os with
    | nil => intro ks hk; exact hk
    | cons o rest ih => intro ks hk; exact ih _ (keysStep_nodup ks o hk)
  · intro k
    unfold keysAfter
    rw [foldl_keysStep_mem]
    simp
  · intro hr
    obtain ⟨m0, h0, hinv0⟩ := initDo_returns d hl (New c) (Or.inl rfl) hr
    obtain ⟨rs, m2, hrun, hinv2, _, l, hlen, _⟩ := key m0 h0
    cases ops with
    | nil =>
      have e : run d m0 [] = .ok ([], m0) := rfl
      rw [e] at hrun
      cases hrun
      exact ⟨[], New c, l, rfl, (Len_congr_init h0 hinv0.init).trans hlen⟩
    | cons op rest =>
      exact ⟨rs, m2, l, (run_congr_init h0 hinv0.init op rest).trans hrun, hlen⟩

theorem len_counts_present_keys_witness :
    assocTable.Lawful ∧
      ∃ rs m1 l, run (refDeps 1) (New 0)
          [Op.Set "a" (Value.int 1), Op.Set "b" (Value.int 2), Op.Delete "a",
            Op.Set "b" (Value.int 3)] = .ok (rs, m1) ∧
        Len (refDeps 1) m1 = .ok l ∧ l.ret = 1 := by
  have h := len_counts_present_keys (refDeps 1) assocTable_lawful 0
    [Op.Set "a" (Value.int 1), Op.Set "b" (Value.int 2), Op.Delete "a", Op.Set "b" (Value.int 3)]
  obtain ⟨rs, m1, l, hrun, hlen⟩ := h.2.2.2 refDeps_initReturns
  exact ⟨assocTable_lawful, rs, m1, l, hrun, hlen, (h.1 rs m1 l hrun hlen).trans (by decide)⟩

/-! ## Range -/

/-- With a visitor that always continues, the traversal of one table calls it
on every entry in order and leaves `done` as it was. -/
theorem tableRange_all {σ : Type} (iter : σ → String → Value → σ × Bool)
    (hit : ∀ s k v, (iter s k v).2 = true) :
    ∀ (es : List (String × Value)) (st : (σ × List (String × Value × Bool)) × Bool),
      (tableRange (rangeVisit (logged iter)) es st).2 = st.2 ∧
      (tableRange (rangeVisit (logged iter)) es st).1.2 =
        st.1.2 ++ es.map fun p => (p.1, p.2, true) := by
  intro es
  induction es with
  | nil => intro st; simp [tableRange]
  | cons p rest ih =>
    intro st
    obtain ⟨k, v⟩ := p
    have h1 : (rangeVisit (logged iter) st k v).2 = true := by
      simp [rangeVisit, logged, hit]
    have h2 : (rangeVisit (logged iter) st k v).1 =
        (((iter st.1.1 k v).1, st.1.2 ++ [(k, v, true)]), st.2) := by
      simp [rangeVisit, logged, hit]
    simp only [tableRange, h1, if_true]
    obtain ⟨ih1, ih2⟩ := ih (rangeVisit (logged iter) st k v).1
    rw [ih1, ih2, h2]
    simp

theorem rangeLoop_all {T σ : Type} (d : Deps T) (iter : σ → String → Value → σ × Bool)
    (hit : ∀ s k v, (iter s k v).2 = true) :
    ∀ (shards : List T) (i : Nat) (st : (σ × List (String × Value × Bool)) × Bool)
      (tr : List LockEvent), st.2 = false →
      (rangeLoop d (logged iter) shards i st tr).1.1.2 =
        st.1.2 ++ (shards.flatMap d.rhh.entries).map fun p => (p.1, p.2, true) := by
  intro shards
  induction shards with
  | nil => intro i st tr _; simp [rangeLoop]
  | cons t rest ih =>
    intro i st tr hst
    obtain ⟨h1, h2⟩ := tableRange_all iter hit (d.rhh.entries t) st
    have hf : (tableRange (rangeVisit (logged iter)) (d.rhh.entries t) st).2 = false := by
      rw [h1, hst]
    simp only [rangeLoop, hf]
    rw [if_neg (by simp), ih _ _ _ hf, h2]
    simp

theorem rangeVisit_logOk {σ : Type} (iter : σ → String → Value → σ × Bool)
    (st : (σ × List (String × Value × Bool)) × Bool) (k : String) (v : Value)
    (h : LogOk st) (hst : st.2 = false) :
    LogOk (rangeVisit (logged iter) st k v).1 ∧
      ((rangeVisit (logged iter) st k v).2 = true → (rangeVisit (logged iter) st k v).1.2 = false) := by
  have hall := h.1 hst
  by_cases hb : (iter st.1.1 k v).2 = true
  · have e1 : (rangeVisit (logged iter) st k v) =
        ((((iter st.1.1 k v).1, st.1.2 ++ [(k, v, true)]), st.2), true) := by
      simp [rangeVisit, logged, hb]
    rw [e1]
    refine ⟨⟨fun _ e he => ?_, fun e he => ?_⟩, fun _ => hst⟩
    · rcases List.mem_append.1 he with h1 | h1
      · exact hall e h1
      · simp at h1; rw [h1]
    · rw [List.dropLast_concat] at he
      exact hall e he
  · have hb1 : (iter st.1.1 k v).2 = false := by
      cases hc : (iter st.1.1 k v).2 with
      | false => rfl
      | true => exact absurd hc hb
    have e1 : (rangeVisit (logged iter) st k v) =
        ((((iter st.1.1 k v).1, st.1.2 ++ [(k, v, false)]), true), false) := by
      simp [rangeVisit, logged, hb1]
    rw [e1]
    refine ⟨⟨fun hc => (by cases hc), fun e he => ?_⟩, fun hc => (by cases hc)⟩
    rw [List.dropLast_concat] at he
    exact hall e he

theorem tableRange_logOk {σ : Type} (iter : σ → String → Value → σ × Bool) :
    ∀ (es : List (String × Value)) (st : (σ × List (String × Value × Bool)) × Bool),
      LogOk st → st.2 = false → LogOk (tableRange (rangeVisit (logged iter)) es st) := by
  intro es
  induction es with
  | nil => intro st h _; exact h
  | cons p rest ih =>
    intro st h hst
    obtain ⟨k, v⟩ := p
    obtain ⟨h1, h2⟩ := rangeVisit_logOk iter st k v h hst
    simp only [tableRange]
    split
    · rename_i hc
      exact ih _ h1 (h2 hc)
    · exact h1

theorem rangeLoop_logOk {T σ : Type} (d : Deps T) (iter : σ → String → Value → σ × Bool) :
    ∀ (shards : List T) (i : Nat) (st : (σ × List (String × Value × Bool)) × Bool)
      (tr : List LockEvent), LogOk st → st.2 = false →
      LogOk (rangeLoop d (logged iter) shards i st tr).1 := by
  intro shards
  induction shards with
  | nil => intro i st tr h _; exact h
  | cons t rest ih =>
    intro i st tr h hst
    have h1 := tableRange_logOk iter (d.rhh.entries t) st h hst
    simp only [rangeLoop]
    split
    · exact h1
    · rename_i hc
      have hf : (tableRange (rangeVisit (logged iter)) (d.rhh.entries t) st).2 = false := by
        cases hb : (tableRange (rangeVisit (logged iter)) (d.rhh.entries t) st).2 with
        | false => rfl
        | true => exact absurd hb hc
      exact ih _ _ _ h1 hf

/-- C6: on every reachable map, `Range` with a visitor that always returns
`true` calls the visitor exactly once for every key present, with the value
that `Get` returns for it, never for an absent key, and no key twice: the
logged calls have pairwise distinct keys, and `(k, v)` is logged exactly when
`Get(k)` returns `(v, true)`. `Range` returns whenever `initDo`
does (`InitReturns`). -/
theorem range_visits_each_once {T σ : Type} (d : Deps T) (hl : d.rhh.Lawful) (m : Map T)
    (hm : Reachable d m) (iter : σ → String → Value → σ × Bool)
    (hit : ∀ s k v, (iter s k v).2 = true) (s0 : σ) :
    (∀ o, Range d m (logged iter) (s0, []) = .ok o →
      (o.ret.2.map fun e => e.1).Nodup ∧
      ∀ k v, (∃ b, (k, v, b) ∈ o.ret.2) ↔ ∃ g, Get d m k = .ok g ∧ g.ret = (v, true)) ∧
    (d.InitReturns m → ∃ o, Range d m (logged iter) (s0, []) = .ok o) := by
  have hg := hm.good hl
  refine ⟨?_, fun hr => Range_returns hl hg hr _ _⟩
  intro o ho
  obtain ⟨m1, h0, hinv, rfl⟩ := Range_ok_spec hl hg ho
  have hlog := rangeLoop_all d iter hit m1.s 0 ((s0, []), false) [] rfl
  have hlog2 : (rangeLoop d (logged iter) m1.s 0 ((s0, []), false) []).1.1.2 =
      (m1.entries d).map fun p => (p.1, p.2, true) := by
    rw [hlog]; simp [Map.entries]
  show ((rangeLoop d (logged iter) m1.s 0 ((s0, []), false) []).1.1.2.map fun e => e.1).Nodup ∧
    ∀ k v, (∃ b, (k, v, b) ∈ (rangeLoop d (logged iter) m1.s 0 ((s0, []), false) []).1.1.2) ↔
      ∃ g, Get d m k = .ok g ∧ g.ret = (v, true)
  rw [hlog2]
  constructor
  · have hn := hinv.keys_nodup hl
    have e : (List.map (fun e : String × Value × Bool => e.1)
        (List.map (fun p : String × Value => (p.1, p.2, true)) (m1.entries d))) =
        (m1.entries d).map Prod.fst := by
      rw [List.map_map]; rfl
    rw [e]
    exact hn
  · intro k v
    rw [Get_congr_init h0 hinv.init, Get_of_inv hinv k]
    constructor
    · rintro ⟨b, hb⟩
      obtain ⟨⟨k1, v1⟩, hmem, e⟩ := List.mem_map.1 hb
      simp only [Prod.mk.injEq] at e
      obtain ⟨rfl, rfl, _⟩ := e
      exact ⟨_, rfl, (hinv.mem_entries hl k1 v1).1 hmem⟩
    · rintro ⟨g, hg1, hg2⟩
      cases hg1
      exact ⟨true, List.mem_map.2 ⟨(k, v), (hinv.mem_entries hl k v).2 hg2, rfl⟩⟩

theorem range_visits_each_once_witness :
    assocTable.Lawful ∧
      ∃ o1 o, Set (refDeps 1) (New 0) "a" (Value.int 1) = .ok o1 ∧
        Range (refDeps 1) o1.map (logged fun (n : Nat) _ _ => (n + 1, true)) (0, []) = .ok o ∧
        (o.ret.2.map fun e => e.1).Nodup ∧ ∃ b, ("a", Value.int 1, b) ∈ o.ret.2 := by
  obtain ⟨o1, hs, hinit, g, hget, hret⟩ :
      ∃ o1, Set (refDeps 1) (New 0) "a" (Value.int 1) = .ok o1 ∧ o1.map.init = true ∧
        ∃ g, Get (refDeps 1) o1.map "a" = .ok g ∧ g.ret = (Value.int 1, true) :=
    ⟨_, rfl, rfl, _, rfl, rfl⟩
  have h := range_visits_each_once (refDeps 1) assocTable_lawful o1.map
    (Reachable.set "a" (Value.int 1) (Reachable.new 0) hs)
    (fun (n : Nat) _ _ => (n + 1, true)) (fun _ _ _ => rfl) 0
  obtain ⟨o, ho⟩ := h.2 (Or.inl hinit)
  exact ⟨assocTable_lawful, o1, o, hs, ho, (h.1 o ho).1,
    ((h.1 o ho).2 "a" (Value.int 1)).2 ⟨g, hget, hret⟩⟩

/-- C7: on every reachable map and for every visitor, once the visitor has
returned `false` `Range` makes no further call of it, in the shard being
walked or in a later one: in the log of the calls nothing follows a call that
returned `false`, so at most one call is made from the first `false` on.
`Range` returns whenever `initDo` does (`InitReturns`). -/
theorem range_stops_at_false {T σ : Type} (d : Deps T) (hl : d.rhh.Lawful) (m : Map T)
    (hm : Reachable d m) (iter : σ → String → Value → σ × Bool) (s0 : σ) :
    (∀ o, Range d m (logged iter) (s0, []) = .ok o →
      ∀ pre e post, o.ret.2 = pre ++ e :: post → e.2.2 = false → post = []) ∧
    (d.InitReturns m → ∃ o, Range d m (logged iter) (s0, []) = .ok o) := by
  have hg := hm.good hl
  refine ⟨?_, fun hr => Range_returns hl hg hr _ _⟩
  intro o ho pre e post hdec hfalse
  obtain ⟨m1, _, _, rfl⟩ := Range_ok_spec hl hg ho
  have hinit : LogOk (((s0, ([] : List (String × Value × Bool))), false) :
      (σ × List (String × Value × Bool)) × Bool) :=
    ⟨fun _ e he => (by cases he), fun e he => (by cases he)⟩
  have hok := (rangeLoop_logOk d iter m1.s 0 ((s0, []), false) [] hinit rfl).2
  by_contra hne
  have hmem : e ∈ (pre ++ e :: post).dropLast := by
    rw [List.dropLast_append_of_ne_nil pre (List.cons_ne_nil e post),
      List.dropLast_cons_of_ne_nil hne]
    simp
  have hdec1 : (rangeLoop d (logged iter) m1.s 0 ((s0, []), false) []).1.1.2 =
      pre ++ e :: post := hdec
  rw [← hdec1] at hmem
  have := hok e hmem
  rw [hfalse] at this
  cases this

theorem range_stops_at_false_witness :
    assocTable.Lawful ∧
      ∃ o1 o2 o3 o4 l o,
        Set (refDeps 1) (New 0) "a" (Value.int 1) = .ok o1 ∧
        Set (refDeps 1) o1.map "seventeen letters" (Value.int 2) = .ok o2 ∧
        Set (refDeps 1) o2.map "thirty-three letters are in a key" (Value.int 3) = .ok o3 ∧
        Set (refDeps 1) o3.map "bb" (Value.int 4) = .ok o4 ∧
        Len (refDeps 1) o4.map = .ok l ∧ l.ret = 4 ∧
        Range (refDeps 1) o4.map (logged fun (n : Nat) _ _ => (n + 1, decide (n < 1)))
          (0, []) = .ok o ∧
        o.ret.1 = 2 ∧ o.ret.2.length = 2 ∧ (o.ret.2.map fun e => e.2.2) = [true, false] ∧
        ∀ pre e post, o.ret.2 = pre ++ e :: post → e.2.2 = false → post = [] := by
  obtain ⟨o1, h1, o2, h2, o3, h3, o4, h4, hinit, l, hlen, hl4, o, ho, hn, hlog⟩ :
      ∃ o1, Set (refDeps 1) (New 0) "a" (Value.int 1) = .ok o1 ∧
        ∃ o2, Set (refDeps 1) o1.map "seventeen letters" (Value.int 2) = .ok o2 ∧
        ∃ o3, Set (refDeps 1) o2.map "thirty-three letters are in a key" (Value.int 3) =
            .ok o3 ∧
        ∃ o4, Set (refDeps 1) o3.map "bb" (Value.int 4) = .ok o4 ∧ o4.map.init = true ∧
        ∃ l, Len (refDeps 1) o4.map = .ok l ∧ l.ret = 4 ∧
        ∃ o, Range (refDeps 1) o4.map (logged fun (n : Nat) _ _ => (n + 1, decide (n < 1)))
            (0, []) = .ok o ∧
          o.ret.1 = 2 ∧ (o.ret.2.map fun e => e.2.2) = [true, false] :=
    ⟨_, rfl, _, rfl, _, rfl, _, rfl, rfl, _, rfl, rfl, _, rfl, rfl, rfl⟩
  have h := range_stops_at_false (refDeps 1) assocTable_lawful o4.map
    (Reachable.set "bb" (Value.int 4)
      (Reachable.set "thirty-three letters are in a key" (Value.int 3)
        (Reachable.set "seventeen letters" (Value.int 2)
          (Reachable.set "a" (Value.int 1) (Reachable.new 0) h1) h2) h3) h4)
    (fun (n : Nat) _ _ => (n + 1, decide (n < 1))) 0
  have hlen2 : o.ret.2.length = 2 := by
    have := congrArg List.length hlog
    simpa using this
  exact ⟨assocTable_lawful, o1, o2, o3, o4, l, o, h1, h2, h3, h4, hlen, hl4, ho, hn, hlen2,
    hlog, h.1 o ho⟩

/-! ## The sharded map against one table -/

theorem Table.Lawful.key_mem {U : Type} {tb : Table U} (hu : tb.Lawful) {u : U}
    (hr : tb.Reach u) (k : String) :
    k ∈ (tb.entries u).map Prod.fst ↔ (tb.Get u k).2 = true := by
  rw [List.mem_map]
  constructor
  · rintro ⟨⟨k0, v⟩, hm, rfl⟩
    rw [(hu.mem_entries u k0 v hr).1 hm]
  · intro hf
    exact ⟨(k, (tb.Get u k).1), (hu.mem_entries u k _ hr).2 (Prod.ext rfl hf), rfl⟩

theorem stepTable_reach {U : Type} (tb : Table U) (u : U) (hr : tb.Reach u) (op : Op) :
    tb.Reach (stepTable tb u op).2 := by
  cases op with
  | Set k v => exact Table.Reach.set k v hr
  | Get k => exact hr
  | Delete k => exact Table.Reach.delete k hr
  | Len => exact hr

/-- One call: the sharded map and a single table that hold the same finite
map return the same result and hold the same finite map afterwards. -/
theorem step_sim {T U : Type} {d : Deps T} (hl : d.rhh.Lawful) {tb : Table U} (hu : tb.Lawful)
    {m : Map T} {u : U} (h : Inv d m) (hr : tb.Reach u) (hf : ∀ k, m.find d k = tb.Get u k)
    (op : Op) :
    ∃ m1, step d m op = .ok ((stepTable tb u op).1, m1) ∧ Inv d m1 ∧
      ∀ k, m1.find d k = tb.Get (stepTable tb u op).2 k := by
  obtain ⟨m1, hs, hinv1, hf1⟩ := step_of_inv hl h op
  have hlen : ((m.entries d).length : Int) = tb.Len u := by
    have e := length_eq_of_mem_iff (h.keys_nodup hl) (hu.entries_nodup u hr)
      (fun k => by rw [h.mem_keys hl, hu.key_mem hr, hf k])
    rw [List.length_map, List.length_map] at e
    rw [hu.len_eq u hr, e]
  have hres : opRes (m.find d) ((m.entries d).length : Int) op = (stepTable tb u op).1 := by
    cases op with
    | Set k v => simp only [opRes, stepTable]; rw [hf k, hu.set_ret u k v hr]
    | Get k => simp only [opRes, stepTable]; rw [hf k]
    | Delete k => simp only [opRes, stepTable]; rw [hf k, hu.delete_ret u k hr]
    | Len => simp only [opRes, stepTable]; rw [hlen]
  refine ⟨m1, by rw [hs, hres], hinv1, fun k0 => ?_⟩
  rw [hf1 k0]
  cases op with
  | Set k v => simp only [opView, stepTable]; rw [hu.get_set u k v k0 hr, hf k0]
  | Get k => simp only [opView, stepTable]; rw [hf k0]
  | Delete k => simp only [opView, stepTable]; rw [hu.get_delete u k k0 hr, hf k0]
  | Len => simp only [opView, stepTable]; rw [hf k0]

theorem run_sim {T U : Type} {d : Deps T} (hl : d.rhh.Lawful) {tb : Table U} (hu : tb.Lawful) :
    ∀ (ops : List Op) (m : Map T) (u : U), Inv d m → tb.Reach u →
      (∀ k, m.find d k = tb.Get u k) →
      ∃ m1, run d m ops = .ok ((runTable tb u ops).1, m1) := by
  intro ops
  induction ops with
  | nil => intro m u _ _ _; exact ⟨m, rfl⟩
  | cons op rest ih =>
    intro m u h hr hf
    obtain ⟨m1, hs, hinv1, hf1⟩ := step_sim hl hu h hr hf op
    obtain ⟨m2, hrun⟩ := ih m1 (stepTable tb u op).2 hinv1 (stepTable_reach tb u hr op) hf1
    refine ⟨m2, ?_⟩
    rw [run_cons, hs, bind_ok, hrun, bind_ok]
    rfl

/-- C8: for every hash function and CPU count, every sequence of `Set`, `Get`,
`Delete` and `Len` calls run one after the other on a new sharded map yields
the results of the same sequence run on one unsharded lawful table; a
key-addressed call returns the result of the table of the shard that `choose`
selects, unchanged. The sequence returns whenever `initDo`
does (`InitReturns`). -/
theorem run_refines_table {T U : Type} (d : Deps T) (hl : d.rhh.Lawful) (tb : Table U)
    (hu : tb.Lawful) (c c0 : Int) (ops : List Op) :
    (∀ rs m1, run d (New c) ops = .ok (rs, m1) → rs = (runTable tb (tb.New c0) ops).1) ∧
    (∀ m k v o, Reachable d m → Set d m k v = .ok o →
      ∃ (m1 : Map T) (i : Nat) (t : T), initDo d m = .ok m1 ∧ choose d m1 k = (i : Int) ∧
        m1.s[i]? = some t ∧
        o.ret = (d.rhh.Set t k v).1) ∧
    (∀ m k o, Reachable d m → Get d m k = .ok o →
      ∃ (m1 : Map T) (i : Nat) (t : T), initDo d m = .ok m1 ∧ choose d m1 k = (i : Int) ∧
        m1.s[i]? = some t ∧
        o.ret = d.rhh.Get t k) ∧
    (∀ m k o, Reachable d m → Delete d m k = .ok o →
      ∃ (m1 : Map T) (i : Nat) (t : T), initDo d m = .ok m1 ∧ choose d m1 k = (i : Int) ∧
        m1.s[i]? = some t ∧
        o.ret = (d.rhh.Delete t k).1) ∧
    (d.InitReturns (New c) → ∃ rs m1, run d (New c) ops = .ok (rs, m1)) := by
  have key : ∀ m0 : Map T, initDo d (New c) = .ok m0 →
      ∃ m1, run d m0 ops = .ok ((runTable tb (tb.New c0) ops).1, m1) := by
    intro m0 h0
    have hinv0 := initDo_ok_inv d hl (New c) m0 (Or.inl rfl) h0
    exact run_sim hl hu ops m0 (tb.New c0) hinv0 (Table.Reach.new c0)
      (fun k => by rw [initDo_new_find d hl (New c) m0 rfl h0 k, hu.get_new])
  refine ⟨?_, ?_, ?_, ?_, ?_⟩
  · intro rs m1 hrun
    cases ops with
    | nil =>
      have e : run d (New c) [] = .ok ([], New c) := rfl
      rw [e] at hrun
      cases hrun
      rfl
    | cons op rest =>
      cases h0 : initDo d (New c) with
      | error e =>
        rw [run_error_init h0] at hrun
        cases hrun
      | ok m0 =>
        have hinv0 := initDo_ok_inv d hl (New c) m0 (Or.inl rfl) h0
        obtain ⟨m2, h2⟩ := key m0 h0
        rw [run_congr_init h0 hinv0.init, h2] at hrun
        cases hrun
        rfl
  · intro m k v o hm ho
    obtain ⟨m1, i, t, h0, _, hi, ht, rfl⟩ := Set_ok_spec hl (hm.good hl) ho
    exact ⟨m1, i, t, h0, hi, ht, rfl⟩
  · intro m k o hm ho
    obtain ⟨m1, h0, hinv, hret, _⟩ := Get_ok_spec hl (hm.good hl) ho
    obtain ⟨i, t, hi, _, ht, _⟩ := hinv.choose_ok k
    exact ⟨m1, i, t, h0, hi, ht, by rw [hret, find_of_choose k hi ht]⟩
  · intro m k o hm ho
    obtain ⟨m1, i, t, h0, _, hi, ht, rfl⟩ := Delete_ok_spec hl (hm.good hl) ho
    exact ⟨m1, i, t, h0, hi, ht, rfl⟩
  · intro hr
    cases ops with
    | nil => exact ⟨[], New c, rfl⟩
    | cons op rest =>
      obtain ⟨m0, h0, hinv0⟩ := initDo_returns d hl (New c) (Or.inl rfl) hr
      obtain ⟨m2, h2⟩ := key m0 h0
      exact ⟨_, m2, (run_congr_init h0 hinv0.init op rest).trans h2⟩

theorem run_refines_table_witness :
    assocTable.Lawful ∧
      ∃ rs m1, run (refDeps 2) (New 8)
          [Op.Set "k" (Value.str "x"), Op.Set "kk" Value.nil, Op.Len, Op.Get "kk",
            Op.Delete "k", Op.Get "k", Op.Len] = .ok (rs, m1) ∧
        rs = [Res.pair (Value.nil, false), Res.pair (Value.nil, false), Res.count 2,
          Res.pair (Value.nil, true), Res.pair (Value.str "x", true),
          Res.pair (Value.nil, false), Res.count 1] := by
  have h := run_refines_table (refDeps 2) assocTable_lawful assocTable assocTable_lawful 8 0
    [Op.Set "k" (Value.str "x"), Op.Set "kk" Value.nil, Op.Len, Op.Get "kk", Op.Delete "k",
      Op.Get "k", Op.Len]
  have hcpu : (refDeps 2).InitReturns (New 8) := Or.inr ⟨32, by decide, by decide⟩
  obtain ⟨rs, m1, hrun⟩ := h.2.2.2.2 hcpu
  exact ⟨assocTable_lawful, rs, m1, hrun, (h.1 rs m1 hrun).trans (by decide)⟩

/-! ## The shard count and the bounds of the shard index -/

theorem initDo_ok_sized {T : Type} (d : Deps T) (m m1 : Map T)
    (hm : m.init = false ∨ Sized m) (h : initDo d m = .ok m1) : Sized m1 := by
  rcases hm with hm | hm
  · obtain ⟨r, hr, _, _, rfl⟩ := initDo_new_form d m m1 hm h
    exact ⟨rfl, r, hr, rfl, rfl, by simp⟩
  · rw [initDo_of_init d m hm.1] at h
    cases h
    exact hm

theorem Sized.index_ok {T : Type} {m : Map T} (h : Sized m) (d : Deps T) (k : String) :
    ∃ (i : Nat) (t : T), choose d m k = (i : Int) ∧ (i : Int) < m.shards ∧
      (m.s.length : Int) = m.shards ∧ m.s[i]? = some t ∧
      shardAt m (choose d m k) = .ok t := by
  obtain ⟨_, e, he, hsh, hmask, hlen⟩ := h
  obtain ⟨i, hi, hlt⟩ := choose_of_mask d m k he hmask
  have hil : i < m.s.length := by omega
  refine ⟨i, m.s[i], hi, ?_, ?_, List.getElem?_eq_getElem hil, ?_⟩
  · rw [hsh]; exact_mod_cast hlt
  · rw [hsh, hlen]; push_cast; rfl
  · rw [hi]
    exact shardAt_natCast m i _ (List.getElem?_eq_getElem hil)

theorem Sized.write_shard {T : Type} {m : Map T} (h : Sized m) (i : Nat) (t : T) :
    Sized { m with s := m.s.set i t } := by
  obtain ⟨hi, e, he, hsh, hmask, hlen⟩ := h
  exact ⟨hi, e, he, hsh, hmask, by simpa using hlen⟩

theorem Set_ok_sized {T : Type} {d : Deps T} {m : Map T} (hm : m.init = false ∨ Sized m)
    {k : String} {v : Value} {o : Out (Value × Bool) T} (h : Set d m k v = .ok o) :
    Sized o.map := by
  obtain ⟨m1, h0, h1⟩ := Set_factor d m k v o h
  have hs1 := initDo_ok_sized d m m1 hm h0
  obtain ⟨i, t, hi, _, _, _, hat⟩ := hs1.index_ok d k
  have h2 := h1 hs1.1
  unfold Set at h2
  rw [initDo_of_init d m1 hs1.1, bind_ok, hat, bind_ok] at h2
  cases h2
  exact hs1.write_shard _ _

theorem Delete_ok_sized {T : Type} {d : Deps T} {m : Map T} (hm : m.init = false ∨ Sized m)
    {k : String} {o : Out (Value × Bool) T} (h : Delete d m k = .ok o) :
    Sized o.map := by
  obtain ⟨m1, h0, h1⟩ := Delete_factor d m k o h
  have hs1 := initDo_ok_sized d m m1 hm h0
  obtain ⟨i, t, hi, _, _, _, hat⟩ := hs1.index_ok d k
  have h2 := h1 hs1.1
  unfold Delete at h2
  rw [initDo_of_init d m1 hs1.1, bind_ok, hat, bind_ok] at h2
  cases h2
  exact hs1.write_shard _ _

theorem Get_ok_sized {T : Type} {d : Deps T} {m : Map T} (hm : m.init = false ∨ Sized m)
    {k : String} {o : Out (Value × Bool) T} (h : Get d m k = .ok o) :
    Sized o.map := by
  obtain ⟨m1, h0, h1⟩ := Get_factor d m k o h
  have hs1 := initDo_ok_sized d m m1 hm h0
  obtain ⟨i, t, hi, _, _, _, hat⟩ := hs1.index_ok d k
  have h2 := h1 hs1.1
  unfold Get at h2
  rw [initDo_of_init d m1 hs1.1, bind_ok, hat, bind_ok] at h2
  cases h2
  exact hs1

theorem Len_ok_sized {T : Type} {d : Deps T} {m : Map T} (hm : m.init = false ∨ Sized m)
    {o : Out Int T} (h : Len d m = .ok o) : Sized o.map := by
  cases h0 : initDo d m with
  | error e =>
    unfold Len at h
    rw [h0, bind_error] at h
    cases h
  | ok m1 =>
    rw [Len_of_initDo h0] at h
    cases h
    exact initDo_ok_sized d m m1 hm h0

theorem Range_ok_sized {T σ : Type} {d : Deps T} {m : Map T} (hm : m.init = false ∨ Sized m)
    {iter : σ → String → Value → σ × Bool} {s0 : σ} {o : Out σ T}
    (h : Range d m iter s0 = .ok o) : Sized o.map := by
  cases h0 : initDo d m with
  | error e =>
    unfold Range at h
    rw [h0, bind_error] at h
    cases h
  | ok m1 =>
    rw [Range_of_initDo h0] at h
    cases h
    exact initDo_ok_sized d m m1 hm h0

/-- Every reachable map is new or has the shape of an initialised map; no
assumption on the tables is needed. -/
theorem Reachable.sized {T : Type} {d : Deps T} {m : Map T} (h : Reachable d m) :
    m.init = false ∨ Sized m := by
  induction h with
  | new cap => exact Or.inl rfl
  | set k v _ hs ih => exact Or.inr (Set_ok_sized ih hs)
  | get k _ hs ih => exact Or.inr (Get_ok_sized ih hs)
  | delete k _ hs ih => exact Or.inr (Delete_ok_sized ih hs)
  | len _ hs ih => exact Or.inr (Len_ok_sized ih hs)
  | range iter s0 _ hs ih => exact Or.inr (Range_ok_sized ih hs)

/-- The faults of `initDo` are not index faults. -/
theorem initDo_error_ne {T : Type} (d : Deps T) (m : Map T) (e : Fault)
    (h : initDo d m = .error e) : e ≠ Fault.indexOutOfRange := by
  unfold initDo at h
  split at h
  · cases h
  · split at h
    · cases h; intro hc; cases hc
    · split at h
      · cases h; intro hc; cases hc
      · split at h
        · cases h; intro hc; cases hc
        · split at h
          · cases h; intro hc; cases hc
          · split at h
            · cases h
            · cases h; intro hc; cases hc

theorem choose_eq_and {T : Type} (d : Deps T) (m : Map T) (k : String) {e : Nat}
    (he : e ≤ 62) (hm : m.mask = 2 ^ e - 1) :
    choose d m k = (((d.Sum64String k % 2 ^ 64) &&& m.mask : Nat) : Int) := by
  have hlt : (d.Sum64String k % 2 ^ 64) &&& m.mask < 2 ^ e := by
    rw [hm]
    exact Nat.and_lt_two_pow _ (Nat.sub_lt (Nat.pos_pow_of_pos e (by norm_num)) (by norm_num))
  have hle : (2 : Nat) ^ e ≤ 2 ^ 62 := Nat.pow_le_pow_right (by norm_num) he
  unfold choose
  apply wrapInt_of_range <;> omega

theorem Set_of_sized {T : Type} {d : Deps T} {m : Map T} (h : Sized m) (k : String)
    (v : Value) : ∃ o, Set d m k v = .ok o := by
  obtain ⟨i, t, _, _, _, _, hat⟩ := h.index_ok d k
  unfold Set
  rw [initDo_of_init d m h.1, bind_ok, hat, bind_ok]
  exact ⟨_, rfl⟩

theorem Get_of_sized {T : Type} {d : Deps T} {m : Map T} (h : Sized m) (k : String) :
    ∃ o, Get d m k = .ok o := by
  obtain ⟨i, t, _, _, _, _, hat⟩ := h.index_ok d k
  unfold Get
  rw [initDo_of_init d m h.1, bind_ok, hat, bind_ok]
  exact ⟨_, rfl⟩

theorem Delete_of_sized {T : Type} {d : Deps T} {m : Map T} (h : Sized m) (k : String) :
    ∃ o, Delete d m k = .ok o := by
  obtain ⟨i, t, _, _, _, _, hat⟩ := h.index_ok d k
  unfold Delete
  rw [initDo_of_init d m h.1, bind_ok, hat, bind_ok]
  exact ⟨_, rfl⟩

/-- In the model the bound `2 ^ 58` on the CPU count is sharp: with
`2 ^ 58 + 1` CPUs the product `NumCPU()*16` is `2 ^ 62 + 16`, the shard count
wraps to `-2 ^ 63` and then to `0`, and the loop exits for no amount of
fuel. -/
theorem shardLoop_beyond_bound :
    ¬ ∃ fuel shards, shardLoop fuel (wrapInt ((2 ^ 58 + 1) * 16)) 1 = some shards := by
  rintro ⟨fuel, shards, h⟩
  rw [shardLoop_diverges (by decide) fuel] at h
  cases h

/-- C10: for every map produced by initialisation from a reachable state and
every key, whatever its 64-bit hash, `choose(key)` is `hash64(key) & mask` and
lies in `[0, shardCount)`, the shard array has `shardCount` elements and the
lookup `m.s[choose(key)]` succeeds; `Set`, `Get` and `Delete` never fail with
an index out of range. -/
theorem choose_in_bounds {T : Type} (d : Deps T) (m : Map T) (hm : Reachable d m)
    (key : String) :
    (∀ m1, initDo d m = .ok m1 →
      choose d m1 key = (((d.Sum64String key % 2 ^ 64) &&& m1.mask : Nat) : Int) ∧
      0 ≤ choose d m1 key ∧ choose d m1 key < m1.shards ∧
      (m1.s.length : Int) = m1.shards ∧ ∃ t, shardAt m1 (choose d m1 key) = .ok t) ∧
    (∀ v, Set d m key v ≠ .error Fault.indexOutOfRange) ∧
    Get d m key ≠ .error Fault.indexOutOfRange ∧
    Delete d m key ≠ .error Fault.indexOutOfRange := by
  have hg := hm.sized
  refine ⟨?_, ?_, ?_, ?_⟩
  · intro m1 h0
    have hs := initDo_ok_sized d m m1 hg h0
    obtain ⟨i, t, hi, hlt, hlen, _, hat⟩ := hs.index_ok d key
    obtain ⟨_, e, he, _, hmask, _⟩ := hs
    refine ⟨choose_eq_and d m1 key he hmask, ?_, ?_, hlen, t, hat⟩
    · rw [hi]; omega
    · rw [hi]; exact hlt
  · intro v hc
    cases h0 : initDo d m with
    | error e =>
      unfold Set at hc
      rw [h0, bind_error] at hc
      cases hc
      exact initDo_error_ne d m _ h0 rfl
    | ok m1 =>
      have hs := initDo_ok_sized d m m1 hg h0
      obtain ⟨o, ho⟩ := Set_of_sized (d := d) hs key v
      rw [Set_congr_init h0 hs.1, ho] at hc
      cases hc
  · intro hc
    cases h0 : initDo d m with
    | error e =>
      unfold Get at hc
      rw [h0, bind_error] at hc
      cases hc
      exact initDo_error_ne d m _ h0 rfl
    | ok m1 =>
      have hs := initDo_ok_sized d m m1 hg h0
      obtain ⟨o, ho⟩ := Get_of_sized (d := d) hs key
      rw [Get_congr_init h0 hs.1, ho] at hc
      cases hc
  · intro hc
    cases h0 : initDo d m with
    | error e =>
      unfold Delete at hc
      rw [h0, bind_error] at hc
      cases hc
      exact initDo_error_ne d m _ h0 rfl
    | ok m1 =>
      have hs := initDo_ok_sized d m m1 hg h0
      obtain ⟨o, ho⟩ := Delete_of_sized (d := d) hs key
      rw [Delete_congr_init h0 hs.1, ho] at hc
      cases hc

theorem choose_in_bounds_witness :
    Reachable (refDeps 1) (New 0) ∧
      ∃ m1 : Map (List (String × Value)), initDo (refDeps 1) (New 0) = .ok m1 ∧
        m1.shards = 16 ∧ 0 ≤ choose (refDeps 1) m1 "seventeen letters" ∧
        choose (refDeps 1) m1 "seventeen letters" < m1.shards ∧
        choose (refDeps 1) m1 "seventeen letters" = 1 := by
  have h := choose_in_bounds (refDeps 1) (New 0) (Reachable.new 0) "seventeen letters"
  have e : initDo (refDeps 1) (New 0) =
      .ok { init := true, cap := 0, shards := 16, mask := 15, s := List.replicate 16 [] } := rfl
  obtain ⟨_, h1, h2, _, _⟩ := h.1 _ e
  exact ⟨Reachable.new 0, _, e, rfl, h1, h2, rfl⟩

/-! ## The capacity of the shard tables -/

/-- The ceiling of a quotient by a positive integer, in integer division. -/
theorem ceil_div_eq (c n : Int) (hn : 0 < n) : ⌈(c : ℚ) / (n : ℚ)⌉ = (c + n - 1) / n := by
  rw [Int.ceil_eq_iff]
  have hq : (0 : ℚ) < (n : ℚ) := by exact_mod_cast hn
  have e1 : (c + n - 1) / n * n ≤ c + n - 1 := Int.ediv_mul_le _ (by omega)
  have e2 : c + n - 1 < ((c + n - 1) / n + 1) * n := Int.lt_ediv_add_one_mul_self _ hn
  constructor
  · rw [lt_div_iff₀ hq]
    have : ((c + n - 1) / n - 1) * n < c := by nlinarith
    exact_mod_cast this
  · rw [div_le_iff₀ hq]
    have : c ≤ (c + n - 1) / n * n := by nlinarith
    exact_mod_cast this

/-- The two subtractions of `scap` wrap to the exact numerator when it is in
the range of `int`, and to the numerator less `2 ^ 64` above it. -/
theorem wrapInt_numerator (c n : Int) (hlo : -2 ^ 63 ≤ c) (hhi : c < 2 ^ 63) (hn : 0 < n)
    (hn2 : n ≤ 2 ^ 62) :
    wrapInt (wrapInt (c + n) - 1) =
      if c + n ≤ 2 ^ 63 then c + n - 1 else c + n - 1 - 2 ^ 64 := by
  unfold wrapInt
  split <;> omega

/-- Truncated division of a negative numerator is the floor quotient exactly
when the divisor divides the numerator. -/
theorem tdiv_neg_eq_ediv_iff (x n : Int) (hx : x < 0) (hn : 0 < n) :
    Int.tdiv x n = x / n ↔ n ∣ x := by
  have e : Int.tdiv x n = -((-x) / n) := by
    have h1 : x = -(-x) := by omega
    conv_lhs => rw [h1, Int.neg_tdiv, Int.tdiv_eq_ediv (by omega) (by omega)]
  rw [e]
  have a1 := Int.emod_add_ediv x n
  have a2 := Int.emod_nonneg x (by omega : n ≠ 0)
  have a3 := Int.emod_lt_of_pos x hn
  have b1 := Int.emod_add_ediv (-x) n
  have b2 := Int.emod_nonneg (-x) (by omega : n ≠ 0)
  have b3 := Int.emod_lt_of_pos (-x) hn
  have hs : n * (x / n + -x / n) = -(x % n + -x % n) := by linarith
  have hle : x / n + -x / n ≤ 0 := by nlinarith
  have hge : -2 < x / n + -x / n := by nlinarith
  constructor
  · intro h
    have h0 : x / n + -x / n = 0 := by omega
    rw [h0] at hs
    have : x % n = 0 := by omega
    exact Int.dvd_of_emod_eq_zero this
  · intro h
    have hx0 : x % n = 0 := Int.emod_eq_zero_of_dvd h
    have hx1 : -x % n = 0 := Int.emod_eq_zero_of_dvd ((Int.dvd_neg).2 h)
    rw [hx0, hx1] at hs
    have : x / n + -x / n = 0 := by
      rcases Int.mul_eq_zero.1 (by simpa using hs) with h | h
      · omega
      · exact h
    omega

/-- The exact domain on which `scap` is the ceiling of the quotient. -/
theorem scap_eq_ceil_iff (c n : Int) (hlo : -2 ^ 63 ≤ c) (hhi : c < 2 ^ 63) (hn : 0 < n)
    (hn2 : n ≤ 2 ^ 62) :
    scap c n = ⌈(c : ℚ) / (n : ℚ)⌉ ↔ c ≤ 2 ^ 63 - n ∧ (-n < c ∨ n ∣ c - 1) := by
  rw [ceil_div_eq c n hn]
  unfold scap
  rw [wrapInt_numerator c n hlo hhi hn hn2]
  by_cases h1 : c + n ≤ 2 ^ 63
  · rw [if_pos h1]
    by_cases h2 : -n < c
    · rw [Int.tdiv_eq_ediv (by omega) (by omega)]
      simp only [true_iff]
      exact ⟨by omega, Or.inl h2⟩
    · rw [tdiv_neg_eq_ediv_iff _ n (by omega) hn]
      have e : c + n - 1 = (c - 1) + n := by ring
      rw [e, Int.dvd_add_left (dvd_refl n)]
      constructor
      · intro h; exact ⟨by omega, Or.inr h⟩
      · rintro ⟨_, h | h⟩
        · exact absurd h h2
        · exact h
  · rw [if_neg h1]
    have hl : Int.tdiv (c + n - 1 - 2 ^ 64) n ≤ 0 := by
      have e : c + n - 1 - 2 ^ 64 = -(2 ^ 64 + 1 - c - n) := by ring
      have := Int.tdiv_nonneg (by omega : (0 : Int) ≤ 2 ^ 64 + 1 - c - n) (by omega : 0 ≤ n)
      rw [e, Int.neg_tdiv]
      omega
    have hr : 1 ≤ (c + n - 1) / n := Int.le_ediv_of_mul_le hn (by omega)
    constructor
    · intro h; omega
    · rintro ⟨h, _⟩; omega
/-- C11 (counterexample): with one CPU the shard count is 16. For the capacity
hint `-17` every table is created with capacity `0`, while the ceiling of
`-17 / 16` is `-1`: the division truncates toward zero. For the capacity hint
`2 ^ 63 - 1` the sum `cap + shards` wraps and every table is created with the
negative capacity `-(2 ^ 59 - 1)`, while the ceiling is `2 ^ 59`. -/
theorem shard_capacity_counterexample :
    (initDo (capDeps 1) (New (-17)) =
        .ok { init := true, cap := -17, shards := 16, mask := 15,
              s := List.replicate 16 (0, []) } ∧
      ⌈((-17 : Int) : ℚ) / ((16 : Int) : ℚ)⌉ = -1) ∧
    (initDo (capDeps 1) (New (2 ^ 63 - 1)) =
        .ok { init := true, cap := 2 ^ 63 - 1, shards := 16, mask := 15,
              s := List.replicate 16 (-576460752303423487, []) } ∧
      ⌈((2 ^ 63 - 1 : Int) : ℚ) / ((16 : Int) : ℚ)⌉ = 576460752303423488) := by
  refine ⟨⟨rfl, ?_⟩, ⟨rfl, ?_⟩⟩
  · rw [Int.ceil_eq_iff]; norm_num
  · rw [Int.ceil_eq_iff]; norm_num

/-- C11 (amended): when `initDo` returns on a map that is not yet initialised
(so the shards and their tables could be allocated), with a capacity hint `c`
in the range of `int` and the shard count `n` that initialisation computed,
every shard's table is created with the capacity `(cap + shards - 1) / shards`
evaluated in `int` with division truncating toward zero, and this capacity is
exactly `ceil(c / n)` if and only if `c ≤ 2 ^ 63 - n` and either `-n < c` or
`n` divides `c - 1`. `initDo` returns exactly under `InitReturns`. -/
theorem initDo_shard_capacity {T : Type} (d : Deps T) (m : Map T) (hm : m.init = false)
    (hlo : -2 ^ 63 ≤ m.cap) (hhi : m.cap < 2 ^ 63) :
    (∀ m1, initDo d m = .ok m1 →
      m1.s = List.replicate m1.shards.toNat (d.rhh.New (scap m.cap m1.shards)) ∧
      (m1.s.length : Int) = m1.shards ∧
      (scap m.cap m1.shards = ⌈(m.cap : ℚ) / (m1.shards : ℚ)⌉ ↔
        m.cap ≤ 2 ^ 63 - m1.shards ∧ (-m1.shards < m.cap ∨ m1.shards ∣ m.cap - 1))) ∧
    (d.InitReturns m ↔ ∃ m1, initDo d m = .ok m1) := by
  refine ⟨?_, initReturns_iff d m⟩
  intro m1 h0
  obtain ⟨r, hr, _, _, rfl⟩ := initDo_new_form d m m1 hm h0
  have hpos := two_pow_pos_int r
  have hle : (2 : Int) ^ r ≤ 2 ^ 62 := two_pow_le_of_le hr
  have hnat : ((2 : Int) ^ r).toNat = 2 ^ r := by
    have : ((2 : Int) ^ r) = (((2 ^ r : Nat)) : Int) := by push_cast; rfl
    rw [this, Int.toNat_natCast]
  refine ⟨?_, ?_, scap_eq_ceil_iff m.cap (2 ^ r) hlo hhi hpos hle⟩
  · show List.replicate (2 ^ r) (d.rhh.New (scap m.cap (2 ^ r))) = _
    rw [hnat]
  · show ((List.replicate (2 ^ r) (d.rhh.New (scap m.cap (2 ^ r)))).length : Int) = 2 ^ r
    rw [List.length_replicate]
    push_cast
    rfl

theorem initDo_shard_capacity_witness :
    (New 100 : Map (Int × List (String × Value))).init = false ∧
      (-2 ^ 63 : Int) ≤ 100 ∧ (100 : Int) < 2 ^ 63 ∧
      ∃ m1, initDo (capDeps 1) (New 100) = .ok m1 ∧ m1.shards = 16 ∧
        ⌈((100 : Int) : ℚ) / ((16 : Int) : ℚ)⌉ = 7 ∧ m1.s = List.replicate 16 (7, []) := by
  have h := initDo_shard_capacity (capDeps 1) (New 100) rfl (by decide) (by decide)
  have e : initDo (capDeps 1) (New 100) =
      .ok { init := true, cap := 100, shards := 16, mask := 15,
            s := List.replicate 16 (7, []) } := rfl
  have hc := (h.1 _ e).2.2.2 ⟨by decide, Or.inl (by decide)⟩
  exact ⟨rfl, by decide, by decide, _, e, rfl, hc.symm.trans (by decide), rfl⟩

/-! ## New maps -/

/-- After the initialisation of a new map there are no entries. -/
theorem initDo_new_entries {T : Type} (d : Deps T) (hl : d.rhh.Lawful) (m m1 : Map T)
    (h : m.init = false) (h0 : initDo d m = .ok m1) : m1.entries d = [] := by
  have hinv := initDo_ok_inv d hl m m1 (Or.inl h) h0
  rw [List.eq_nil_iff_forall_not_mem]
  rintro ⟨k, v⟩ hmem
  have hf := (hinv.mem_entries hl k v).1 hmem
  rw [initDo_new_find d hl m m1 h h0 k] at hf
  cases hf

/-- Over shards without entries `Range` calls nothing and visits every shard. -/
theorem rangeLoop_no_entries {T σ : Type} (d : Deps T) (f : σ → String → Value → σ × Bool) :
    ∀ (shards : List T) (i : Nat) (st : σ × Bool) (tr : List LockEvent),
      (∀ t, t ∈ shards → d.rhh.entries t = []) → st.2 = false →
      (rangeLoop d f shards i st tr).1 = st := by
  intro shards
  induction shards with
  | nil => intro i st tr _ _; rfl
  | cons t rest ih =>
    intro i st tr hall hst
    have ht : d.rhh.entries t = [] := hall t (List.mem_cons_self t rest)
    have e : tableRange (rangeVisit f) (d.rhh.entries t) st = st := by rw [ht]; rfl
    simp only [rangeLoop, e, hst]
    rw [if_neg (by simp)]
    exact ih _ _ _ (fun t0 h0 => hall t0 (List.mem_cons_of_mem t h0)) hst

/-- C12 (counterexample): with one CPU the map made by `New(2 ^ 62)` has 16
shards whose tables are to be created with capacity `2 ^ 58`, which no memory
holds: the first `Len()` stops in the allocation of `initDo` and returns no
count. -/
theorem new_map_counterexample :
    scap (2 ^ 62) 16 = 2 ^ 58 ∧ refNewTables 16 (2 ^ 58) = false ∧
      Len (refDeps 1) (New (2 ^ 62)) = .error Fault.alloc ∧
      ¬ ∃ o, Len (refDeps 1) (New (2 ^ 62)) = .ok o ∧ o.ret = 0 := by
  have e : Len (refDeps 1) (New (2 ^ 62)) = .error Fault.alloc := rfl
  refine ⟨by decide, by decide, e, ?_⟩
  rintro ⟨o, h, _⟩
  rw [e] at h
  cases h

/-- C12 (amended): a map is constructed empty and is usable without `New`
whenever its initialisation can allocate the shards and their tables. On
`New(c)`, for every capacity hint `c`, and on the zero value of `Map`, the
first operation, when it returns, finds nothing: `Len()` returns `0`, `Get(k)`
returns found = false, `Delete(k)` returns deleted = false and `Range` never
calls its visitor (the log of calls stays empty and the state of the visitor
is unchanged). The four operations return when `initDo` does (`InitReturns`:
the loop exits and the memory suffices), and only then. -/
theorem new_map_is_empty {T σ : Type} (d : Deps T) (hl : d.rhh.Lawful) (m : Map T)
    (hm : (∃ c, m = New c) ∨ m = Map.zero) (k : String)
    (iter : σ → String → Value → σ × Bool) (s0 : σ) :
    (∀ o, Len d m = .ok o → o.ret = 0) ∧
    (∀ o, Get d m k = .ok o → o.ret.2 = false) ∧
    (∀ o, Delete d m k = .ok o → o.ret.2 = false) ∧
    (∀ o, Range d m (logged iter) (s0, []) = .ok o → o.ret = (s0, [])) ∧
    (d.InitReturns m → (∃ o, Len d m = .ok o) ∧ (∃ o, Get d m k = .ok o) ∧
      (∃ o, Delete d m k = .ok o) ∧ ∃ o, Range d m (logged iter) (s0, []) = .ok o) ∧
    (¬ d.InitReturns m → (¬ ∃ o, Len d m = .ok o) ∧ (¬ ∃ o, Get d m k = .ok o) ∧
      (¬ ∃ o, Delete d m k = .ok o) ∧ ¬ ∃ o, Range d m (logged iter) (s0, []) = .ok o) := by
  have hi : m.init = false := by
    rcases hm with ⟨c, rfl⟩ | rfl
    · rfl
    · rfl
  have hg : m.init = false ∨ Inv d m := Or.inl hi
  refine ⟨?_, ?_, ?_, ?_, fun hr => ⟨Len_returns hl hg hr, Get_returns hl hg hr k,
    Delete_returns hl hg hr k, Range_returns hl hg hr _ _⟩, fun hn => ⟨?_, ?_, ?_, ?_⟩⟩
  · intro o ho
    obtain ⟨m1, h0, hinv, rfl⟩ := Len_ok_spec hl hg ho
    obtain ⟨o1, ho1, hr1, _⟩ := Len_of_inv hl hinv
    rw [Len_of_initDo (initDo_of_init d m1 hinv.init)] at ho1
    cases ho1
    rw [hr1, initDo_new_entries d hl m m1 hi h0]
    rfl
  · intro o ho
    obtain ⟨m1, h0, _, hret, _⟩ := Get_ok_spec hl hg ho
    rw [hret, initDo_new_find d hl m m1 hi h0 k]
  · intro o ho
    obtain ⟨m1, i, t, h0, hinv, hc, ht, rfl⟩ := Delete_ok_spec hl hg ho
    show (d.rhh.Delete t k).1.2 = false
    rw [hl.delete_ret t k (hinv.reach i t ht), ← find_of_choose k hc ht,
      initDo_new_find d hl m m1 hi h0 k]
  · intro o ho
    obtain ⟨m1, h0, hinv, rfl⟩ := Range_ok_spec hl hg ho
    have hnil := initDo_new_entries d hl m m1 hi h0
    have hall : ∀ t, t ∈ m1.s → d.rhh.entries t = [] := by
      intro t ht
      unfold Map.entries at hnil
      exact List.flatMap_eq_nil_iff.1 hnil t ht
    show (rangeLoop d (logged iter) m1.s 0 ((s0, []), false) []).1.1 = (s0, [])
    rw [rangeLoop_no_entries d (logged iter) m1.s 0 ((s0, []), false) [] hall rfl]
  · rintro ⟨o, ho⟩
    obtain ⟨m1, h0, _⟩ := Len_ok_spec hl hg ho
    exact hn ((initReturns_iff d m).2 ⟨m1, h0⟩)
  · rintro ⟨o, ho⟩
    obtain ⟨m1, h0, _⟩ := Get_ok_spec hl hg ho
    exact hn ((initReturns_iff d m).2 ⟨m1, h0⟩)
  · rintro ⟨o, ho⟩
    obtain ⟨m1, _, _, h0, _⟩ := Delete_ok_spec hl hg ho
    exact hn ((initReturns_iff d m).2 ⟨m1, h0⟩)
  · rintro ⟨o, ho⟩
    obtain ⟨m1, h0, _⟩ := Range_ok_spec hl hg ho
    exact hn ((initReturns_iff d m).2 ⟨m1, h0⟩)

theorem new_map_is_empty_witness :
    assocTable.Lawful ∧
      ∃ o1 o2 o3 o4, Len (refDeps 1) Map.zero = .ok o1 ∧ o1.ret = 0 ∧
        Get (refDeps 1) (New 1000) "a" = .ok o2 ∧ o2.ret.2 = false ∧
        Delete (refDeps 1) Map.zero "a" = .ok o3 ∧ o3.ret.2 = false ∧
        Range (refDeps 1) Map.zero (logged fun (n : Nat) _ _ => (n + 1, true)) (0, []) =
          .ok o4 ∧ o4.ret = (0, []) := by
  have hz := new_map_is_empty (refDeps 1) assocTable_lawful Map.zero (Or.inr rfl) "a"
    (fun (n : Nat) _ _ => (n + 1, true)) 0
  have hn := new_map_is_empty (refDeps 1) assocTable_lawful (New 1000) (Or.inl ⟨1000, rfl⟩) "a"
    (fun (n : Nat) _ _ => (n + 1, true)) 0
  obtain ⟨⟨o1, h1⟩, _, ⟨o3, h3⟩, ⟨o4, h4⟩⟩ :=
    hz.2.2.2.2.1 (Or.inr ⟨16, by decide, by decide⟩)
  obtain ⟨_, ⟨o2, h2⟩, _, _⟩ := hn.2.2.2.2.1 (Or.inr ⟨16, by decide, by decide⟩)
  exact ⟨assocTable_lawful, o1, o2, o3, o4, h1, hz.1 o1 h1, h2, hn.2.1 o2 h2, h3,
    hz.2.2.1 o3 h3, h4, hz.2.2.2.1 o4 h4⟩

/-! ## The worked example -/

/-- A sequence of calls on a new map returns the results of the same sequence
on one lawful table. -/
theorem run_new_results {T U : Type} {d : Deps T} (hl : d.rhh.Lawful) {tb : Table U}
    (hu : tb.Lawful) (c c0 : Int) (ops : List Op) {rs : List Res} {m1 : Map T}
    (hrun : run d (New c) ops = .ok (rs, m1)) : rs = (runTable tb (tb.New c0) ops).1 := by
  cases ops with
  | nil =>
    have e : run d (New c) [] = .ok ([], New c) := rfl
    rw [e] at hrun
    cases hrun
    rfl
  | cons op rest =>
    cases h0 : initDo d (New c) with
    | error e =>
      rw [run_error_init h0] at hrun
      cases hrun
    | ok m0 =>
      have hinv0 := initDo_ok_inv d hl (New c) m0 (Or.inl rfl) h0
      obtain ⟨m2, h2⟩ := run_sim hl hu (op :: rest) m0 (tb.New c0) hinv0 (Table.Reach.new c0)
        (fun k => by rw [initDo_new_find d hl (New c) m0 rfl h0 k, hu.get_new])
      rw [run_congr_init h0 hinv0.init, h2] at hrun
      cases hrun
      rfl

theorem run_new_returns {T : Type} {d : Deps T} (hl : d.rhh.Lawful) (c : Int)
    (hr : d.InitReturns (New c)) (ops : List Op) : ∃ rs m1, run d (New c) ops = .ok (rs, m1) := by
  cases ops with
  | nil => exact ⟨[], New c, rfl⟩
  | cons op rest =>
    obtain ⟨m0, h0, hinv0⟩ := initDo_returns d hl (New c) (Or.inl rfl) hr
    obtain ⟨m2, h2⟩ := run_sim hl assocTable_lawful (op :: rest) m0 (assocTable.New 0) hinv0
      (Table.Reach.new 0)
      (fun k => by rw [initDo_new_find d hl (New c) m0 rfl h0 k, assocTable_lawful.get_new])
    exact ⟨_, m2, (run_congr_init h0 hinv0.init op rest).trans h2⟩

/-- C13: the worked example, for every hash function and every CPU count: on
`New(0)`, `Set("a", 1)` returns `(nil, false)`, then `Set("a", 2)` returns
`(1, true)`, `Get("a")` returns `(2, true)`, `Delete("a")` returns `(2, true)`,
`Get("a")` returns found = false (with the value nil) and `Len()` returns `0`.
The calls return whenever `initDo` does (`InitReturns`). -/
theorem worked_example {T : Type} (d : Deps T) (hl : d.rhh.Lawful) :
    (∀ rs m1,
      run d (New 0)
          [Op.Set "a" (Value.int 1), Op.Set "a" (Value.int 2), Op.Get "a", Op.Delete "a",
            Op.Get "a", Op.Len] = .ok (rs, m1) →
        rs = [Res.pair (Value.nil, false), Res.pair (Value.int 1, true),
          Res.pair (Value.int 2, true), Res.pair (Value.int 2, true),
          Res.pair (Value.nil, false), Res.count 0]) ∧
    (d.InitReturns (New 0) →
      ∃ rs m1,
        run d (New 0)
          [Op.Set "a" (Value.int 1), Op.Set "a" (Value.int 2), Op.Get "a", Op.Delete "a",
            Op.Get "a", Op.Len] = .ok (rs, m1)) := by
  refine ⟨fun rs m1 hrun => ?_, fun hr => run_new_returns hl 0 hr _⟩
  rw [run_new_results hl assocTable_lawful 0 0 _ hrun]
  decide

theorem worked_example_witness :
    assocTable.Lawful ∧
      ∃ m1,
        run (refDeps 4) (New 0)
          [Op.Set "a" (Value.int 1), Op.Set "a" (Value.int 2), Op.Get "a", Op.Delete "a",
            Op.Get "a", Op.Len] =
          .ok ([Res.pair (Value.nil, false), Res.pair (Value.int 1, true),
            Res.pair (Value.int 2, true), Res.pair (Value.int 2, true),
            Res.pair (Value.nil, false), Res.count 0], m1) := by
  have h := worked_example (refDeps 4) assocTable_lawful
  have hcpu : (refDeps 4).InitReturns (New 0) := Or.inr ⟨64, by decide, by decide⟩
  obtain ⟨rs, m1, hrun⟩ := h.2 hcpu
  have e := h.1 rs m1 hrun
  rw [e] at hrun
  exact ⟨assocTable_lawful, m1, hrun⟩

/-! ## Padding -/

/-- C15: for every size `s` of the unpadded shard struct, the padding length
`64 - (s mod 64)` makes the padded size `s + (64 - (s mod 64))` a multiple of
the 64-byte cache line, and the padding length lies between 1 and 64; the
padded size stays a multiple of 64 when reduced to a `uintptr`. -/
theorem padded_size_multiple (s : Nat) :
    paddedSize s % 64 = 0 ∧ paddedSize s = s + (64 - s % 64) ∧
      1 ≤ paddingLen s ∧ paddingLen s ≤ 64 ∧ (paddedSize s % 2 ^ 64) % 64 = 0 := by
  unfold paddedSize paddingLen
  omega

/-! ## What a call returns, without assumptions on the map -/

theorem shardAt_ok {T : Type} {m : Map T} {i : Int} {t : T} (h : shardAt m i = .ok t) :
    0 ≤ i ∧ m.s[i.toNat]? = some t := by
  unfold shardAt at h
  by_cases hneg : i < 0
  · rw [if_pos hneg] at h
    cases h
  · rw [if_neg hneg] at h
    refine ⟨by omega, ?_⟩
    cases hs : m.s[i.toNat]? with
    | none => rw [hs] at h; cases h
    | some t0 => rw [hs] at h; cases h; rfl

theorem initDo_ok_init {T : Type} (d : Deps T) (m m1 : Map T) (h0 : initDo d m = .ok m1) :
    m1.init = true ∧ (m.init = true → m1 = m) := by
  cases hi : m.init with
  | true =>
    rw [initDo_of_init d m hi] at h0
    cases h0
    exact ⟨hi, fun _ => rfl⟩
  | false =>
    obtain ⟨r, _, _, _, rfl⟩ := initDo_new_form d m m1 hi h0
    exact ⟨rfl, fun hc => by cases hc⟩

/-- A `Set` that returns wrote one shard of the initialised map, under the
exclusive lock of the shard that `choose` selects. -/
theorem Set_ok_form {T : Type} {d : Deps T} {m : Map T} {k : String} {v : Value}
    {o : Out (Value × Bool) T} (h : Set d m k v = .ok o) :
    ∃ (m1 : Map T) (i : Nat) (t : T), initDo d m = .ok m1 ∧ choose d m1 k = (i : Int) ∧
      m1.s[i]? = some t ∧ o.ret = (d.rhh.Set t k v).1 ∧
      o.map = { m1 with s := m1.s.set i (d.rhh.Set t k v).2 } ∧
      o.trace = [LockEvent.Lock i, LockEvent.Unlock i] := by
  cases h0 : initDo d m with
  | error e =>
    unfold Set at h
    rw [h0, bind_error] at h
    cases h
  | ok m1 =>
    unfold Set at h
    rw [h0, bind_ok] at h
    cases hs : shardAt m1 (choose d m1 k) with
    | error e =>
      rw [hs, bind_error] at h
      cases h
    | ok t =>
      rw [hs, bind_ok] at h
      obtain ⟨hnn, ht⟩ := shardAt_ok hs
      have hc : choose d m1 k = ((choose d m1 k).toNat : Int) := (Int.toNat_of_nonneg hnn).symm
      have ho := (Except.ok.inj h).symm
      exact ⟨m1, (choose d m1 k).toNat, t, rfl, hc, ht, by rw [ho], by rw [ho], by rw [ho]⟩

/-- A `Delete` that returns wrote one shard of the initialised map, under the
exclusive lock of the shard that `choose` selects. -/
theorem Delete_ok_form {T : Type} {d : Deps T} {m : Map T} {k : String}
    {o : Out (Value × Bool) T} (h : Delete d m k = .ok o) :
    ∃ (m1 : Map T) (i : Nat) (t : T), initDo d m = .ok m1 ∧ choose d m1 k = (i : Int) ∧
      m1.s[i]? = some t ∧ o.ret = (d.rhh.Delete t k).1 ∧
      o.map = { m1 with s := m1.s.set i (d.rhh.Delete t k).2 } ∧
      o.trace = [LockEvent.Lock i, LockEvent.Unlock i] := by
  cases h0 : initDo d m with
  | error e =>
    unfold Delete at h
    rw [h0, bind_error] at h
    cases h
  | ok m1 =>
    unfold Delete at h
    rw [h0, bind_ok] at h
    cases hs : shardAt m1 (choose d m1 k) with
    | error e =>
      rw [hs, bind_error] at h
      cases h
    | ok t =>
      rw [hs, bind_ok] at h
      obtain ⟨hnn, ht⟩ := shardAt_ok hs
      have hc : choose d m1 k = ((choose d m1 k).toNat : Int) := (Int.toNat_of_nonneg hnn).symm
      have ho := (Except.ok.inj h).symm
      exact ⟨m1, (choose d m1 k).toNat, t, rfl, hc, ht, by rw [ho], by rw [ho], by rw [ho]⟩

/-- A `Get` that returns read one shard of the initialised map, under the
shared lock of the shard that `choose` selects, and left the map as it was. -/
theorem Get_ok_form {T : Type} {d : Deps T} {m : Map T} {k : String}
    {o : Out (Value × Bool) T} (h : Get d m k = .ok o) :
    ∃ (m1 : Map T) (i : Nat) (t : T), initDo d m = .ok m1 ∧ choose d m1 k = (i : Int) ∧
      m1.s[i]? = some t ∧ o.ret = d.rhh.Get t k ∧ o.map = m1 ∧
      o.trace = [LockEvent.RLock i, LockEvent.RUnlock i] := by
  cases h0 : initDo d m with
  | error e =>
    unfold Get at h
    rw [h0, bind_error] at h
    cases h
  | ok m1 =>
    unfold Get at h
    rw [h0, bind_ok] at h
    cases hs : shardAt m1 (choose d m1 k) with
    | error e =>
      rw [hs, bind_error] at h
      cases h
    | ok t =>
      rw [hs, bind_ok] at h
      obtain ⟨hnn, ht⟩ := shardAt_ok hs
      have hc : choose d m1 k = ((choose d m1 k).toNat : Int) := (Int.toNat_of_nonneg hnn).symm
      have ho := (Except.ok.inj h).symm
      exact ⟨m1, (choose d m1 k).toNat, t, rfl, hc, ht, by rw [ho], by rw [ho], by rw [ho]⟩

theorem Len_ok_form {T : Type} {d : Deps T} {m : Map T} {o : Out Int T}
    (h : Len d m = .ok o) :
    ∃ m1 : Map T, initDo d m = .ok m1 ∧ o.ret = (lenLoop d m1.s 0 0 []).1 ∧ o.map = m1 ∧
      o.trace = (lenLoop d m1.s 0 0 []).2 := by
  cases h0 : initDo d m with
  | error e =>
    unfold Len at h
    rw [h0, bind_error] at h
    cases h
  | ok m1 =>
    rw [Len_of_initDo h0] at h
    have ho := (Except.ok.inj h).symm
    exact ⟨m1, rfl, by rw [ho], by rw [ho], by rw [ho]⟩

theorem Range_ok_form {T σ : Type} {d : Deps T} {m : Map T}
    {iter : σ → String → Value → σ × Bool} {s0 : σ} {o : Out σ T}
    (h : Range d m iter s0 = .ok o) :
    ∃ m1 : Map T, initDo d m = .ok m1 ∧ o.ret = (rangeLoop d iter m1.s 0 (s0, false) []).1.1 ∧
      o.map = m1 ∧ o.trace = (rangeLoop d iter m1.s 0 (s0, false) []).2 := by
  cases h0 : initDo d m with
  | error e =>
    unfold Range at h
    rw [h0, bind_error] at h
    cases h
  | ok m1 =>
    rw [Range_of_initDo h0] at h
    have ho := (Except.ok.inj h).symm
    exact ⟨m1, rfl, by rw [ho], by rw [ho], by rw [ho]⟩

/-! ## The layout is fixed by the first operation -/

theorem SameLayout.refl {T : Type} (m : Map T) : SameLayout m m := ⟨rfl, rfl, rfl, rfl, rfl⟩

theorem SameLayout.trans {T : Type} {m m1 m2 : Map T} (h1 : SameLayout m m1)
    (h2 : SameLayout m1 m2) : SameLayout m m2 :=
  ⟨h2.1.trans h1.1, h2.2.1.trans h1.2.1, h2.2.2.1.trans h1.2.2.1,
    h2.2.2.2.1.trans h1.2.2.2.1, h2.2.2.2.2.trans h1.2.2.2.2⟩

theorem SameLayout.write {T : Type} (m : Map T) (i : Nat) (t : T) :
    SameLayout m { m with s := m.s.set i t } :=
  ⟨rfl, rfl, rfl, rfl, List.length_set m.s i t⟩

theorem choose_congr_mask {T : Type} (d : Deps T) {m m1 : Map T} (h : m1.mask = m.mask)
    (k : String) : choose d m1 k = choose d m k := by
  unfold choose
  rw [h]

/-- A call that returns leaves an initialised map, and on an initialised map
it keeps the layout. -/
theorem step_layout {T : Type} {d : Deps T} {m m1 : Map T} {op : Op} {r : Res}
    (h : step d m op = .ok (r, m1)) :
    m1.init = true ∧ (m.init = true → SameLayout m m1) := by
  cases op with
  | Set k v =>
    simp only [step] at h
    cases hs : Set d m k v with
    | error e => rw [hs, bind_error] at h; cases h
    | ok o =>
      rw [hs, bind_ok] at h
      cases h
      obtain ⟨m0, i, t, h0, _, _, _, hmap, _⟩ := Set_ok_form hs
      obtain ⟨hi0, heq⟩ := initDo_ok_init d m m0 h0
      rw [hmap]
      refine ⟨hi0, fun hi => ?_⟩
      rw [heq hi]
      exact SameLayout.write m i _
  | Get k =>
    simp only [step] at h
    cases hs : Get d m k with
    | error e => rw [hs, bind_error] at h; cases h
    | ok o =>
      rw [hs, bind_ok] at h
      cases h
      obtain ⟨m0, i, t, h0, _, _, _, hmap, _⟩ := Get_ok_form hs
      obtain ⟨hi0, heq⟩ := initDo_ok_init d m m0 h0
      rw [hmap]
      refine ⟨hi0, fun hi => ?_⟩
      rw [heq hi]
      exact SameLayout.refl m
  | Delete k =>
    simp only [step] at h
    cases hs : Delete d m k with
    | error e => rw [hs, bind_error] at h; cases h
    | ok o =>
      rw [hs, bind_ok] at h
      cases h
      obtain ⟨m0, i, t, h0, _, _, _, hmap, _⟩ := Delete_ok_form hs
      obtain ⟨hi0, heq⟩ := initDo_ok_init d m m0 h0
      rw [hmap]
      refine ⟨hi0, fun hi => ?_⟩
      rw [heq hi]
      exact SameLayout.write m i _
  | Len =>
    simp only [step] at h
    cases hs : Len d m with
    | error e => rw [hs, bind_error] at h; cases h
    | ok o =>
      rw [hs, bind_ok] at h
      cases h
      obtain ⟨m0, h0, _, hmap, _⟩ := Len_ok_form hs
      obtain ⟨hi0, heq⟩ := initDo_ok_init d m m0 h0
      rw [hmap]
      refine ⟨hi0, fun hi => ?_⟩
      rw [heq hi]
      exact SameLayout.refl m

theorem run_cons_ok {T : Type} {d : Deps T} {m m2 : Map T} {op : Op} {rest : List Op}
    {rs : List Res} (h : run d m (op :: rest) = .ok (rs, m2)) :
    ∃ r m1 rs1, step d m op = .ok (r, m1) ∧ run d m1 rest = .ok (rs1, m2) ∧ rs = r :: rs1 := by
  rw [run_cons] at h
  cases hs : step d m op with
  | error e => rw [hs, bind_error] at h; cases h
  | ok p =>
    obtain ⟨r, m1⟩ := p
    rw [hs, bind_ok] at h
    cases hr : run d m1 rest with
    | error e => rw [hr, bind_error] at h; cases h
    | ok q =>
      obtain ⟨rs1, m3⟩ := q
      rw [hr, bind_ok] at h
      cases h
      exact ⟨r, m1, rs1, rfl, hr, rfl⟩

theorem run_layout {T : Type} {d : Deps T} :
    ∀ (ops : List Op) (m m2 : Map T) (rs : List Res), m.init = true →
      run d m ops = .ok (rs, m2) → SameLayout m m2 := by
  intro ops
  induction ops with
  | nil =>
    intro m m2 rs _ h
    have e : run d m [] = .ok ([], m) := rfl
    rw [e] at h
    cases h
    exact SameLayout.refl m
  | cons op rest ih =>
    intro m m2 rs hi h
    obtain ⟨r, m1, rs1, hs, hr, _⟩ := run_cons_ok h
    obtain ⟨hi1, hl1⟩ := step_layout hs
    exact (hl1 hi).trans (ih m1 m2 rs1 hi1 hr)

/-- C14: initialisation takes effect once and the layout is fixed afterwards.
Every call that returns leaves the map initialised; on an initialised map a
further `initDo` changes nothing (no shard table is replaced), every `Set`,
`Get`, `Delete`, `Len` and `Range`, and every sequence of such calls, leaves
the shard count, the mask and the length of the shard array unchanged, so
`choose(k)` stays the same for every key. -/
theorem layout_fixed {T σ : Type} (d : Deps T) (m : Map T) :
    (∀ op r m1, step d m op = .ok (r, m1) → m1.init = true) ∧
    (∀ (iter : σ → String → Value → σ × Bool) (s0 : σ) (o : Out σ T),
      Range d m iter s0 = .ok o → o.map.init = true) ∧
    (m.init = true →
      initDo d m = .ok m ∧
      (∀ op r m1, step d m op = .ok (r, m1) →
        SameLayout m m1 ∧ ∀ k, choose d m1 k = choose d m k) ∧
      (∀ (iter : σ → String → Value → σ × Bool) (s0 : σ) (o : Out σ T),
        Range d m iter s0 = .ok o → o.map = m) ∧
      (∀ ops rs m1, run d m ops = .ok (rs, m1) →
        SameLayout m m1 ∧ ∀ k, choose d m1 k = choose d m k)) := by
  refine ⟨fun op r m1 h => (step_layout h).1, ?_, fun hi => ⟨initDo_of_init d m hi, ?_, ?_, ?_⟩⟩
  · intro iter s0 o ho
    obtain ⟨m0, h0, _, hmap, _⟩ := Range_ok_form ho
    rw [hmap]
    exact (initDo_ok_init d m m0 h0).1
  · intro op r m1 h
    have hl := (step_layout h).2 hi
    exact ⟨hl, fun k => choose_congr_mask d hl.2.2.2.1 k⟩
  · intro iter s0 o ho
    obtain ⟨m0, h0, _, hmap, _⟩ := Range_ok_form ho
    rw [hmap]
    exact (initDo_ok_init d m m0 h0).2 hi
  · intro ops rs m1 h
    have hl := run_layout ops m m1 rs hi h
    exact ⟨hl, fun k => choose_congr_mask d hl.2.2.2.1 k⟩

theorem layout_fixed_witness :
    ∃ o rs m1, Set (refDeps 1) (New 0) "a" (Value.int 1) = .ok o ∧ o.map.init = true ∧
      run (refDeps 1) o.map [Op.Set "bb" (Value.int 2), Op.Delete "a", Op.Len] = .ok (rs, m1) ∧
      SameLayout o.map m1 ∧ m1.shards = 16 ∧ m1.mask = 15 ∧
      choose (refDeps 1) m1 "bb" = choose (refDeps 1) o.map "bb" := by
  obtain ⟨o, ho, hsh, hmask, hi, rs, m1, hrun⟩ :
      ∃ o, Set (refDeps 1) (New 0) "a" (Value.int 1) = .ok o ∧ o.map.shards = 16 ∧
        o.map.mask = 15 ∧ o.map.init = true ∧ ∃ rs m1,
          run (refDeps 1) o.map [Op.Set "bb" (Value.int 2), Op.Delete "a", Op.Len] =
            .ok (rs, m1) :=
    ⟨_, rfl, rfl, rfl, rfl, _, _, rfl⟩
  have h := (@layout_fixed _ Nat (refDeps 1) o.map).2.2 hi
  obtain ⟨hl, hc⟩ := h.2.2.2 _ rs m1 hrun
  exact ⟨o, rs, m1, ho, hi, hrun, hl, hl.2.2.1.trans hsh, hl.2.2.2.1.trans hmask, hc "bb"⟩

/-! ## Lock discipline -/

theorem lenLoop_trace {T : Type} (d : Deps T) :
    ∀ (l : List T) (i : Nat) (acc : Int) (tr : List LockEvent),
      (lenLoop d l i acc tr).2 =
        tr ++ (List.range' i l.length).flatMap fun j => [LockEvent.Lock j, LockEvent.Unlock j] := by
  intro l
  induction l with
  | nil => intro i acc tr; simp [lenLoop]
  | cons t rest ih =>
    intro i acc tr
    simp only [lenLoop, List.length_cons, List.range'_succ, List.flatMap_cons]
    rw [ih]
    simp

theorem rangeLoop_trace {T σ : Type} (d : Deps T) (f : σ → String → Value → σ × Bool) :
    ∀ (shards : List T) (i : Nat) (st : σ × Bool) (tr : List LockEvent),
      ∃ n, n ≤ shards.length ∧
        (rangeLoop d f shards i st tr).2 =
          tr ++ (List.range' i n).flatMap fun j => [LockEvent.RLock j, LockEvent.RUnlock j] := by
  intro shards
  induction shards with
  | nil => intro i st tr; exact ⟨0, le_refl 0, by simp [rangeLoop]⟩
  | cons t rest ih =>
    intro i st tr
    simp only [rangeLoop]
    split
    · exact ⟨1, by simp, by simp [List.range'_succ]⟩
    · obtain ⟨n, hn, hrest⟩ := ih (i + 1) (tableRange (rangeVisit f) (d.rhh.entries t) st)
        (tr ++ [LockEvent.RLock i, LockEvent.RUnlock i])
      refine ⟨n + 1, by simpa using hn, ?_⟩
      rw [hrest]
      simp [List.range'_succ]

theorem disciplined_excl_pairs :
    ∀ (n i : Nat),
      Disciplined ((List.range' i n).flatMap fun j => [LockEvent.Lock j, LockEvent.Unlock j]) := by
  intro n
  induction n with
  | zero => intro i; rfl
  | succ n ih =>
    intro i
    have h := ih (i + 1)
    unfold Disciplined at h ⊢
    simp only [List.range'_succ, List.flatMap_cons, List.cons_append, List.nil_append, lockRun,
      lockStep, if_true, Option.bind]
    exact h

theorem disciplined_shared_pairs :
    ∀ (n i : Nat),
      Disciplined
        ((List.range' i n).flatMap fun j => [LockEvent.RLock j, LockEvent.RUnlock j]) := by
  intro n
  induction n with
  | zero => intro i; rfl
  | succ n ih =>
    intro i
    have h := ih (i + 1)
    unfold Disciplined at h ⊢
    simp only [List.range'_succ, List.flatMap_cons, List.cons_append, List.nil_append, lockRun,
      lockStep, if_true, Option.bind]
    exact h

theorem excl_pairs_mode (l : List Nat) :
    ∀ e, e ∈ (l.flatMap fun j => [LockEvent.Lock j, LockEvent.Unlock j]) →
      e.isExclusive = true := by
  intro e he
  obtain ⟨j, _, hj⟩ := List.mem_flatMap.1 he
  simp only [List.mem_cons, List.mem_singleton, List.not_mem_nil, or_false] at hj
  rcases hj with rfl | rfl <;> rfl

theorem shared_pairs_mode (l : List Nat) :
    ∀ e, e ∈ (l.flatMap fun j => [LockEvent.RLock j, LockEvent.RUnlock j]) →
      e.isExclusive = false := by
  intro e he
  obtain ⟨j, _, hj⟩ := List.mem_flatMap.1 he
  simp only [List.mem_cons, List.mem_singleton, List.not_mem_nil, or_false] at hj
  rcases hj with rfl | rfl <;> rfl

theorem disciplined_excl_one (i : Nat) :
    Disciplined [LockEvent.Lock i, LockEvent.Unlock i] := by
  unfold Disciplined
  simp [lockRun, lockStep, Option.bind]

theorem disciplined_shared_one (i : Nat) :
    Disciplined [LockEvent.RLock i, LockEvent.RUnlock i] := by
  unfold Disciplined
  simp [lockRun, lockStep, Option.bind]

/-- C17: lock discipline of a single call, over the trace of its lock events.
`Set` and `Delete` take and release the exclusive lock of the shard
`choose(key)` and nothing else, `Get` does so with the shared lock; `Len` takes
and releases the exclusive lock of each shard in turn; `Range` takes and
releases the shared lock of each shard in turn up to the shard where the
visitor stops. Every trace keeps the discipline: no lock is taken while one is
held, every lock taken is released by the unlock of its kind, and none is held
when the call returns. -/
theorem lock_discipline {T σ : Type} (d : Deps T) (m : Map T) :
    (∀ k v o, Set d m k v = .ok o →
      ∃ (m1 : Map T) (i : Nat), initDo d m = .ok m1 ∧ choose d m1 k = (i : Int) ∧
        o.trace = [LockEvent.Lock i, LockEvent.Unlock i] ∧ Disciplined o.trace ∧
        ∀ e, e ∈ o.trace → e.isExclusive = true ∧ (e.shard : Int) = choose d m1 k) ∧
    (∀ k o, Get d m k = .ok o →
      ∃ (m1 : Map T) (i : Nat), initDo d m = .ok m1 ∧ choose d m1 k = (i : Int) ∧
        o.trace = [LockEvent.RLock i, LockEvent.RUnlock i] ∧ Disciplined o.trace ∧
        ∀ e, e ∈ o.trace → e.isExclusive = false ∧ (e.shard : Int) = choose d m1 k) ∧
    (∀ k o, Delete d m k = .ok o →
      ∃ (m1 : Map T) (i : Nat), initDo d m = .ok m1 ∧ choose d m1 k = (i : Int) ∧
        o.trace = [LockEvent.Lock i, LockEvent.Unlock i] ∧ Disciplined o.trace ∧
        ∀ e, e ∈ o.trace → e.isExclusive = true ∧ (e.shard : Int) = choose d m1 k) ∧
    (∀ o, Len d m = .ok o →
      ∃ m1 : Map T, initDo d m = .ok m1 ∧
        o.trace = ((List.range' 0 m1.s.length).flatMap fun j =>
          [LockEvent.Lock j, LockEvent.Unlock j]) ∧
        Disciplined o.trace ∧ ∀ e, e ∈ o.trace → e.isExclusive = true) ∧
    (∀ (iter : σ → String → Value → σ × Bool) (s0 : σ) (o : Out σ T),
      Range d m iter s0 = .ok o →
      ∃ (m1 : Map T) (n : Nat), initDo d m = .ok m1 ∧ n ≤ m1.s.length ∧
        o.trace = ((List.range' 0 n).flatMap fun j =>
          [LockEvent.RLock j, LockEvent.RUnlock j]) ∧
        Disciplined o.trace ∧ ∀ e, e ∈ o.trace → e.isExclusive = false) := by
  refine ⟨?_, ?_, ?_, ?_, ?_⟩
  · intro k v o ho
    obtain ⟨m1, i, t, h0, hc, _, _, _, htr⟩ := Set_ok_form ho
    refine ⟨m1, i, h0, hc, htr, ?_, ?_⟩
    · rw [htr]; exact disciplined_excl_one i
    · intro e he
      rw [htr] at he
      simp only [List.mem_cons, List.mem_singleton, List.not_mem_nil, or_false] at he
      rcases he with rfl | rfl
      · exact ⟨rfl, hc.symm⟩
      · exact ⟨rfl, hc.symm⟩
  · intro k o ho
    obtain ⟨m1, i, t, h0, hc, _, _, _, htr⟩ := Get_ok_form ho
    refine ⟨m1, i, h0, hc, htr, ?_, ?_⟩
    · rw [htr]; exact disciplined_shared_one i
    · intro e he
      rw [htr] at he
      simp only [List.mem_cons, List.mem_singleton, List.not_mem_nil, or_false] at he
      rcases he with rfl | rfl
      · exact ⟨rfl, hc.symm⟩
      · exact ⟨rfl, hc.symm⟩
  · intro k o ho
    obtain ⟨m1, i, t, h0, hc, _, _, _, htr⟩ := Delete_ok_form ho
    refine ⟨m1, i, h0, hc, htr, ?_, ?_⟩
    · rw [htr]; exact disciplined_excl_one i
    · intro e he
      rw [htr] at he
      simp only [List.mem_cons, List.mem_singleton, List.not_mem_nil, or_false] at he
      rcases he with rfl | rfl
      · exact ⟨rfl, hc.symm⟩
      · exact ⟨rfl, hc.symm⟩
  · intro o ho
    obtain ⟨m1, h0, _, _, htr⟩ := Len_ok_form ho
    have e : o.trace = ((List.range' 0 m1.s.length).flatMap fun j =>
        [LockEvent.Lock j, LockEvent.Unlock j]) := by
      rw [htr, lenLoop_trace]; rfl
    refine ⟨m1, h0, e, ?_, ?_⟩
    · rw [e]; exact disciplined_excl_pairs _ _
    · rw [e]; exact excl_pairs_mode _
  · intro iter s0 o ho
    obtain ⟨m1, h0, _, _, htr⟩ := Range_ok_form ho
    obtain ⟨n, hn, hrest⟩ := rangeLoop_trace d iter m1.s 0 (s0, false) []
    have e : o.trace = ((List.range' 0 n).flatMap fun j =>
        [LockEvent.RLock j, LockEvent.RUnlock j]) := by
      rw [htr, hrest]; rfl
    refine ⟨m1, n, h0, hn, e, ?_, ?_⟩
    · rw [e]; exact disciplined_shared_pairs _ _
    · rw [e]; exact shared_pairs_mode _

theorem lock_discipline_witness :
    ∃ o1 o, Set (refDeps 1) (New 0) "a" (Value.int 1) = .ok o1 ∧
      o1.trace = [LockEvent.Lock 1, LockEvent.Unlock 1] ∧
      Range (refDeps 1) o1.map (fun (n : Nat) _ _ => (n + 1, false)) 0 = .ok o ∧
      o.trace = [LockEvent.RLock 0, LockEvent.RUnlock 0, LockEvent.RLock 1,
        LockEvent.RUnlock 1] ∧
      Disciplined o1.trace ∧ Disciplined o.trace := by
  obtain ⟨o1, h1, ht1, o, h2, ht2⟩ :
      ∃ o1, Set (refDeps 1) (New 0) "a" (Value.int 1) = .ok o1 ∧
        o1.trace = [LockEvent.Lock 1, LockEvent.Unlock 1] ∧
        ∃ o, Range (refDeps 1) o1.map (fun (n : Nat) _ _ => (n + 1, false)) 0 = .ok o ∧
          o.trace = [LockEvent.RLock 0, LockEvent.RUnlock 0, LockEvent.RLock 1,
            LockEvent.RUnlock 1] :=
    ⟨_, rfl, rfl, _, rfl, rfl⟩
  obtain ⟨_, _, _, _, _, hd1, _⟩ :=
    (@lock_discipline _ Nat (refDeps 1) (New 0)).1 "a" (Value.int 1) o1 h1
  obtain ⟨_, _, _, _, _, hd2, _⟩ :=
    (@lock_discipline _ Nat (refDeps 1) o1.map).2.2.2.2 _ 0 o h2
  exact ⟨o1, o, h1, ht1, h2, ht2, hd1, hd2⟩

/-! ## Placement and frames -/

/-- A reachable map is a new map or satisfies the invariant. -/
theorem Reachable.new_or_inv {T : Type} {d : Deps T} (hl : d.rhh.Lawful) {m : Map T}
    (h : Reachable d m) : (∃ c, m = New c) ∨ Inv d m := by
  cases h with
  | new cap => exact Or.inl ⟨cap, rfl⟩
  | set k v hm hs =>
    exact Or.inr (((Reachable.set k v hm hs).good hl).resolve_left (by
      obtain ⟨m1, i, t, h0, _, _, _, hmap, _⟩ := Set_ok_form hs
      rw [hmap]
      simp [(initDo_ok_init d _ m1 h0).1]))
  | get k hm hs =>
    exact Or.inr (((Reachable.get k hm hs).good hl).resolve_left (by
      obtain ⟨m1, i, t, h0, _, _, _, hmap, _⟩ := Get_ok_form hs
      rw [hmap]
      simp [(initDo_ok_init d _ m1 h0).1]))
  | delete k hm hs =>
    exact Or.inr (((Reachable.delete k hm hs).good hl).resolve_left (by
      obtain ⟨m1, i, t, h0, _, _, _, hmap, _⟩ := Delete_ok_form hs
      rw [hmap]
      simp [(initDo_ok_init d _ m1 h0).1]))
  | len hm hs =>
    exact Or.inr (((Reachable.len hm hs).good hl).resolve_left (by
      obtain ⟨m1, h0, _, hmap, _⟩ := Len_ok_form hs
      rw [hmap]
      simp [(initDo_ok_init d _ m1 h0).1]))
  | range iter s0 hm hs =>
    exact Or.inr (((Reachable.range iter s0 hm hs).good hl).resolve_left (by
      obtain ⟨m1, h0, _, hmap, _⟩ := Range_ok_form hs
      rw [hmap]
      simp [(initDo_ok_init d _ m1 h0).1]))

/-- C18: placement invariant. In every map reachable from a new map by `Set`,
`Get`, `Delete`, `Len` and `Range`, every key stored in the table of shard `i`
(a key that the table finds, or equally a key among its entries) has
`choose(k) = i`; hence no key is stored in two different shards. -/
theorem placement {T : Type} (d : Deps T) (hl : d.rhh.Lawful) (m : Map T)
    (hm : Reachable d m) :
    (∀ (i : Nat) (t : T) (k : String), m.s[i]? = some t → (d.rhh.Get t k).2 = true →
      choose d m k = (i : Int)) ∧
    (∀ (i : Nat) (t : T) (k : String) (v : Value), m.s[i]? = some t →
      (k, v) ∈ d.rhh.entries t → choose d m k = (i : Int)) ∧
    (∀ (i j : Nat) (ti tj : T) (k : String), m.s[i]? = some ti → m.s[j]? = some tj →
      (d.rhh.Get ti k).2 = true → (d.rhh.Get tj k).2 = true → i = j) := by
  rcases hm.new_or_inv hl with ⟨c, rfl⟩ | hinv
  · refine ⟨?_, ?_, ?_⟩
    · intro i t k hi
      simp [New] at hi
    · intro i t k v hi
      simp [New] at hi
    · intro i j ti tj k hi
      simp [New] at hi
  · have h1 : ∀ (i : Nat) (t : T) (k : String), m.s[i]? = some t →
        (d.rhh.Get t k).2 = true → choose d m k = (i : Int) := hinv.place
    refine ⟨h1, ?_, ?_⟩
    · intro i t k v hi hmem
      have hg := (hl.mem_entries t k v (hinv.reach i t hi)).1 hmem
      exact h1 i t k hi (by rw [hg])
    · intro i j ti tj k hi hj hgi hgj
      have e1 := h1 i ti k hi hgi
      have e2 := h1 j tj k hj hgj
      rw [e1] at e2
      omega

theorem placement_witness :
    assocTable.Lawful ∧
      ∃ o, Set (refDeps 1) (New 0) "a" (Value.int 1) = .ok o ∧
        o.map.s[1]? = some [("a", Value.int 1)] ∧ choose (refDeps 1) o.map "a" = 1 := by
  obtain ⟨o, ho, hs⟩ :
      ∃ o, Set (refDeps 1) (New 0) "a" (Value.int 1) = .ok o ∧
        o.map.s[1]? = some [("a", Value.int 1)] :=
    ⟨_, rfl, rfl⟩
  have h := placement (refDeps 1) assocTable_lawful o.map
    (Reachable.set "a" (Value.int 1) (Reachable.new 0) ho)
  exact ⟨assocTable_lawful, o, ho, hs, h.1 1 _ "a" hs rfl⟩

/-- C19: frame of a write. On every reachable map, for keys `k0 ≠ k`, `Set(k, v)`
and `Delete(k)` leave the result of `Get(k0)` unchanged, also when both keys
hash to the same shard, and leave the table of every shard other than
`choose(k)` as it was in the initialised map. The calls return whenever
`initDo` does (`InitReturns`). -/
theorem write_frame {T : Type} (d : Deps T) (hl : d.rhh.Lawful) (m : Map T)
    (hm : Reachable d m) (k k0 : String) (v : Value) (hne : k0 ≠ k) :
    (∀ o g, Set d m k v = .ok o → Get d m k0 = .ok g →
      ∃ g1, Get d o.map k0 = .ok g1 ∧ g1.ret = g.ret) ∧
    (∀ o g, Delete d m k = .ok o → Get d m k0 = .ok g →
      ∃ g1, Get d o.map k0 = .ok g1 ∧ g1.ret = g.ret) ∧
    (∀ o m1, Set d m k v = .ok o → initDo d m = .ok m1 →
      ∀ j : Nat, (j : Int) ≠ choose d m1 k → o.map.s[j]? = m1.s[j]?) ∧
    (∀ o m1, Delete d m k = .ok o → initDo d m = .ok m1 →
      ∀ j : Nat, (j : Int) ≠ choose d m1 k → o.map.s[j]? = m1.s[j]?) ∧
    (d.InitReturns m →
      ∃ o1 o2 g, Set d m k v = .ok o1 ∧ Delete d m k = .ok o2 ∧ Get d m k0 = .ok g) := by
  have hg := hm.good hl
  refine ⟨?_, ?_, ?_, ?_, fun hr => ?_⟩
  · intro o g ho hget
    obtain ⟨m1, i, t, h0, hinv, hi, ht, rfl⟩ := Set_ok_spec hl hg ho
    obtain ⟨m2, h02, _, hret, _⟩ := Get_ok_spec hl hg hget
    rw [h0] at h02
    cases h02
    refine ⟨_, Get_of_inv (hinv.after_set hl k v hi ht) k0, ?_⟩
    show Map.find d _ k0 = g.ret
    rw [find_after_set hl hinv k v hi ht k0, if_neg hne, hret]
  · intro o g ho hget
    obtain ⟨m1, i, t, h0, hinv, hi, ht, rfl⟩ := Delete_ok_spec hl hg ho
    obtain ⟨m2, h02, _, hret, _⟩ := Get_ok_spec hl hg hget
    rw [h0] at h02
    cases h02
    refine ⟨_, Get_of_inv (hinv.after_delete hl k hi ht) k0, ?_⟩
    show Map.find d _ k0 = g.ret
    rw [find_after_delete hl hinv k hi ht k0, if_neg hne, hret]
  · intro o m1 ho h0 j hj
    obtain ⟨m2, i, t, h02, hi, _, _, hmap, _⟩ := Set_ok_form ho
    rw [h0] at h02
    cases h02
    rw [hmap]
    show (m1.s.set i _)[j]? = m1.s[j]?
    exact List.getElem?_set_ne (fun e => hj (by rw [hi, e]))
  · intro o m1 ho h0 j hj
    obtain ⟨m2, i, t, h02, hi, _, _, hmap, _⟩ := Delete_ok_form ho
    rw [h0] at h02
    cases h02
    rw [hmap]
    show (m1.s.set i _)[j]? = m1.s[j]?
    exact List.getElem?_set_ne (fun e => hj (by rw [hi, e]))
  · obtain ⟨o1, h1⟩ := Set_returns hl hg hr k v
    obtain ⟨o2, h2⟩ := Delete_returns hl hg hr k
    obtain ⟨g, h3⟩ := Get_returns hl hg hr k0
    exact ⟨o1, o2, g, h1, h2, h3⟩

theorem write_frame_witness :
    assocTable.Lawful ∧
      ∃ o1 g o g1, Set (refDeps 1) (New 0) "a" (Value.int 1) = .ok o1 ∧
        Get (refDeps 1) o1.map "a" = .ok g ∧ g.ret = (Value.int 1, true) ∧
        Set (refDeps 1) o1.map "seventeen letters" (Value.int 2) = .ok o ∧
        Get (refDeps 1) o.map "a" = .ok g1 ∧ g1.ret = (Value.int 1, true) := by
  obtain ⟨o1, h1, g, hg, hgr, o, ho⟩ :
      ∃ o1, Set (refDeps 1) (New 0) "a" (Value.int 1) = .ok o1 ∧
        ∃ g, Get (refDeps 1) o1.map "a" = .ok g ∧ g.ret = (Value.int 1, true) ∧
          ∃ o, Set (refDeps 1) o1.map "seventeen letters" (Value.int 2) = .ok o :=
    ⟨_, rfl, _, rfl, rfl, _, rfl⟩
  have h := write_frame (refDeps 1) assocTable_lawful o1.map
    (Reachable.set "a" (Value.int 1) (Reachable.new 0) h1) "seventeen letters" "a"
    (Value.int 2) (by decide)
  obtain ⟨g1, hg1, hr1⟩ := h.1 o g ho hg
  exact ⟨assocTable_lawful, o1, g, o, g1, h1, hg, hgr, ho, hg1, hr1.trans hgr⟩

/-- C20: read-only operations do not change the contents. On every initialised
reachable map `Get(k)`, `Len()` (which takes the exclusive lock of each shard)
and `Range`, whose visitor works on its own state only, return and leave the
map, and so the table of every shard, as it was; any following `Get` or `Len`
therefore returns what it would have returned before. -/
theorem reads_keep_contents {T σ : Type} (d : Deps T) (m : Map T) (hm : Reachable d m)
    (hi : m.init = true) (k : String) (iter : σ → String → Value → σ × Bool) (s0 : σ) :
    ∃ o1 o2 o3, Get d m k = .ok o1 ∧ Len d m = .ok o2 ∧ Range d m iter s0 = .ok o3 ∧
      o1.map = m ∧ o2.map = m ∧ o3.map = m ∧
      o1.map.s = m.s ∧ o2.map.s = m.s ∧ o3.map.s = m.s ∧
      (∀ k1, Get d o1.map k1 = Get d m k1 ∧ Get d o2.map k1 = Get d m k1 ∧
        Get d o3.map k1 = Get d m k1) ∧
      Len d o1.map = Len d m ∧ Len d o2.map = Len d m ∧ Len d o3.map = Len d m := by
  have hs : Sized m := hm.sized.resolve_left (by rw [hi]; simp)
  obtain ⟨o1, h1⟩ := Get_of_sized (d := d) hs k
  have h0 := initDo_of_init d m hi
  have h2 := Len_of_initDo h0
  have h3 := Range_of_initDo h0 iter s0
  obtain ⟨m1, _, _, h01, _, _, _, hmap1, _⟩ := Get_ok_form h1
  rw [h0] at h01
  cases h01
  refine ⟨o1, _, _, h1, h2, h3, hmap1, rfl, rfl, by rw [hmap1], rfl, rfl, ?_, ?_, rfl, rfl⟩
  · intro k1
    rw [hmap1]
    exact ⟨rfl, rfl, rfl⟩
  · rw [hmap1]

theorem reads_keep_contents_witness :
    ∃ o o1 o2 o3, Set (refDeps 1) (New 0) "a" (Value.int 1) = .ok o ∧ o.map.init = true ∧
      Get (refDeps 1) o.map "a" = .ok o1 ∧ Len (refDeps 1) o.map = .ok o2 ∧
      Range (refDeps 1) o.map (fun (n : Nat) _ _ => (n + 1, true)) 0 = .ok o3 ∧
      o1.map = o.map ∧ o2.map = o.map ∧ o3.map = o.map ∧ o3.ret = 1 := by
  obtain ⟨o, ho, hi, hr⟩ :
      ∃ o, Set (refDeps 1) (New 0) "a" (Value.int 1) = .ok o ∧ o.map.init = true ∧
        (Range (refDeps 1) o.map (fun (n : Nat) _ _ => (n + 1, true)) 0).toOption.map
          (fun o3 => o3.ret) = some 1 :=
    ⟨_, rfl, rfl, rfl⟩
  obtain ⟨o1, o2, o3, h1, h2, h3, e1, e2, e3, _⟩ :=
    reads_keep_contents (refDeps 1) o.map (Reachable.set "a" (Value.int 1) (Reachable.new 0) ho)
      hi "a" (fun (n : Nat) _ _ => (n + 1, true)) 0
  rw [h3] at hr
  exact ⟨o, o1, o2, o3, ho, hi, h1, h2, h3, e1, e2, e3, Option.some.inj hr⟩

end Shardmap
